import Mathlib

set_option maxHeartbeats 4000000
set_option maxRecDepth 16000

/-
Verification of the `phylo` phylogenetic-tree library (src/src/phy.c) against
its natural-language specification.

The development is a shallow embedding of phy.c:

* a node (`struct phy_node`) is a rose tree `RNode`: the `lfdesc`/`next`
  doubly-linked list of immediate descendants becomes a `List RNode`, the
  `anc` pointer is implicit (a node is addressed by its path of child
  positions from the root), `brlen` (a C double used only for exact
  arithmetic by the algorithms under study) is modelled as `ℚ`;
* the Newick reader (`read_newick`, `read_label`, `read_note`, `read_brlen`)
  is a fuelled state machine over the input character list with the
  current-node/ancestor-chain pointer structure represented as a zipper,
  returning `Except Nat` where the `Nat` is the value stored in the global
  `phy_errno` slot (1 = allocation, 2 = unexpected character,
  3 = unifurcation, 4 = malformed input);
* the writer (`write_newick` etc.) produces the list of characters
  accumulated in the output buffer;
* `phy_build` assigns indices exactly as the C preorder walk does
  (tips numbered from 0 in preorder, internal nodes from `ntip`);
* the traversal cursor is the integer state machine of
  `phy_cursor_prepare_v2` / `phy_cursor_step` over positions in the
  `nodes` / `inodes` arrays;
* `phy_node_swap`, whose effect lives entirely in the raw `prev`/`next`/
  `lfdesc` pointers, is embedded as a small pointer machine so that the
  aliasing behaviour of the C assignments is preserved exactly;
* `phy_extract_subtree` is embedded as its three phases: the ancestor
  bitmask (`marked`), the pruned copy (`induced`), and the unifurcation
  splice (`splice`/`collapse`, with the root-chain variant that resets
  the surviving root's branch length).

Allocation failure (errno 1) cannot occur in the embedding; all other
control flow is translated faithfully, including the places where the C
deviates from its documentation (those deviations are what several of the
theorems below are about).
-/

/-! ## The node data model -/

/-- Payload of `struct phy_node`: label, note and branch length.
`lab`/`note` are `Option` because the C distinguishes a null pointer from
an empty string. -/
structure NodeData where
  lab : Option String := none
  note : Option String := none
  brlen : ℚ := 0
deriving Repr, DecidableEq

/-- A node together with the subtree below it: `children` is the
`lfdesc`/`next` sibling list in order. -/
inductive RNode where
  | mk : NodeData → List RNode → RNode
deriving Repr

/-- Field accessor: the data stored at a node. -/
def RNode.data : RNode → NodeData
  | .mk d _ => d

/-- Field accessor: the immediate descendants, in sibling-list order. -/
def RNode.children : RNode → List RNode
  | .mk _ cs => cs

/-- Branch length of the edge leading to this node. -/
def RNode.brlen (t : RNode) : ℚ := t.data.brlen

/-- Label of the node (`lab` field). -/
def RNode.lab (t : RNode) : Option String := t.data.lab

/-- Note of the node (`note` field). -/
def RNode.note (t : RNode) : Option String := t.data.note

/-- Number of immediate descendants (`ndesc` field). -/
def RNode.ndesc (t : RNode) : Nat := t.children.length

/-- A node is terminal (a tip) iff it has no descendants (`phy_node_istip`). -/
def RNode.isTip (t : RNode) : Bool := t.children.isEmpty

/-- Replace the branch length (used to model in-place `brlen` updates). -/
def mapBr (f : ℚ → ℚ) : RNode → RNode
  | .mk d cs => .mk { d with brlen := f d.brlen } cs

mutual
/-- Number of nodes of the subtree (used as a termination measure and as
the `nnode` count of a connected node graph). -/
def RNode.size : RNode → Nat
  | .mk _ cs => 1 + sizeList cs
/-- Total size of a list of subtrees. -/
def sizeList : List RNode → Nat
  | [] => 0
  | c :: cs => c.size + sizeList cs
end

theorem size_mk (d : NodeData) (cs : List RNode) :
    (RNode.mk d cs).size = 1 + sizeList cs := rfl

theorem sizeList_cons (c : RNode) (cs : List RNode) :
    sizeList (c :: cs) = c.size + sizeList cs := rfl

theorem size_pos (t : RNode) : 0 < t.size := by
  cases t with
  | mk d cs => simp only [RNode.size]; omega

theorem size_mem_lt {c : RNode} {cs : List RNode} (h : c ∈ cs) :
    c.size ≤ sizeList cs := by
  induction cs with
  | nil => cases h
  | cons b bs ih =>
      rcases List.mem_cons.mp h with rfl | h
      · simp only [sizeList_cons]; omega
      · have := ih h
        simp only [sizeList_cons]; omega

theorem size_child_lt {c : RNode} {t : RNode} (h : c ∈ t.children) :
    c.size < t.size := by
  cases t with
  | mk d cs =>
      have : c.size ≤ sizeList cs := size_mem_lt h
      simp only [RNode.size, RNode.children] at *
      omega

theorem size_mapBr (f : ℚ → ℚ) (t : RNode) : (mapBr f t).size = t.size := by
  cases t with
  | mk d cs => rfl

/-! ## Preorder sequence and the index assignment of `phy_build`

`phy_build` performs one non-recursive preorder walk from the root
(following `lfdesc`, then `next`, then climbing `anc` pointers), recording
every node into the `nodes` array in visitation order, giving tips
sequential indices from 0 and internal nodes sequential indices from
`ntip`, and recording `vseq[index] = position in nodes`.  We embed the
walk by its effect: `preFlags` is the preorder sequence of is-tip flags,
`assignIdx` reproduces the `j`/`k` counters of the walk. -/

mutual
/-- Preorder sequence of is-tip flags of a subtree (the order in which the
`phy_build` walk meets the nodes). -/
def preFlags : RNode → List Bool
  | .mk _ cs => cs.isEmpty :: preFlagsList cs
/-- Preorder flags of a forest, left to right. -/
def preFlagsList : List RNode → List Bool
  | [] => []
  | c :: cs => preFlags c ++ preFlagsList cs
end

/-- Number of nodes of a subtree, as counted by the walk. -/
def countNodes (t : RNode) : Nat := (preFlags t).length

/-- Number of terminal nodes of a subtree. -/
def countTips (t : RNode) : Nat := (preFlags t).count true

/-- Number of internal nodes of a subtree. -/
def countInt (t : RNode) : Nat := (preFlags t).count false

/-- The index assignment loop of `phy_build`: walking the preorder flag
list with the tip counter `k` and the internal counter `j`, a tip receives
index `k` (then `k+1` …) and an internal node receives `ntip + j`.  The
result pairs each preorder position's flag with its assigned index. -/
def assignIdx (ntip : Nat) : Nat → Nat → List Bool → List (Bool × Nat)
  | _, _, [] => []
  | k, j, b :: bs =>
      if b then (true, k) :: assignIdx ntip (k + 1) j bs
      else (false, ntip + j) :: assignIdx ntip k (j + 1) bs

/-- Indices assigned by `phy_build` to the preorder positions of `t`,
when built with tip count `ntip`. -/
def buildIdx (t : RNode) (ntip : Nat) : List Nat :=
  (assignIdx ntip 0 0 (preFlags t)).map Prod.snd

/-! ## Paths

A node of a tree is addressed by the list of child positions leading to it
from the root; the `anc` pointer of the C corresponds to `List.dropLast`.
Using paths (rather than subtree values) gives every node a distinct
identity, as distinct C nodes have distinct addresses. -/

/-- A path of child positions. -/
abbrev NPath := List Nat

/-- The subtree rooted at the node addressed by a path. -/
def nodeAt : RNode → NPath → Option RNode
  | t, [] => some t
  | t, i :: π => match t.children.get? i with
    | some c => nodeAt c π
    | none => none

/-- The subtree at a path, defaulting to a bare node for invalid paths. -/
def nodeAtD (t : RNode) (π : NPath) : RNode := (nodeAt t π).getD (.mk {} [])

/-- A path addresses a node of the tree. -/
def validPath (t : RNode) (π : NPath) : Bool := (nodeAt t π).isSome

/-- A path addresses a terminal node of the tree. -/
def validTipPath (t : RNode) (π : NPath) : Bool :=
  match nodeAt t π with
  | some c => c.isTip
  | none => false

/-- Boolean prefix test on paths (`a` lies on the ancestor chain of `b`,
inclusively). -/
def pathLE : NPath → NPath → Bool
  | [], _ => true
  | _ :: _, [] => false
  | i :: p, j :: q => i == j && pathLE p q

/-- Strict (proper-ancestor) version of `pathLE`. -/
def pathLT (p q : NPath) : Bool := pathLE p q && p.length < q.length

/-- Longest common path of two paths: the deepest common ancestor. -/
def lcp : NPath → NPath → NPath
  | i :: p, j :: q => if i = j then i :: lcp p q else []
  | _, _ => []

/-- Preorder position of the node at a path: the number of nodes the
preorder walk visits strictly before it. -/
def posOf : RNode → NPath → Nat
  | _, [] => 0
  | t, i :: π => 1 + ((t.children.take i).map countNodes).sum +
      posOf (nodeAtD t [i]) π

/-- Index (in the `phy_build` numbering) of the node at a path: the entry
of `buildIdx` at its preorder position. -/
def idxAt (t : RNode) (ntip : Nat) (π : NPath) : Nat :=
  (buildIdx t ntip).getD (posOf t π) 0

/-- Position in the `nodes` array of the node with a given index: the
`vseq` lookup table built by `phy_build`. -/
def vseqOf (t : RNode) (ntip : Nat) (i : Nat) : Nat :=
  (buildIdx t ntip).indexOf i

/-! ## The Newick reader

`struct newick_reader` holds an input cursor, the tip/node counters, the
scratch buffer `z`, and the pointer `p` to the node currently being read.
The reader is embedded as a state machine: the chain of ancestors of `p`
(each with the children already completed to its left) is a zipper stack,
`cur`/`curCh` are the data and completed children of `p` itself.  Reading
past the end of the C string yields the terminator, modelled by `cGet`.
Each loop gets explicit fuel; `s.length + 2` steps are always enough
because every iteration either consumes a character or stops, so the fuel
branch (mapped to errno 4, like the other forms of running off the
string) is never taken on any input. -/

/-- Character of the input at position `i`, with the C string terminator
beyond the end. -/
def cGet (s : List Char) (i : Nat) : Char := s.getD i (Char.ofNat 0)

/-- Whitespace characters rejected inside labels (space, `\n`, `\r`,
vertical tab, `\t`, form feed). -/
def isWS (c : Char) : Bool :=
  c = ' ' || c = '\n' || c = '\r' || c = Char.ofNat 11 || c = '\t' ||
    c = Char.ofNat 12

/-- Decimal digit test for the `atof` model. -/
def isDigitCh (c : Char) : Bool := '0' ≤ c && c ≤ '9'

/-- Read a maximal run of digits: value, number of digits, rest. -/
def readDigits : List Char → Nat → Nat → Nat × Nat × List Char
  | [], v, n => (v, n, [])
  | c :: cs, v, n =>
      if isDigitCh c then readDigits cs (10 * v + (c.toNat - 48)) (n + 1)
      else (v, n, c :: cs)

/-- Model of C `atof` on the character set admitted by `read_brlen`
(sign, digits, decimal point, `e`-exponent); a string with no leading
numeric prefix converts to 0, and an `e` not followed by digits is
ignored, as in `strtod`. -/
def atof (z : List Char) : ℚ :=
  let c0 := z.headD (Char.ofNat 0)
  let sgnNeg := c0 = '-'
  let z1 := if c0 = '-' || c0 = '+' then z.tail else z
  let ipRes := readDigits z1 0 0
  let fpRes : Nat × Nat × List Char :=
    if ipRes.2.2.headD (Char.ofNat 0) = '.' then readDigits ipRes.2.2.tail 0 0
    else (0, 0, ipRes.2.2)
  if ipRes.2.1 + fpRes.2.1 = 0 then 0
  else
    let ex : ℤ :=
      if fpRes.2.2.headD (Char.ofNat 0) = 'e' then
        let r := fpRes.2.2.tail
        let c1 := r.headD (Char.ofNat 0)
        let eNeg := c1 = '-'
        let r1 := if c1 = '-' || c1 = '+' then r.tail else r
        let eRes := readDigits r1 0 0
        if eRes.2.1 = 0 then 0
        else if eNeg then -(eRes.1 : ℤ) else (eRes.1 : ℤ)
      else 0
    let mantNum : ℤ :=
      (if sgnNeg then -1 else 1) * ((ipRes.1 : ℤ) * (10 : ℤ) ^ fpRes.2.1 + (fpRes.1 : ℤ))
    if 0 ≤ ex then mkRat (mantNum * (10 : ℤ) ^ ex.toNat) ((10 : Nat) ^ fpRes.2.1)
    else mkRat mantNum ((10 : Nat) ^ fpRes.2.1 * (10 : Nat) ^ (-ex).toNat)

/-- Loop of `read_label`: accumulate characters until one of
`: , ) ; [` (pushed back), failing with errno 2 on whitespace, `(` or
`]`, and errno 4 on the terminator.  Returns the new cursor and the
accumulated characters. -/
def readLabelLoop (s : List Char) : Nat → Nat → List Char →
    Except Nat (Nat × List Char)
  | 0, _, _ => .error 4
  | fuel + 1, i, acc =>
      let c := cGet s i
      if c = ':' || c = ',' || c = ')' || c = ';' || c = '[' then
        .ok (i, acc)
      else if isWS c || c = '(' || c = ']' then .error 2
      else if c = Char.ofNat 0 then .error 4
      else readLabelLoop s fuel (i + 1) (acc ++ [c])

/-- Loop of `read_note`.  The C loop condition is
`while ((c = newick[cursor++]), opened > 0)`: a character is consumed
*before* `opened` is tested, so the character following the closing `]`
is consumed and discarded.  That swallowed character is reproduced here
(the `opened = 0` branch returns a cursor already moved past `c`). -/
def readNoteLoop (s : List Char) : Nat → Nat → Nat → List Char →
    Except Nat (Nat × List Char)
  | 0, _, _, _ => .error 4
  | fuel + 1, i, opened, acc =>
      let c := cGet s i
      if opened = 0 then .ok (i + 1, acc)
      else if c = Char.ofNat 0 then .error 4
      else
        let opened2 := if c = '[' then opened + 1
          else if c = ']' then opened - 1 else opened
        if opened2 = 0 then readNoteLoop s fuel (i + 1) opened2 acc
        else readNoteLoop s fuel (i + 1) opened2 (acc ++ [c])

/-- Loop of `read_brlen` after the `:`: accumulate characters from
`e - + 0-9 .`, stop (pushing back) at `, ) ;`, errno 4 at the
terminator, errno 2 at anything else. -/
def readBrlenLoop (s : List Char) : Nat → Nat → List Char →
    Except Nat (Nat × List Char)
  | 0, _, _ => .error 4
  | fuel + 1, i, acc =>
      let c := cGet s i
      if c = 'e' || c = '-' || c = '+' || c = '.' || isDigitCh c then
        readBrlenLoop s fuel (i + 1) (acc ++ [c])
      else if c = ',' || c = ')' || c = ';' then .ok (i, acc)
      else if c = Char.ofNat 0 then .error 4
      else .error 2

/-- `read_label`: reads an optional label at the cursor; a non-empty
accumulation replaces the node's label, an empty one leaves it alone. -/
def read_label (s : List Char) (i : Nat) (d : NodeData) :
    Except Nat (Nat × NodeData) :=
  match readLabelLoop s (s.length + 2) i [] with
  | .error e => .error e
  | .ok (i2, acc) =>
      if acc.isEmpty then .ok (i2, d)
      else .ok (i2, { d with lab := some (String.mk acc) })

/-- `read_note`: if the cursor is at `[`, read a balanced note (storing
the text between the outermost brackets); otherwise push the character
back.  The character after the closing bracket is swallowed by the loop
(see `readNoteLoop`). -/
def read_note (s : List Char) (i : Nat) (d : NodeData) :
    Except Nat (Nat × NodeData) :=
  if cGet s i = '[' then
    match readNoteLoop s (s.length + 2) (i + 1) 1 [] with
    | .error e => .error e
    | .ok (i2, acc) =>
        if acc.isEmpty then .ok (i2, d)
        else .ok (i2, { d with note := some (String.mk acc) })
  else .ok (i, d)

/-- `read_brlen`: if the cursor is at `:`, read a numeric literal and
convert it with `atof`; a non-empty accumulation replaces the branch
length. -/
def read_brlen (s : List Char) (i : Nat) (d : NodeData) :
    Except Nat (Nat × NodeData) :=
  if cGet s i = ':' then
    match readBrlenLoop s (s.length + 2) (i + 1) [] with
    | .error e => .error e
    | .ok (i2, acc) =>
        if acc.isEmpty then .ok (i2, d)
        else .ok (i2, { d with brlen := atof acc })
  else .ok (i, d)

/-- State of the `read_newick` main loop: input cursor, the `ntip` and
`nnode` counters, the data and completed children of the current node
`p`, and the zipper stack of ancestors of `p` (each with the children
completed before descending into the branch containing `p`).
`stack = []` exactly when `p` is the root. -/
structure RState where
  i : Nat
  ntip : Nat
  nnode : Nat
  cur : NodeData
  curCh : List RNode
  stack : List (NodeData × List RNode)

/-- The `while ((c = newick[cursor++]) != ';')` loop of `read_newick`.
On success it returns the node `ctx->p` at which the `;` was met
(its ancestor chain, if any, in the final state's stack) together with
the final counters. -/
def newickLoop (s : List Char) : Nat → RState → Except Nat (RNode × RState)
  | 0, _ => .error 4
  | fuel + 1, st =>
      let c := cGet s st.i
      if c = ';' then
        if st.curCh.length < 2 then .error 3
        else .ok (RNode.mk st.cur st.curCh, st)
      else if c = '(' then
        if st.i ≥ 1 && !(cGet s (st.i - 1) = ',' || cGet s (st.i - 1) = '(')
        then .error 4
        else
          newickLoop s fuel
            { st with
              i := st.i + 1, nnode := st.nnode + 1,
              cur := {}, curCh := [],
              stack := (st.cur, st.curCh) :: st.stack }
      else if c = ',' then
        match st.stack with
        | [] => .error 4
        | (pd, pcs) :: rest =>
            newickLoop s fuel
              { st with
                i := st.i + 1, nnode := st.nnode + 1,
                ntip := st.ntip + (if st.curCh.isEmpty then 1 else 0),
                cur := {}, curCh := [],
                stack := (pd, pcs ++ [RNode.mk st.cur st.curCh]) :: rest }
      else if c = ')' then
        match st.stack with
        | [] => .error 4
        | (pd, pcs) :: rest =>
            let newCh := pcs ++ [RNode.mk st.cur st.curCh]
            if newCh.length < 2 then .error 3
            else
              newickLoop s fuel
                { st with
                  i := st.i + 1,
                  ntip := st.ntip + (if st.curCh.isEmpty then 1 else 0),
                  cur := pd, curCh := newCh, stack := rest }
      else
        match read_label s st.i st.cur with
        | .error e => .error e
        | .ok (i1, d1) =>
            match read_note s i1 d1 with
            | .error e => .error e
            | .ok (i2, d2) =>
                match read_brlen s i2 d2 with
                | .error e => .error e
                | .ok (i3, d3) =>
                    newickLoop s fuel { st with i := i3, cur := d3 }

/-- `read_newick`: demand a final `;` (an empty input is malformed),
allocate the root, run the main loop.  Returns the node at which the
terminator was met together with the final reader state. -/
def read_newick (s : List Char) : Except Nat (RNode × RState) :=
  if s.getLast? ≠ some ';' then .error 4
  else newickLoop s (s.length + 2)
    { i := 0, ntip := 0, nnode := 1, cur := {}, curCh := [], stack := [] }

/-- A built phylogeny (`struct phy`): the stored `ntip`/`nnode` counters
and the node graph.  The `nodes`, `inodes` and `vseq` arrays filled in by
`phy_build`'s preorder walk are recovered by `buildIdx`/`posOf`/`vseqOf`;
the walk records exactly the nodes of the subtree rooted at the argument
(climbing out of it never stores a node), so the graph is kept as the
root's subtree.  The stored counters are the caller's arguments even when
they disagree with the graph. -/
structure Phy where
  ntip : Nat
  nnode : Nat
  tree : RNode
deriving Repr

/-- `phy_build` (allocation failure aside, the build cannot fail). -/
def phy_build (root : RNode) (nnode ntip : Nat) : Phy :=
  { ntip := ntip, nnode := nnode, tree := root }

/-- `phy_read_newickstr`: parse, then build with the reader's counters.
The error value is the content of `phy_errno` after the call. -/
def phy_read_newickstr (s : List Char) : Except Nat Phy :=
  match read_newick s with
  | .error e => .error e
  | .ok (t, st) => .ok (phy_build t st.nnode st.ntip)

/-! ## The Newick writer -/

/-- Rounding to the nearest integer (used on non-negative arguments,
where truncating division computes the floor of `q + 1/2`). -/
def roundQ (q : ℚ) : ℤ := (2 * q.num + (q.den : ℤ)) / (2 * (q.den : ℤ))

/-- Decimal digits of a positive number, least significant first. -/
def digitsRev : Nat → Nat → List Char
  | 0, _ => []
  | fuel + 1, n =>
      if n = 0 then [] else Char.ofNat (48 + n % 10) :: digitsRev fuel (n / 10)

/-- Decimal rendering of a natural number. -/
def natStr (n : Nat) : List Char :=
  if n = 0 then ['0'] else (digitsRev 24 n).reverse

/-- Model of `sprintf(brlen, ":%f", ...)`'s number part: fixed-point with
six fractional digits, rounding to the nearest multiple of `10^-6` (the
branch lengths handled in this development are exactly representable, so
the binary-double rounding of the C library agrees with rational
rounding on them).  Rendered as the character list the writer
accumulates. -/
def fmtF6 (q : ℚ) : List Char :=
  let neg := q < 0
  let a : ℚ := if neg then -q else q
  let n : Nat := (2 * a.num.toNat * 1000000 + a.den) / (2 * a.den)
  let ip := n / 1000000
  let fp := n % 1000000
  let fs := natStr fp
  (if neg then ['-'] else []) ++ natStr ip ++ ['.'] ++
    List.replicate (6 - fs.length) '0' ++ fs

mutual
/-- `write_newick`: children in parentheses joined by commas (only when
`ndesc` is non-zero), then the label if non-empty, then the note if
non-empty (the C passes the stored note text to `write_chars` as is —
without re-adding the brackets that `read_note` stripped), then
`:%f` only when the branch length is strictly positive.  The output
buffer is modelled as the list of characters written. -/
def write_newick : RNode → List Char
  | .mk d cs =>
      (if cs.isEmpty then [] else '(' :: writeChildren cs ++ [')']) ++
      (match d.lab with | some l => l.data | none => []) ++
      (match d.note with | some nt => nt.data | none => []) ++
      (if d.brlen > 0 then ':' :: fmtF6 d.brlen else [])
/-- Serialize a sibling list, comma-separated. -/
def writeChildren : List RNode → List Char
  | [] => []
  | [c] => write_newick c
  | c :: cs => write_newick c ++ ',' :: writeChildren cs
end

/-- `phy_write_newickstr`: serialize the root and append the `;`. -/
def phy_write_newickstr (p : Phy) : List Char := write_newick p.tree ++ [';']

/-! ## Rootedness, duplication, unrooting -/

/-- `phy_isrooted`: 0 (false) iff the root has more than 2 children. -/
def phy_isrooted (p : Phy) : Bool := decide (p.tree.ndesc ≤ 2)

/-- `phy_duplicate`: serialize then reparse. -/
def phy_duplicate (p : Phy) : Except Nat Phy :=
  phy_read_newickstr (phy_write_newickstr p)

/-- `phy_unroot`.  The C tests `phy_isrooted(*in)` and stores NULL when
the test is *true* (root with at most two children); otherwise it
duplicates, prunes the root's first child `p`, prunes the node that is
then `root->lfdesc->next` — the original *third* child — as `q`, adds
`p`'s branch length onto `q`, zeroes `p`'s branch length, re-attaches
`q` under `p`, and builds from `p` with counters `nnode - 1`, `ntip`.
When the guard lets a tree through it has at least three children, so
the wildcard row (the C would dereference a NULL `q` there) is
unreachable; `phy_duplicate` failure is mapped to `none` (the C passes
the NULL into `phy_node_mrca`-free code and crashes; it cannot happen
for the trees considered here). -/
def phy_unroot (p : Phy) : Option Phy :=
  if phy_isrooted p then none
  else
    match phy_duplicate p with
    | .error _ => none
    | .ok d =>
        match d.tree.children with
        | c1 :: _ :: c3 :: _ =>
            let q := mapBr (fun b => b + c1.brlen) c3
            let newRoot := RNode.mk { c1.data with brlen := 0 }
              (c1.children ++ [q])
            some (phy_build newRoot (d.nnode - 1) d.ntip)
        | _ => none

/-! ## The sibling-list pointer machine and `phy_node_swap`

`phy_node_swap` acts directly on the `prev`/`next` pointers of two
siblings and on their ancestor's `lfdesc`.  To preserve the aliasing
behaviour of the assignment sequence exactly, the sibling list is
modelled as a pointer heap over node identifiers `Fin n`: `nxt`/`prv`
are the sibling links, `anc` gives each node's ancestor identifier, and
`lfd` is the `lfdesc` field of the (common) ancestor of the nodes under
study.  Each C statement is translated in order, reading the current
heap. -/

structure SibState (n : Nat) where
  nxt : Fin n → Option (Fin n)
  prv : Fin n → Option (Fin n)
  anc : Fin n → Option Nat
  lfd : Option (Fin n)

/-- Pointwise update of a pointer field. -/
def updF {n : Nat} (f : Fin n → Option (Fin n)) (i : Fin n)
    (v : Option (Fin n)) : Fin n → Option (Fin n) :=
  fun x => if x = i then v else f x

/-- `phy_node_swap(a, b)`: guard (`!a->anc || !b->anc ||
a->anc != b->anc` returns with no change), then the eight pointer
assignments of the C body in order, and finally the `lfdesc` fix-up. -/
def phy_node_swap {n : Nat} (st : SibState n) (a b : Fin n) : SibState n :=
  if st.anc a = none || st.anc b = none || st.anc a ≠ st.anc b then st
  else
    let next := st.nxt a
    let prev := st.prv a
    let s1 := { st with
      nxt := updF st.nxt a (st.nxt b), prv := updF st.prv a (st.prv b) }
    let s2 := match s1.nxt b with
      | some x => { s1 with prv := updF s1.prv x (some a) }
      | none => s1
    let s3 := match s2.prv b with
      | some x => { s2 with nxt := updF s2.nxt x (some a) }
      | none => s2
    let s4 := { s3 with nxt := updF s3.nxt b next }
    let s5 := { s4 with prv := updF s4.prv b prev }
    let s6 := match next with
      | some x => { s5 with prv := updF s5.prv x (some b) }
      | none => s5
    let s7 := match prev with
      | some x => { s6 with nxt := updF s6.nxt x (some b) }
      | none => s6
    if s7.lfd = some a then { s7 with lfd := some b } else s7

/-! ## Most recent common ancestor -/

/-- The proper ancestors of a node, as marked by the first loop of
`phy_node_mrca` (`while ((a = a->anc) != 0) gotcha[a->index] = 1`): the
node itself is *not* marked.  Marking is by index; by the index
bijection of a built tree this is marking by node. -/
def ppres (a : NPath) : List NPath :=
  (List.range a.length).map (fun k => a.take k)

/-- The second loop of `phy_node_mrca`
(`while (b && !gotcha[b->index]) b = b->anc; return b`): walk up from
`b` itself until a marked node is met, returning NULL if the chain runs
out at the root. -/
def mrcaWalk (marked : List NPath) : NPath → Option NPath
  | [] => if [] ∈ marked then some [] else none
  | x :: xs =>
      if x :: xs ∈ marked then some (x :: xs)
      else mrcaWalk marked (x :: xs).dropLast
termination_by b => b.length
decreasing_by simp [List.length_dropLast]

/-- `phy_node_mrca` on node addresses: `a == b` short-circuits, then
mark the proper ancestors of `a` and walk up from `b`. -/
def phy_node_mrca (a b : NPath) : Option NPath :=
  if a = b then some a else mrcaWalk (ppres a) b

/-! ## The error slot -/

/-- `phy_errmsg`: reading the slot returns the message for the stored
kind and resets the slot to 0 for the four error kinds; any other value
leaves the slot alone and reports no errors.  The function returns
(message, new slot value). -/
def phy_errmsg : Nat → String × Nat
  | 1 => ("cannot allocate memory", 0)
  | 2 => ("encountered unexpected character in Newick string node label/branch length", 0)
  | 3 => ("detected unifurcation in Newick string", 0)
  | 4 => ("malformed Newick string", 0)
  | e => ("no errors detected", e)

/-! ## Decidable equality for trees and phylogenies -/

mutual
/-- Structural equality test for nodes. -/
def beqR : RNode → RNode → Bool
  | .mk d cs, .mk e ds => decide (d = e) && beqL cs ds
/-- Structural equality test for sibling lists. -/
def beqL : List RNode → List RNode → Bool
  | [], [] => true
  | c :: cs, d :: ds => beqR c d && beqL cs ds
  | _ :: _, [] => false
  | [], _ :: _ => false
end

mutual
theorem beqR_eq : ∀ a b, beqR a b = true → a = b
  | .mk d cs, .mk e ds => by
      simp only [beqR, Bool.and_eq_true, decide_eq_true_eq]
      rintro ⟨h1, h2⟩
      rw [h1, beqL_eq cs ds h2]
theorem beqL_eq : ∀ a b, beqL a b = true → a = b
  | [], [] => by intro _; rfl
  | c :: cs, d :: ds => by
      simp only [beqL, Bool.and_eq_true]
      rintro ⟨h1, h2⟩
      rw [beqR_eq c d h1, beqL_eq cs ds h2]
  | _ :: _, [] => by intro h; simp [beqL] at h
  | [], _ :: _ => by intro h; simp [beqL] at h
end

mutual
theorem beqR_refl : ∀ a, beqR a a = true
  | .mk d cs => by
      simp only [beqR, Bool.and_eq_true, decide_eq_true_eq]
      exact ⟨trivial, beqL_refl cs⟩
theorem beqL_refl : ∀ a, beqL a a = true
  | [] => rfl
  | c :: cs => by
      simp only [beqL, Bool.and_eq_true]
      exact ⟨beqR_refl c, beqL_refl cs⟩
end

instance : DecidableEq RNode := fun a b =>
  if h : beqR a b = true then isTrue (beqR_eq a b h)
  else isFalse (fun he => h (he ▸ beqR_refl a))

instance : DecidableEq Phy := fun p q =>
  match p, q with
  | ⟨a, b, t⟩, ⟨a2, b2, t2⟩ =>
      if h : a = a2 ∧ b = b2 ∧ t = t2 then
        isTrue (by obtain ⟨h1, h2, h3⟩ := h; rw [h1, h2, h3])
      else
        isFalse (fun he => by cases he; exact h ⟨rfl, rfl, rfl⟩)

/-- The error projection of a fallible result (0 when it succeeded). -/
def errOf {α : Type} : Except Nat α → Nat
  | .error e => e
  | .ok _ => 0

/-- Success test of a fallible result. -/
def isOkB {α : Type} : Except Nat α → Bool
  | .error _ => false
  | .ok _ => true

/-! ## Observations used to compare trees -/

mutual
/-- No node of the subtree has exactly one descendant. -/
def noUnif : RNode → Bool
  | .mk _ cs => !(cs.length == 1) && noUnifL cs
/-- List version of `noUnif`. -/
def noUnifL : List RNode → Bool
  | [] => true
  | c :: cs => noUnif c && noUnifL cs
end

mutual
/-- Labels of the terminal nodes of a subtree in preorder. -/
def tipLabels : RNode → List (Option String)
  | .mk d cs => if cs.isEmpty then [d.lab] else tipLabelsL cs
/-- List version of `tipLabels`. -/
def tipLabelsL : List RNode → List (Option String)
  | [] => []
  | c :: cs => tipLabels c ++ tipLabelsL cs
end

/-! ## Error-kind names (the values stored in `phy_errno`) -/

/-- `phy_errno` value for allocation failure. -/
def errAllocFailure : Nat := 1

/-- `phy_errno` value for an unexpected character. -/
def errInvalidChar : Nat := 2

/-- `phy_errno` value for a unifurcation. -/
def errUnifurcation : Nat := 3

/-- `phy_errno` value for malformed input. -/
def errMalformed : Nat := 4


/-! ## Evaluation lemmas

The embedded operations are executed on concrete inputs by `simp` using
their defining equations; the following attribute block registers the
executable layer for that purpose. -/

attribute [simp] RNode.data RNode.children RNode.brlen RNode.lab
  RNode.note RNode.ndesc RNode.isTip mapBr cGet isWS isDigitCh readDigits
  atof readLabelLoop readNoteLoop readBrlenLoop read_label read_note
  read_brlen newickLoop read_newick phy_build phy_read_newickstr
  digitsRev natStr fmtF6 write_newick writeChildren phy_write_newickstr
  phy_isrooted phy_duplicate phy_unroot updF phy_node_swap phy_errmsg
  errOf isOkB noUnif noUnifL tipLabels tipLabelsL

/-! ## Concrete phylogenies used by several theorems -/

/-- The specification's scenario tree, as a Newick string. -/
def nwkRooted : List Char := "((A:1,B:2)N1:3,(C:1,D:1)N2:1);".data

/-- The parse of `nwkRooted`: a rooted (two root children) 4-tip tree. -/
def phyRooted : Phy :=
  ⟨4, 7, RNode.mk {}
    [RNode.mk ⟨some "N1", none, 3⟩
      [RNode.mk ⟨some "A", none, 1⟩ [], RNode.mk ⟨some "B", none, 2⟩ []],
     RNode.mk ⟨some "N2", none, 1⟩
      [RNode.mk ⟨some "C", none, 1⟩ [], RNode.mk ⟨some "D", none, 1⟩ []]]⟩

/-- A basal multifurcation (root with three children). -/
def nwkMulti : List Char := "(A:1,B:2,C:3);".data

/-- The parse of `nwkMulti`. -/
def phyMulti : Phy :=
  ⟨3, 4, RNode.mk {}
    [RNode.mk ⟨some "A", none, 1⟩ [], RNode.mk ⟨some "B", none, 2⟩ [],
     RNode.mk ⟨some "C", none, 3⟩ []]⟩

/-- C1.  The claim says a basal multifurcation yields no result and a
root with at most 2 children is unrooted into a tree with one fewer
node.  The code does the opposite: `phy_unroot` stores NULL exactly when
`phy_isrooted` is *true* (root with ≤ 2 children) and runs the surgery
on multifurcating trees (the guard in phy.c:1375 is inverted with
respect to the header's documentation "If *in is already unrooted sets
*out equal to NULL").  At the rooted scenario tree the result is `none`;
at the basal multifurcation the surgery runs (and, using
`root->lfdesc->next` after the first prune, grafts the *third* child
onto the first, dropping the second). -/
theorem C1_unroot_guard_inverted :
    phy_read_newickstr nwkRooted = .ok phyRooted ∧
    phyRooted.tree.ndesc ≤ 2 ∧
    phy_unroot phyRooted = none ∧
    phy_read_newickstr nwkMulti = .ok phyMulti ∧
    phyMulti.tree.ndesc > 2 ∧
    (phy_unroot phyMulti).isSome = true := by
  refine ⟨?_, by simp +decide [phyRooted], by simp +decide [phyRooted], ?_,
    by simp +decide [phyMulti], by simp +decide [phyMulti]⟩
  · simp +decide [nwkRooted, phyRooted]
  · simp +decide [nwkMulti, phyMulti]

/-- C2, counterexample.  Parsing `"(A,B;"` does fail with no tree, but
the recorded error kind is Unifurcation (`phy_errno = 3`, set by the
`ctx->p->ndesc < 2` check met at the terminator), not MalformedInput
(`phy_errno = 4`) as the claim states. -/
theorem C2_counterexample :
    isOkB (phy_read_newickstr "(A,B;".data) = false ∧
    errOf (phy_read_newickstr "(A,B;".data) = errUnifurcation ∧
    errUnifurcation ≠ errMalformed := by
  refine ⟨by simp +decide, by simp +decide [errUnifurcation], by simp +decide [errUnifurcation, errMalformed]⟩

/-- C2, amended: parsing `"(A,B;"` fails, returning no tree and
recording the Unifurcation error kind (not MalformedInput); parsing
`"(A);"` fails, returning no tree and recording the Unifurcation error
kind. -/
theorem C2_amended_both_unifurcation :
    isOkB (phy_read_newickstr "(A,B;".data) = false ∧
    errOf (phy_read_newickstr "(A,B;".data) = errUnifurcation ∧
    isOkB (phy_read_newickstr "(A);".data) = false ∧
    errOf (phy_read_newickstr "(A);".data) = errUnifurcation := by
  refine ⟨by simp +decide, by simp +decide [errUnifurcation], by simp +decide, by simp +decide [errUnifurcation]⟩

/-- The note-carrying Newick string breaking the round trip. -/
def nwkNote : List Char := "(A[n]:1,B:2);".data

/-- What the reader actually produces from `nwkNote`: `read_note`'s exit
condition swallows the `:` after `[n]`, so the branch length `1` is then
re-read as a *label*, overwriting `A`. -/
def phyNote : Phy :=
  ⟨2, 3, RNode.mk {}
    [RNode.mk ⟨some "1", some "n", 0⟩ [], RNode.mk ⟨some "B", none, 2⟩ []]⟩

/-- The re-parse of the serialization of `phyNote`: the note is written
without brackets, so it fuses into the label. -/
def phyNoteRT : Phy :=
  ⟨2, 3, RNode.mk {}
    [RNode.mk ⟨some "1n", none, 0⟩ [], RNode.mk ⟨some "B", none, 2⟩ []]⟩

/-- C3.  The syntactically valid string `"(A[n]:1,B:2);"` parses
successfully into a unifurcation-free 2-tip tree whose tip labels are
`1` and `B` (already mangled by the swallowed `:`), but
write-then-reparse yields tip labels `1n` and `B`: the root's tip-label
partition differs between the two trees, refuting the round-trip claim.
-/
theorem C3_roundtrip_fails_on_notes :
    phy_read_newickstr nwkNote = .ok phyNote ∧
    noUnif phyNote.tree = true ∧
    phy_write_newickstr phyNote = "(1n,B:2.000000);".data ∧
    phy_read_newickstr (phy_write_newickstr phyNote) = .ok phyNoteRT ∧
    tipLabels phyNote.tree = [some "1", some "B"] ∧
    tipLabels phyNoteRT.tree = [some "1n", some "B"] ∧
    phyNoteRT.tree ≠ phyNote.tree := by
  refine ⟨by simp +decide [nwkNote, phyNote], by simp +decide [phyNote], ?_, ?_,
    by simp +decide [phyNote], by simp +decide [phyNoteRT], by decide⟩
  · simp +decide [phyNote]
  · simp +decide [phyNote, phyNoteRT]

/-- A 2-tip phylogeny whose first tip carries label `A` and note `n`. -/
def phyWithNote : Phy :=
  phy_build (RNode.mk {}
    [RNode.mk ⟨some "A", some "n", 0⟩ [], RNode.mk ⟨some "B", none, 0⟩ []])
    3 2

/-- C4.  The writer emits parenthesized children, label, note, and
`:length` for positive lengths with a trailing `;` — but the note is
*not* wrapped in brackets: the tip with label `A` and note `n` is
emitted as `An`, with no `[` anywhere in the output, contradicting the
claimed `A[n]` form (and making the output unparseable as the original
tree). -/
theorem C4_note_written_unbracketed :
    (phyWithNote.tree.children.getD 0 (.mk {} [])).note = some "n" ∧
    phy_write_newickstr phyWithNote = "(An,B);".data ∧
    ("(An,B);".data.contains '[') = false := by
  refine ⟨by simp +decide [phyWithNote], by simp +decide [phyWithNote], by decide⟩

/-- The sibling heap for a parent with child list `[0, 1]`
(node 0 = `a` is the leftmost child, node 1 = `b` its next sibling),
both with ancestor identifier 0. -/
def sibAB : SibState 2 :=
  { nxt := fun x => if x = 0 then some 1 else none,
    prv := fun x => if x = 1 then some 0 else none,
    anc := fun _ => some 0,
    lfd := some 0 }

/-- C5.  Swapping two *adjacent* siblings corrupts the list instead of
exchanging their positions: because `b->prev == a` and `next == b` when
the assignments run, the code leaves both nodes self-linked
(`a->next == a->prev == a`, `b->next == b->prev == b`) with `lfdesc`
pointing at `b`, so the child list becomes the infinite cycle `b, b, …`
and `a` is unreachable.  The claimed outcome (list `[b, a]`, i.e.
`b->next == a` and `a->prev == b`) does not hold.  `phy_ladderize`
(phy.c:1534) calls `phy_node_swap(d, d->next)` on exactly this adjacent
configuration. -/
theorem C5_swap_adjacent_corrupts :
    (phy_node_swap sibAB 0 1).nxt 1 = some 1 ∧
    (phy_node_swap sibAB 0 1).prv 1 = some 1 ∧
    (phy_node_swap sibAB 0 1).nxt 0 = some 0 ∧
    (phy_node_swap sibAB 0 1).prv 0 = some 0 ∧
    (phy_node_swap sibAB 0 1).lfd = some 1 ∧
    ¬((phy_node_swap sibAB 0 1).nxt 1 = some 0 ∧
      (phy_node_swap sibAB 0 1).prv 0 = some 1) := by
  refine ⟨by simp +decide [sibAB], by simp +decide [sibAB], by simp +decide [sibAB],
    by simp +decide [sibAB], by simp +decide [sibAB], by simp +decide [sibAB]⟩

/-- C10.  Reading the error slot is destructive: for each of the four
error kinds a first `phy_errmsg` call returns that kind's fixed message
and resets the slot to 0, so a second call reports no errors; a clean
slot reports no errors.  The last conjunct ties the slot value to a
failing operation of this development (parsing `"(A);"`). -/
theorem C10_errmsg_destructive_read :
    (∀ e, 1 ≤ e → e ≤ 4 →
      (phy_errmsg e).2 = 0 ∧
      (phy_errmsg ((phy_errmsg e).2)).1 = "no errors detected") ∧
    (phy_errmsg errAllocFailure).1 = "cannot allocate memory" ∧
    (phy_errmsg errInvalidChar).1 =
      "encountered unexpected character in Newick string node label/branch length" ∧
    (phy_errmsg errUnifurcation).1 = "detected unifurcation in Newick string" ∧
    (phy_errmsg errMalformed).1 = "malformed Newick string" ∧
    (phy_errmsg 0).1 = "no errors detected" ∧
    errOf (phy_read_newickstr "(A);".data) = errUnifurcation := by
  refine ⟨?_, rfl, rfl, rfl, rfl, rfl, by simp +decide [errUnifurcation]⟩
  intro e h1 h4
  interval_cases e <;> exact ⟨rfl, rfl⟩

/-- Witness for C10: the theorem applied at the concrete slot value 3.
-/
theorem C10_errmsg_witness :
    (phy_errmsg 3).2 = 0 ∧
    (phy_errmsg ((phy_errmsg 3).2)).1 = "no errors detected" :=
  C10_errmsg_destructive_read.1 3 (by decide) (by decide)

/-! ## C6: the index assignment of `phy_build` -/

/-- Indices assigned at tip positions, in preorder order. -/
def tipIdxOf : List (Bool × Nat) → List Nat
  | [] => []
  | (b, i) :: l => if b then i :: tipIdxOf l else tipIdxOf l

/-- Indices assigned at internal positions, in preorder order. -/
def intIdxOf : List (Bool × Nat) → List Nat
  | [] => []
  | (b, i) :: l => if b then intIdxOf l else i :: intIdxOf l

theorem count_true_add_count_false (l : List Bool) :
    l.count true + l.count false = l.length := by
  induction l with
  | nil => rfl
  | cons b bs ih =>
      cases b <;> simp [List.count_cons] <;> omega

theorem tipIdxOf_assign (ntip : Nat) (bs : List Bool) : ∀ k j,
    tipIdxOf (assignIdx ntip k j bs) = List.range' k (bs.count true) := by
  induction bs with
  | nil => intro k j; rfl
  | cons b bs ih =>
      intro k j
      cases b
      · simp [assignIdx, tipIdxOf, List.count_cons, ih k (j + 1)]
      · simp [assignIdx, tipIdxOf, List.count_cons, ih (k + 1) j,
          List.range'_succ]

theorem intIdxOf_assign (ntip : Nat) (bs : List Bool) : ∀ k j,
    intIdxOf (assignIdx ntip k j bs) =
      List.range' (ntip + j) (bs.count false) := by
  induction bs with
  | nil => intro k j; rfl
  | cons b bs ih =>
      intro k j
      cases b
      · have := ih k (j + 1)
        simp [assignIdx, intIdxOf, List.count_cons, this,
          List.range'_succ, Nat.add_assoc]
      · simp [assignIdx, intIdxOf, List.count_cons, ih (k + 1) j]

theorem assign_map_snd_perm (ntip : Nat) (bs : List Bool) : ∀ k j,
    ((assignIdx ntip k j bs).map Prod.snd).Perm
      (List.range' k (bs.count true) ++
        List.range' (ntip + j) (bs.count false)) := by
  induction bs with
  | nil => intro k j; simp [assignIdx]
  | cons b bs ih =>
      intro k j
      cases b
      · have h1 : ((assignIdx ntip k j (false :: bs)).map Prod.snd) =
            (ntip + j) :: (assignIdx ntip k (j + 1) bs).map Prod.snd := by
          simp [assignIdx]
        rw [h1]
        have h2 := (ih k (j + 1)).cons (ntip + j)
        refine h2.trans ?_
        have h3 : (List.range' k (bs.count true) ++ (ntip + j) ::
              List.range' (ntip + j + 1) (bs.count false)).Perm
            ((ntip + j) :: (List.range' k (bs.count true) ++
              List.range' (ntip + j + 1) (bs.count false))) :=
          List.perm_middle
        refine h3.symm.trans ?_
        have : List.range' (ntip + j) (bs.count false + 1) =
            (ntip + j) :: List.range' (ntip + j + 1) (bs.count false) :=
          List.range'_succ _ _ _
        rw [List.count_cons, List.count_cons]
        simp [this]
      · have h1 : ((assignIdx ntip k j (true :: bs)).map Prod.snd) =
            k :: (assignIdx ntip (k + 1) j bs).map Prod.snd := by
          simp [assignIdx]
        rw [h1]
        have h2 := (ih (k + 1) j).cons k
        refine h2.trans ?_
        rw [List.count_cons, List.count_cons]
        simp [List.range'_succ]

/-- C6 (amended form).  For every connected node graph built with its
matching counts, the assigned indices are a permutation of
`{0, …, nnode-1}`; the tip positions receive, in preorder order, exactly
the indices `0, …, ntip-1`, and the internal positions exactly
`ntip, …, nnode-1`; and whenever the root has at least one descendant
its index is `ntip`.  (The final conjunct is the part the original
claim asserted unconditionally; it fails on the one-node graph, see the
counterexample.) -/
theorem C6_build_index_bijection (t : RNode) :
    (buildIdx t (countTips t)).Perm (List.range (countNodes t)) ∧
    tipIdxOf (assignIdx (countTips t) 0 0 (preFlags t)) =
      List.range (countTips t) ∧
    intIdxOf (assignIdx (countTips t) 0 0 (preFlags t)) =
      List.range' (countTips t) (countNodes t - countTips t) ∧
    (1 ≤ t.ndesc → idxAt t (countTips t) [] = countTips t) := by
  have hct : (preFlags t).count true + (preFlags t).count false =
      countNodes t := count_true_add_count_false (preFlags t)
  refine ⟨?_, ?_, ?_, ?_⟩
  · have h := assign_map_snd_perm (countTips t) (preFlags t) 0 0
    have happ := List.range'_append 0 ((preFlags t).count true)
      ((preFlags t).count false) 1
    simp only [Nat.one_mul, Nat.zero_add, Nat.add_zero] at happ h
    rw [List.range_eq_range']
    refine h.trans ?_
    rw [show countTips t = (preFlags t).count true from rfl] at *
    rw [happ]
    have : (preFlags t).count false + (preFlags t).count true =
        countNodes t := by omega
    rw [this]
  · rw [tipIdxOf_assign, List.range_eq_range']
    rfl
  · rw [intIdxOf_assign, Nat.add_zero]
    have : (preFlags t).count false = countNodes t - countTips t := by
      have : countTips t = (preFlags t).count true := rfl
      omega
    rw [this]
  · intro h
    cases t with
    | mk d cs =>
        cases cs with
        | nil => simp [RNode.ndesc] at h
        | cons c cs =>
            simp [idxAt, buildIdx, posOf, preFlags, assignIdx, List.isEmpty]

/-- C6, counterexample to the unconditional claim: building the
one-node graph (a single tip, `nnode = ntip = 1`) assigns the root
index 0, not `ntip = 1`. -/
theorem C6_single_node_counterexample :
    countTips (RNode.mk {} []) = 1 ∧
    countNodes (RNode.mk {} []) = 1 ∧
    buildIdx (RNode.mk {} []) (countTips (RNode.mk {} [])) = [0] ∧
    idxAt (RNode.mk {} []) (countTips (RNode.mk {} [])) [] ≠
      countTips (RNode.mk {} []) := by decide

/-- Witness for C6: the final conjunct applied to the scenario tree
(root with 2 descendants, 4 tips). -/
theorem C6_build_index_witness :
    1 ≤ phyRooted.tree.ndesc ∧
    idxAt phyRooted.tree (countTips phyRooted.tree) [] =
      countTips phyRooted.tree :=
  ⟨by decide, (C6_build_index_bijection phyRooted.tree).2.2.2 (by decide)⟩

/-! ## C9: path order lemmas and `phy_node_mrca` -/

theorem pathLE_nil (q : NPath) : pathLE [] q = true := rfl

theorem pathLE_nil_iff (p : NPath) : pathLE p [] = true ↔ p = [] := by
  cases p <;> simp [pathLE]

theorem pathLE_refl (p : NPath) : pathLE p p = true := by
  induction p with
  | nil => rfl
  | cons i p ih => simp [pathLE, ih]

theorem pathLE_length {p q : NPath} (h : pathLE p q = true) :
    p.length ≤ q.length := by
  induction p generalizing q with
  | nil => simp
  | cons i p ih =>
      cases q with
      | nil => simp [pathLE] at h
      | cons j q =>
          simp only [pathLE, Bool.and_eq_true, beq_iff_eq] at h
          have := ih h.2
          simp
          omega

theorem pathLE_trans {p q r : NPath} (h1 : pathLE p q = true)
    (h2 : pathLE q r = true) : pathLE p r = true := by
  induction p generalizing q r with
  | nil => rfl
  | cons i p ih =>
      cases q with
      | nil => simp [pathLE] at h1
      | cons j q =>
          cases r with
          | nil => simp [pathLE] at h2
          | cons k r =>
              simp only [pathLE, Bool.and_eq_true, beq_iff_eq] at *
              exact ⟨h1.1.trans h2.1, ih h1.2 h2.2⟩

theorem pathLE_antisymm {p q : NPath} (h1 : pathLE p q = true)
    (h2 : pathLE q p = true) : p = q := by
  induction p generalizing q with
  | nil => cases q with
      | nil => rfl
      | cons j q => simp [pathLE] at h2
  | cons i p ih =>
      cases q with
      | nil => simp [pathLE] at h1
      | cons j q =>
          simp only [pathLE, Bool.and_eq_true, beq_iff_eq] at h1 h2
          rw [h1.1, ih h1.2 h2.2]

theorem pathLE_append (p r : NPath) : pathLE p (p ++ r) = true := by
  induction p with
  | nil => rfl
  | cons i p ih => simp [pathLE, ih]

theorem pathLE_take (q : NPath) (k : Nat) : pathLE (q.take k) q = true := by
  induction q generalizing k with
  | nil => simp [pathLE]
  | cons j q ih =>
      cases k with
      | zero => rfl
      | succ k => simp [pathLE, ih k]

theorem pathLE_eq_take {p q : NPath} (h : pathLE p q = true) :
    q.take p.length = p := by
  induction p generalizing q with
  | nil => rfl
  | cons i p ih =>
      cases q with
      | nil => simp [pathLE] at h
      | cons j q =>
          simp only [pathLE, Bool.and_eq_true, beq_iff_eq] at h
          simp [List.take, ih h.2, h.1]

theorem pathLE_of_length_eq {p q : NPath} (h : pathLE p q = true)
    (hl : p.length = q.length) : p = q := by
  have := pathLE_eq_take h
  rw [hl, List.take_length] at this
  exact this.symm

theorem dropLast_eq_take (l : NPath) : l.dropLast = l.take (l.length - 1) := by
  induction l with
  | nil => rfl
  | cons i l ih =>
      cases l with
      | nil => rfl
      | cons j l => simp [List.dropLast, ih]

theorem pathLE_dropLast (q : NPath) : pathLE q.dropLast q = true := by
  rw [dropLast_eq_take]; exact pathLE_take q _

theorem take_pathLE {p q : NPath} (k : Nat) (h : pathLE p q = true)
    (hk : p.length ≤ k) : pathLE p (q.take k) = true := by
  induction p generalizing q k with
  | nil => rfl
  | cons i p ih =>
      cases q with
      | nil => simp [pathLE] at h
      | cons j q =>
          cases k with
          | zero => simp at hk
          | succ k =>
              simp only [pathLE, Bool.and_eq_true, beq_iff_eq] at *
              simp at hk
              exact ⟨h.1, ih k h.2 (by omega)⟩

theorem pathLE_dropLast_of_ne {p q : NPath} (h : pathLE p q = true)
    (hne : p ≠ q) : pathLE p q.dropLast = true := by
  have hlt : p.length < q.length := by
    have := pathLE_length h
    rcases Nat.lt_or_ge p.length q.length with h1 | h1
    · exact h1
    · exact absurd (pathLE_of_length_eq h (by omega)) hne
  rw [dropLast_eq_take]
  exact take_pathLE _ h (by omega)

theorem mem_ppres {p a : NPath} :
    p ∈ ppres a ↔ pathLE p a = true ∧ p.length < a.length := by
  constructor
  · intro h
    simp only [ppres, List.mem_map, List.mem_range] at h
    obtain ⟨k, hk, rfl⟩ := h
    exact ⟨pathLE_take a k, by simp [List.length_take]; omega⟩
  · rintro ⟨h1, h2⟩
    simp only [ppres, List.mem_map, List.mem_range]
    exact ⟨p.length, h2, pathLE_eq_take h1⟩

theorem lcp_of_le {a b : NPath} (h : pathLE b a = true) : lcp a b = b := by
  induction b generalizing a with
  | nil => cases a <;> rfl
  | cons j b ih =>
      cases a with
      | nil => simp [pathLE] at h
      | cons i a =>
          simp only [pathLE, Bool.and_eq_true, beq_iff_eq] at h
          simp [lcp, h.1, ih h.2]

theorem lcp_le_left (a b : NPath) : pathLE (lcp a b) a = true := by
  induction a generalizing b with
  | nil => cases b <;> rfl
  | cons i a ih =>
      cases b with
      | nil => rfl
      | cons j b =>
          by_cases h : i = j
          · subst h; simp [lcp, pathLE, ih b]
          · simp [lcp, h, pathLE]

theorem lcp_le_right (a b : NPath) : pathLE (lcp a b) b = true := by
  induction a generalizing b with
  | nil => cases b <;> rfl
  | cons i a ih =>
      cases b with
      | nil => rfl
      | cons j b =>
          by_cases h : i = j
          · subst h; simp [lcp, pathLE, ih b]
          · simp [lcp, h, pathLE]

theorem lcp_greatest {a b c : NPath} (h1 : pathLE c a = true)
    (h2 : pathLE c b = true) : pathLE c (lcp a b) = true := by
  induction c generalizing a b with
  | nil => rfl
  | cons k c ih =>
      cases a with
      | nil => simp [pathLE] at h1
      | cons i a =>
          cases b with
          | nil => simp [pathLE] at h2
          | cons j b =>
              simp only [pathLE, Bool.and_eq_true, beq_iff_eq] at h1 h2
              have hij : i = j := h1.1.symm.trans h2.1
              subst hij
              simp [lcp, pathLE, h1.1, ih h1.2 h2.2]

theorem lcp_eq_right_iff {a b : NPath} : lcp a b = b ↔ pathLE b a = true := by
  constructor
  · intro h
    have := lcp_le_left a b
    rw [h] at this
    exact this
  · exact lcp_of_le

/-- Walking from `a` itself: `a` is not marked (only proper ancestors
are), so the walk moves to `a`'s parent, which is marked unless `a` is
the root. -/
theorem mrcaWalk_self (a : NPath) :
    mrcaWalk (ppres a) a = if a = [] then none else some a.dropLast := by
  cases a with
  | nil =>
      simp only [mrcaWalk]
      have : ([] : NPath) ∉ ppres ([] : NPath) := by
        simp [mem_ppres]
      simp [this]
  | cons i p =>
      have hself : (i :: p) ∉ ppres (i :: p) := by
        simp [mem_ppres]
      have hdrop : (i :: p).dropLast ∈ ppres (i :: p) := by
        rw [mem_ppres]
        refine ⟨pathLE_dropLast _, ?_⟩
        rw [dropLast_eq_take]
        simp [List.length_take]
      rw [mrcaWalk]
      simp only [hself, if_neg, if_false]
      rw [mrcaWalk.eq_def]
      cases hd : (i :: p).dropLast with
      | nil => simp [hd ▸ hdrop]
      | cons x xs => simp [hd ▸ hdrop, hd]

theorem lcp_dropLast {a b : NPath}
    (hba : pathLE b a = false) : lcp a b.dropLast = lcp a b := by
  have hne : lcp a b ≠ b := by
    intro h
    rw [lcp_eq_right_iff.mp h] at hba
    cases hba
  refine pathLE_antisymm ?_ ?_
  · refine lcp_greatest (lcp_le_left a b.dropLast) ?_
    exact pathLE_trans (lcp_le_right a b.dropLast) (pathLE_dropLast b)
  · refine lcp_greatest (lcp_le_left a b) ?_
    exact pathLE_dropLast_of_ne (lcp_le_right a b) hne

/-- The second `phy_node_mrca` loop, when the first argument is not an
ancestor-or-self of `b`: the walk stops at the deepest common ancestor.
-/
theorem mrcaWalk_not_le (a : NPath) : ∀ n (b : NPath), b.length ≤ n →
    pathLE a b = false → mrcaWalk (ppres a) b = some (lcp a b) := by
  intro n
  induction n with
  | zero =>
      intro b hb h
      have hbnil : b = [] := by
        cases b with
        | nil => rfl
        | cons x xs => simp at hb
      subst hbnil
      have hanil : a ≠ [] := by
        intro h2; rw [h2] at h; cases h
      have hmem : ([] : NPath) ∈ ppres a := by
        rw [mem_ppres]
        refine ⟨rfl, ?_⟩
        cases a with
        | nil => exact absurd rfl hanil
        | cons i p => simp
      rw [mrcaWalk]
      have : lcp a [] = [] := by cases a <;> rfl
      simp [hmem, this]
  | succ n ih =>
      intro b hb h
      by_cases hm : b ∈ ppres a
      · rw [mem_ppres] at hm
        have hl : lcp a b = b := lcp_of_le hm.1
        cases b with
        | nil => rw [mrcaWalk]; simp [mem_ppres.mpr hm, hl]
        | cons x xs => rw [mrcaWalk]; simp [mem_ppres.mpr hm, hl]
      · have hba : pathLE b a = false := by
          rcases hb2 : pathLE b a with _ | _
          · rfl
          · exfalso
            have hlen := pathLE_length hb2
            rcases Nat.lt_or_ge b.length a.length with h1 | h1
            · exact hm (mem_ppres.mpr ⟨hb2, h1⟩)
            · have : b = a := pathLE_of_length_eq hb2 (by omega)
              subst this
              rw [pathLE_refl] at h
              cases h
        cases b with
        | nil => simp [pathLE] at hba
        | cons x xs =>
            rw [mrcaWalk]
            simp only [hm, if_neg, if_false]
            have h1 : pathLE a (x :: xs).dropLast = false := by
              rcases h2 : pathLE a (x :: xs).dropLast with _ | _
              · rfl
              · have := pathLE_trans h2 (pathLE_dropLast (x :: xs))
                rw [this] at h
                cases h
            have h2 : (x :: xs).dropLast.length ≤ n := by
              simp only [List.length_dropLast, List.length_cons] at *
              omega
            rw [ih _ h2 h1, lcp_dropLast hba]

/-- The second `phy_node_mrca` loop, when `a` is an ancestor-or-self of
`b`: nothing on the way down to `a` is marked, so the walk continues
from `a` itself. -/
theorem mrcaWalk_le (a : NPath) : ∀ n (b : NPath), b.length ≤ n →
    pathLE a b = true → mrcaWalk (ppres a) b = mrcaWalk (ppres a) a := by
  intro n
  induction n with
  | zero =>
      intro b hb h
      have hbnil : b = [] := by
        cases b with
        | nil => rfl
        | cons x xs => simp at hb
      subst hbnil
      rw [pathLE_nil_iff] at h
      rw [h]
  | succ n ih =>
      intro b hb h
      by_cases heq : b = a
      · rw [heq]
      · have hm : b ∉ ppres a := by
          rw [mem_ppres]
          rintro ⟨h1, h2⟩
          have := pathLE_length h
          omega
        have hbne : b ≠ [] := by
          intro h2
          rw [h2, pathLE_nil_iff] at h
          exact heq (h2.trans h.symm)
        cases b with
        | nil => exact absurd rfl hbne
        | cons x xs =>
            rw [mrcaWalk]
            simp only [hm, if_neg, if_false]
            have h1 : pathLE a (x :: xs).dropLast = true :=
              pathLE_dropLast_of_ne h (fun h2 => heq h2.symm)
            have h2 : (x :: xs).dropLast.length ≤ n := by
              simp only [List.length_dropLast, List.length_cons] at *
              omega
            exact ih _ h2 h1

/-- Paths below a valid path are valid. -/
theorem validPath_mono {t : RNode} : ∀ {p q : NPath},
    pathLE p q = true → validPath t q = true → validPath t p = true := by
  intro p
  induction p generalizing t with
  | nil => intro q h hv; rfl
  | cons i p ih =>
      intro q h hv
      cases q with
      | nil => simp [pathLE] at h
      | cons j q =>
          simp only [pathLE, Bool.and_eq_true, beq_iff_eq] at h
          obtain ⟨rfl, h2⟩ := h
          simp only [validPath, nodeAt] at hv ⊢
          cases hg : t.children.get? i with
          | none => rw [hg] at hv; cases hv
          | some c =>
              rw [hg] at hv
              exact ih h2 hv

/-- C9 (amended form).  For nodes `a`, `b` of a built tree,
`phy_node_mrca` returns: `a` when `a = b`; `b` when `b` is a (proper)
ancestor of `a`; but when `a` is a *proper ancestor* of `b` it returns
`a`'s parent — NULL when `a` is the root — rather than `a` (so the
result depends on the argument order); and the deepest common ancestor
`lcp a b` when `a` and `b` are unrelated.  The remaining conjuncts say
that `lcp a b` is a node of the tree, an ancestor of both, and the
deepest such, i.e. the true most recent common ancestor. -/
theorem C9_mrca_characterized (t : RNode) (a b : NPath)
    (ha : validPath t a = true) (hb : validPath t b = true) :
    phy_node_mrca a b =
      (if a = b then some a
       else if pathLE b a then some b
       else if pathLE a b then (if a = [] then none else some a.dropLast)
       else some (lcp a b)) ∧
    pathLE (lcp a b) a = true ∧
    pathLE (lcp a b) b = true ∧
    validPath t (lcp a b) = true ∧
    (∀ c : NPath, pathLE c a = true → pathLE c b = true →
      pathLE c (lcp a b) = true) := by
  refine ⟨?_, lcp_le_left a b, lcp_le_right a b,
    validPath_mono (lcp_le_left a b) ha, fun c h1 h2 => lcp_greatest h1 h2⟩
  by_cases heq : a = b
  · simp [phy_node_mrca, heq]
  · rw [phy_node_mrca, if_neg heq]
    by_cases hba : pathLE b a = true
    · have hab : pathLE a b = false := by
        rcases h2 : pathLE a b with _ | _
        · rfl
        · exact absurd (pathLE_antisymm h2 hba) heq
      rw [mrcaWalk_not_le a b.length b le_rfl hab, lcp_of_le hba]
      simp [heq, hba]
    · by_cases hab : pathLE a b = true
      · rw [mrcaWalk_le a b.length b le_rfl hab, mrcaWalk_self]
        simp [heq, hba, hab]
      · rw [mrcaWalk_not_le a b.length b le_rfl (by simp [hab])]
        simp [heq, hba, hab]

/-- C9, counterexample to the claim as stated: in the scenario tree,
`N1` (path `[0]`) is an ancestor of tip `A` (path `[0, 0]`), yet
`phy_node_mrca N1 A` returns the root (`[]`), not `N1` — the marking
loop `while ((a = a->anc) != 0)` never marks `a` itself — while
`phy_node_mrca A N1` returns `N1`: the result is not the ancestor and
depends on argument order. -/
theorem C9_mrca_ancestor_counterexample :
    validPath phyRooted.tree [0] = true ∧
    validPath phyRooted.tree [0, 0] = true ∧
    pathLE [0] [0, 0] = true ∧
    phy_node_mrca [0] [0, 0] = some [] ∧
    (some [] : Option NPath) ≠ some [0] ∧
    phy_node_mrca [0, 0] [0] = some [0] := by
  refine ⟨by decide, by decide, by decide, ?_, by decide, ?_⟩
  · simp [phy_node_mrca, mrcaWalk, ppres, pathLE]
  · simp only [phy_node_mrca]
    rw [if_neg (by decide), mrcaWalk]
    have : ([0] : NPath) ∈ ppres [0, 0] := by
      rw [mem_ppres]
      exact ⟨by decide, by decide⟩
    simp [this]

/-- Witness for C9: the characterization applied to the two unrelated
tips `A` (path `[0, 0]`) and `C` (path `[1, 0]`) of the scenario tree:
the code returns their deepest common ancestor, the root. -/
theorem C9_mrca_witness :
    validPath phyRooted.tree [0, 0] = true ∧
    validPath phyRooted.tree [1, 0] = true ∧
    phy_node_mrca [0, 0] [1, 0] =
      (if ([0, 0] : NPath) = [1, 0] then some [0, 0]
       else if pathLE [1, 0] [0, 0] then some [1, 0]
       else if pathLE [0, 0] [1, 0] then
         (if ([0, 0] : NPath) = [] then none else some ([0, 0] : NPath).dropLast)
       else some (lcp [0, 0] [1, 0])) :=
  ⟨by decide, by decide,
    (C9_mrca_characterized phyRooted.tree [0, 0] [1, 0] (by decide)
      (by decide)).1⟩

/-! ## C7: the traversal cursor

The cursor state machine of `phy_cursor_prepare_v2` / `phy_cursor_step`
works on positions in the `nodes` array (for `ALL_NODES`) or the
`inodes` array (for `INTERNAL_NODES_ONLY`); a node reference is embedded
as its position in the respective array (positions identify nodes
uniquely, as the arrays hold distinct pointers).  The `nodes` position
of the node at path `π` is `posOf t π`; its `inodes` position is
`idxAt t ntip π - ntip` (phy_build stores the `j`-th internal node of
the preorder at `inodes[j]` with index `ntip + j`). -/

/-- `PREORDER` macro of phy.h. -/
def PRE_ORDER : Nat := 0

/-- `POSTORDER` macro of phy.h. -/
def POST_ORDER : Nat := 1

/-- `ALL_NODES` macro of phy.h. -/
def ALL_NODES : Nat := 0

/-- `INTERNAL_NODES_ONLY` macro of phy.h. -/
def INTERNAL_NODES_ONLY : Nat := 1

/-- Relative path from a node to its `lastvisit` node: the last node of
a preorder walk of the subtree, reached by following last children down
to a tip.  `phy_build`'s climbing walk assigns exactly this node to the
`lastvisit` field of every internal node. -/
def lastDescRel : RNode → NPath
  | t =>
    match h : t.children.getLast? with
    | none => []
    | some c => (t.children.length - 1) :: lastDescRel c
termination_by t => t.size
decreasing_by
  exact size_child_lt (List.mem_of_mem_getLast? h)

/-- Absolute path of `node->lastvisit` for the node at `π`. -/
def lastvisitPath (t : RNode) (π : NPath) : NPath :=
  π ++ lastDescRel (nodeAtD t π)

/-- Absolute path of `node->lastvisit->anc` for the node at `π`. -/
def lastTipAncPath (t : RNode) (π : NPath) : NPath :=
  π ++ (lastDescRel (nodeAtD t π)).dropLast

/-- The scan `for (p = q = A->lfdesc; q; q = q->next) if (q->ndesc) p = q`
over a child list: the last internal child, with its position. -/
def lastIntChildIdxAux (i : Nat) : List RNode → Option (Nat × RNode)
  | [] => none
  | c :: cs =>
      match lastIntChildIdxAux (i + 1) cs with
      | some r => some r
      | none => if c.ndesc ≠ 0 then some (i, c) else none

/-- Last internal child of a child list, if any. -/
def lastIntChildIdx (cs : List RNode) : Option (Nat × RNode) :=
  lastIntChildIdxAux 0 cs

/-- The scan result as a path step from the scanned node at `πA`: the
last internal child if one exists, else `lfdesc` (child 0, necessarily a
tip then). -/
def scanKidsPath (t : RNode) (πA : NPath) : NPath :=
  match lastIntChildIdx (nodeAtD t πA).children with
  | some (k, _) => πA ++ [k]
  | none => πA ++ [0]

/-- The `while (p->ndesc)` boundary loop of `phy_cursor_prepare_v2` for
`INTERNAL_NODES_ONLY`: while the node at `πp` is internal, move to the
scan result of its `lastvisit->anc`. -/
def endLoopPath (t : RNode) : Nat → NPath → NPath
  | 0, πp => πp
  | fuel + 1, πp =>
      if (nodeAtD t πp).ndesc ≠ 0 then
        endLoopPath t fuel (scanKidsPath t (lastTipAncPath t πp))
      else πp

/-- The INTERNAL_NODES_ONLY boundary node (`p->anc` at loop exit,
`inodes[p->anc->index - ntip]`), as a path. -/
def cursorIntEnd (t : RNode) (π : NPath) : NPath :=
  (endLoopPath t (countNodes t)
    (scanKidsPath t (lastTipAncPath t π))).dropLast

/-- A traversal cursor (`struct phy_cursor`): the `begin`/`end`/`next`
node references (as array positions, `none` for NULL) and the `int`
array cursor. -/
structure Cursor where
  visit : Nat
  order : Nat
  cursor : Int
  begin_ : Option Nat
  end_ : Option Nat
  next_ : Option Nat
deriving Repr, DecidableEq

/-- `phy_cursor_prepare_v2` for the phylogeny `p`, starting node at path
`π`.  Mirrors the C: for `PREORDER`, `begin = next = node`, `end` is the
`lastvisit` boundary (for `ALL_NODES`) or the scan-loop boundary (for
`INTERNAL_NODES_ONLY`), and the array cursor starts one past the
starting node; for `POSTORDER` the roles of `begin` and `end` swap and
the cursor starts one below the begin node.  For a terminal starting
node the C leaves `cursor->cursor` uninitialized but never reads it
(begin = end makes the first step exhaust the cursor); the embedding
uses 0 for that dead field. -/
def phy_cursor_prepare_v2 (p : Phy) (π : NPath) (visit order : Nat) :
    Cursor :=
  let t := p.tree
  let node := nodeAtD t π
  let npos : Nat :=
    if visit = ALL_NODES then posOf t π else idxAt t p.ntip π - p.ntip
  if order = PRE_ORDER then
    let e : Nat :=
      if node.ndesc ≠ 0 then
        if visit = ALL_NODES then
          vseqOf t p.ntip (idxAt t p.ntip (lastvisitPath t π))
        else idxAt t p.ntip (cursorIntEnd t π) - p.ntip
      else npos
    let cur : Int :=
      if node.ndesc ≠ 0 then
        if visit = ALL_NODES then
          (vseqOf t p.ntip (idxAt t p.ntip π) : Int) + 1
        else (idxAt t p.ntip π : Int) - p.ntip + 1
      else 0
    { visit := visit, order := order, cursor := cur,
      begin_ := some npos, end_ := some e, next_ := some npos }
  else
    let b : Nat :=
      if node.ndesc ≠ 0 then
        if visit = ALL_NODES then
          vseqOf t p.ntip (idxAt t p.ntip (lastvisitPath t π))
        else idxAt t p.ntip (cursorIntEnd t π) - p.ntip
      else npos
    let cur : Int := if node.ndesc ≠ 0 then (b : Int) - 1 else 0
    { visit := visit, order := order, cursor := cur,
      begin_ := some b, end_ := some npos, next_ := some b }

/-- `phy_cursor_step`: NULL `next` yields NULL and leaves the cursor
alone; a step at the `end` node yields it and clears the cursor; any
other step yields the node and advances `next` to the array slot at the
`int` cursor, which moves up (preorder) or down (postorder). -/
def phy_cursor_step (c : Cursor) : Option Nat × Cursor :=
  match c.next_ with
  | none => (none, c)
  | some pos =>
      if some pos ≠ c.end_ then
        (some pos,
          { c with
            next_ := some c.cursor.toNat,
            cursor := if c.order = PRE_ORDER then c.cursor + 1
              else c.cursor - 1 })
      else (some pos, { c with begin_ := none, end_ := none, next_ := none })

/-- Repeatedly step a cursor, collecting the returned nodes until NULL
(the canonical `while ((node = phy_cursor_step(cursor)))` loop). -/
def runCursor : Nat → Cursor → List Nat
  | 0, _ => []
  | fuel + 1, c =>
      match phy_cursor_step c with
      | (none, _) => []
      | (some pos, c2) => pos :: runCursor fuel c2

/-! ### Preorder bookkeeping lemmas -/

theorem pfl_length (cs : List RNode) :
    (preFlagsList cs).length = (cs.map countNodes).sum := by
  induction cs with
  | nil => rfl
  | cons c cs ih =>
      simp only [preFlagsList, List.length_append, List.map_cons,
        List.sum_cons, ih]
      rfl

theorem countNodes_mk (d : NodeData) (cs : List RNode) :
    countNodes (.mk d cs) = 1 + (cs.map countNodes).sum := by
  simp [countNodes, preFlags, pfl_length]
  omega

theorem countNodes_pos (t : RNode) : 0 < countNodes t := by
  cases t with
  | mk d cs => simp [countNodes, preFlags]

theorem cn_child_lt {c : RNode} {d : NodeData} {cs : List RNode}
    (h : c ∈ cs) : countNodes c < countNodes (.mk d cs) := by
  rw [countNodes_mk]
  have : countNodes c ∈ cs.map countNodes := List.mem_map_of_mem _ h
  have := List.single_le_sum (fun x _ => Nat.zero_le x) _ this
  omega

theorem pfl_count (b : Bool) (cs : List RNode) :
    (preFlagsList cs).count b =
      (cs.map (fun c => (preFlags c).count b)).sum := by
  induction cs with
  | nil => rfl
  | cons c cs ih =>
      simp only [preFlagsList, List.count_append, List.map_cons,
        List.sum_cons, ih]

theorem countInt_tip {t : RNode} (h : t.ndesc = 0) : countInt t = 0 := by
  cases t with
  | mk d cs =>
      simp only [RNode.ndesc, RNode.children, List.length_eq_zero] at h
      subst h
      rfl

theorem countInt_pos {t : RNode} (h : t.ndesc ≠ 0) : 0 < countInt t := by
  cases t with
  | mk d cs =>
      cases cs with
      | nil => simp [RNode.ndesc, RNode.children] at h
      | cons c cs =>
          simp [countInt, preFlags, List.isEmpty, List.count_cons]

theorem sum_take_le {cs : List RNode} : ∀ {i : Nat} {c : RNode},
    cs.get? i = some c →
    ((cs.take i).map countNodes).sum + countNodes c ≤
      (cs.map countNodes).sum := by
  induction cs with
  | nil => intro i c h; cases h
  | cons x xs ih =>
      intro i c h
      cases i with
      | zero =>
          simp only [List.get?] at h
          cases h
          simp only [List.take_zero, List.map_nil, List.sum_nil,
            List.map_cons, List.sum_cons]
          omega
      | succ i =>
          simp only [List.get?] at h
          have := ih h
          simp only [List.take_succ_cons, List.map_cons, List.sum_cons]
          omega

/-! ### Path and position lemmas -/

theorem nodeAt_cons {d : NodeData} {cs : List RNode} {i : Nat}
    {c : RNode} (h : cs.get? i = some c) (ρ : NPath) :
    nodeAt (.mk d cs) (i :: ρ) = nodeAt c ρ := by
  rw [List.get?_eq_getElem?] at h
  simp [nodeAt, RNode.children, h]

theorem nodeAt_cons_none {d : NodeData} {cs : List RNode} {i : Nat}
    (h : cs.get? i = none) (ρ : NPath) :
    nodeAt (.mk d cs) (i :: ρ) = none := by
  rw [List.get?_eq_getElem?] at h
  simp [nodeAt, RNode.children, h]

theorem nodeAt_append (t : RNode) : ∀ (π ρ : NPath),
    nodeAt t (π ++ ρ) = (nodeAt t π).bind (fun s => nodeAt s ρ) := by
  intro π
  induction π generalizing t with
  | nil => intro ρ; simp [nodeAt]
  | cons i π ih =>
      intro ρ
      cases t with
      | mk d cs =>
          cases h : cs.get? i with
          | none =>
              rw [List.cons_append, nodeAt_cons_none h, nodeAt_cons_none h]
              rfl
          | some c =>
              rw [List.cons_append, nodeAt_cons h, nodeAt_cons h, ih]

theorem nodeAtD_append {t : RNode} {π : NPath}
    (h : validPath t π = true) (ρ : NPath) :
    nodeAtD t (π ++ ρ) = nodeAtD (nodeAtD t π) ρ := by
  rcases Option.isSome_iff_exists.mp h with ⟨s, hs⟩
  simp [nodeAtD, nodeAt_append, hs]

theorem validPath_append {t : RNode} {π ρ : NPath}
    (h : validPath t (π ++ ρ) = true) : validPath t π = true := by
  unfold validPath at *
  rw [nodeAt_append] at h
  cases hp : nodeAt t π with
  | none => rw [hp] at h; simp at h
  | some s => rfl

theorem validPath_append_iff {t : RNode} {π ρ : NPath} :
    validPath t (π ++ ρ) = true ↔
      validPath t π = true ∧ validPath (nodeAtD t π) ρ = true := by
  constructor
  · intro h
    have h1 := validPath_append h
    refine ⟨h1, ?_⟩
    rcases Option.isSome_iff_exists.mp h1 with ⟨s, hs⟩
    unfold validPath at *
    rw [nodeAt_append, hs] at h
    simpa [nodeAtD, hs] using h
  · rintro ⟨h1, h2⟩
    rcases Option.isSome_iff_exists.mp h1 with ⟨s, hs⟩
    unfold validPath at *
    rw [nodeAt_append, hs]
    simpa [nodeAtD, hs] using h2

theorem posOf_append {t : RNode} : ∀ {π : NPath},
    validPath t π = true → ∀ (ρ : NPath),
    posOf t (π ++ ρ) = posOf t π + posOf (nodeAtD t π) ρ := by
  intro π
  induction π generalizing t with
  | nil => intro _ ρ; simp [posOf, nodeAtD, nodeAt]
  | cons i π ih =>
      intro h ρ
      cases t with
      | mk d cs =>
          cases hc : cs.get? i with
          | none =>
              unfold validPath at h
              rw [nodeAt_cons_none hc] at h
              simp at h
          | some c =>
              have hv : validPath c π = true := by
                unfold validPath at h ⊢
                rwa [nodeAt_cons hc] at h
              have hD : nodeAtD (RNode.mk d cs) [i] = c := by
                rw [show ([i] : NPath) = i :: [] from rfl]
                rw [nodeAtD, nodeAt_cons hc]
                rfl
              have hD2 : nodeAtD (RNode.mk d cs) (i :: π) =
                  nodeAtD c π := by
                simp [nodeAtD, nodeAt_cons hc]
              rw [List.cons_append]
              simp only [posOf, hD, hD2, ih hv ρ]
              omega

theorem posOf_lt_countNodes {t : RNode} : ∀ {π : NPath},
    validPath t π = true → posOf t π < countNodes t := by
  intro π
  induction π generalizing t with
  | nil => intro _; simpa [posOf] using countNodes_pos t
  | cons i π ih =>
      intro h
      cases t with
      | mk d cs =>
          cases hc : cs.get? i with
          | none =>
              unfold validPath at h
              rw [nodeAt_cons_none hc] at h
              simp at h
          | some c =>
              have hv : validPath c π = true := by
                unfold validPath at h ⊢
                rwa [nodeAt_cons hc] at h
              have hD : nodeAtD (RNode.mk d cs) [i] = c := by
                rw [show ([i] : NPath) = i :: [] from rfl]
                rw [nodeAtD, nodeAt_cons hc]
                rfl
              have h1 := ih hv
              have h2 := sum_take_le hc
              simp only [posOf, hD, RNode.children, countNodes_mk]
              omega

/-- Splitting the preorder flags of a forest at child `i`. -/
theorem pfl_split {cs : List RNode} : ∀ {i : Nat} {c : RNode},
    cs.get? i = some c →
    preFlagsList cs = preFlagsList (cs.take i) ++ preFlags c ++
      preFlagsList (cs.drop (i + 1)) := by
  induction cs with
  | nil => intro i c h; cases h
  | cons x xs ih =>
      intro i c h
      cases i with
      | zero =>
          simp only [List.get?] at h
          cases h
          simp [preFlagsList]
      | succ i =>
          simp only [List.get?] at h
          have := ih h
          simp only [List.take_succ_cons, List.drop_succ_cons,
            preFlagsList, this, List.append_assoc]

/-- The preorder flag at a node's position is its own is-tip flag. -/
theorem flag_posOf {t : RNode} : ∀ {π : NPath},
    validPath t π = true →
    (preFlags t).get? (posOf t π) =
      some ((nodeAtD t π).children.isEmpty) := by
  intro π
  induction π generalizing t with
  | nil =>
      intro _
      cases t with
      | mk d cs => simp [posOf, preFlags, nodeAtD, nodeAt, RNode.children]
  | cons i π ih =>
      intro h
      cases t with
      | mk d cs =>
          cases hc : cs.get? i with
          | none =>
              unfold validPath at h
              rw [nodeAt_cons_none hc] at h
              simp at h
          | some c =>
              have hv : validPath c π = true := by
                unfold validPath at h ⊢
                rwa [nodeAt_cons hc] at h
              have hD : nodeAtD (RNode.mk d cs) [i] = c := by
                rw [show ([i] : NPath) = i :: [] from rfl]
                rw [nodeAtD, nodeAt_cons hc]
                rfl
              have hD2 : nodeAtD (RNode.mk d cs) (i :: π) = nodeAtD c π := by
                simp [nodeAtD, nodeAt_cons hc]
              have hsp := pfl_split hc
              have hlen : (preFlagsList (cs.take i)).length =
                  ((cs.take i).map countNodes).sum := pfl_length _
              have hp := posOf_lt_countNodes hv
              simp only [posOf, hD, hD2, preFlags, RNode.children]
              rw [show (1 : Nat) + ((cs.take i).map countNodes).sum +
                    posOf c π = (((cs.take i).map countNodes).sum +
                    posOf c π) + 1 from by omega]
              rw [List.get?_cons_succ, hsp, List.append_assoc]
              rw [show ((cs.take i).map countNodes).sum + posOf c π =
                    (preFlagsList (cs.take i)).length + posOf c π from by
                  rw [hlen]]
              rw [List.get?_append_right (Nat.le_add_right _ _),
                Nat.add_sub_cancel_left]
              rw [List.get?_append (by
                simpa [countNodes] using hp)]
              exact ih hv

theorem assignIdx_length (ntip : Nat) : ∀ (bs : List Bool) (k j : Nat),
    (assignIdx ntip k j bs).length = bs.length := by
  intro bs
  induction bs with
  | nil => intro k j; rfl
  | cons b bs ih =>
      intro k j
      cases b <;> simp [assignIdx, ih]

theorem buildIdx_length (t : RNode) (ntip : Nat) :
    (buildIdx t ntip).length = countNodes t := by
  simp [buildIdx, assignIdx_length, countNodes]

/-- The index assigned at preorder position `p`: the running tip counter
for tips, `ntip +` the running internal counter for internal nodes. -/
theorem assign_get (ntip : Nat) : ∀ (bs : List Bool) (k j p : Nat),
    p < bs.length →
    ((assignIdx ntip k j bs).map Prod.snd).get? p =
      some (if bs.getD p true then k + (bs.take p).count true
        else ntip + j + (bs.take p).count false) := by
  intro bs
  induction bs with
  | nil => intro k j p h; cases h
  | cons b bs ih =>
      intro k j p hp
      cases p with
      | zero =>
          cases b <;> simp [assignIdx]
      | succ p =>
          have hp' : p < bs.length := by
            simpa using Nat.lt_of_succ_lt_succ hp
          cases b
          · have hstep : assignIdx ntip k j (false :: bs) =
                (false, ntip + j) :: assignIdx ntip k (j + 1) bs := rfl
            rw [hstep, List.map_cons, List.get?_cons_succ,
              ih k (j + 1) p hp']
            simp only [List.getD_cons_succ, List.take_succ_cons]
            by_cases hb : bs.getD p true
            · rw [if_pos hb, if_pos hb]
              refine congrArg some (congrArg (k + ·) ?_)
              simp [List.count_cons]
            · rw [if_neg hb, if_neg hb]
              refine congrArg some ?_
              simp only [List.count_cons]
              simp
              omega
          · have hstep : assignIdx ntip k j (true :: bs) =
                (true, k) :: assignIdx ntip (k + 1) j bs := rfl
            rw [hstep, List.map_cons, List.get?_cons_succ,
              ih (k + 1) j p hp']
            simp only [List.getD_cons_succ, List.take_succ_cons]
            by_cases hb : bs.getD p true
            · rw [if_pos hb, if_pos hb]
              refine congrArg some ?_
              simp only [List.count_cons]
              simp
              omega
            · rw [if_neg hb, if_neg hb]
              refine congrArg some (congrArg (ntip + j + ·) ?_)
              simp [List.count_cons]

/-- The built index of the node at a valid path: its preorder tip rank
for tips, `ntip +` its preorder internal rank for internal nodes. -/
theorem idxAt_eq {t : RNode} {π : NPath} (ntip : Nat)
    (h : validPath t π = true) :
    idxAt t ntip π =
      if (nodeAtD t π).children.isEmpty then
        ((preFlags t).take (posOf t π)).count true
      else ntip + ((preFlags t).take (posOf t π)).count false := by
  have hp : posOf t π < (preFlags t).length := posOf_lt_countNodes h
  have hflag := flag_posOf h
  have hget := assign_get ntip (preFlags t) 0 0 (posOf t π) hp
  have hgd : (preFlags t).getD (posOf t π) true =
      (nodeAtD t π).children.isEmpty := by
    rw [List.getD_eq_get?, hflag]
    rfl
  rw [hgd] at hget
  unfold idxAt buildIdx
  rw [List.getD_eq_get?, hget]
  simp only [Option.getD_some, Nat.zero_add, Nat.add_zero]

theorem buildIdx_nodup (t : RNode) :
    (buildIdx t (countTips t)).Nodup := by
  have h := assign_map_snd_perm (countTips t) (preFlags t) 0 0
  rw [show buildIdx t (countTips t) =
      (assignIdx (countTips t) 0 0 (preFlags t)).map Prod.snd from rfl]
  refine (h.nodup_iff).mpr ?_
  refine List.Nodup.append (List.nodup_range' _ _) (List.nodup_range' _ _) ?_
  intro a ha hb
  rw [List.mem_range'_1] at ha hb
  have : countTips t = (preFlags t).count true := rfl
  omega

theorem indexOf_getD_self : ∀ (l : List Nat), l.Nodup → ∀ (p : Nat),
    p < l.length → l.indexOf (l.getD p 0) = p := by
  intro l
  induction l with
  | nil => intro _ p hp; cases hp
  | cons x xs ih =>
      intro hnd p hp
      cases p with
      | zero => simp
      | succ p =>
          have hp' : p < xs.length := by simpa using Nat.lt_of_succ_lt_succ hp
          have hmem : xs.getD p 0 ∈ xs := by
            rw [List.getD_eq_get? , List.get?_eq_getElem?,
              List.getElem?_eq_getElem hp']
            exact List.getElem_mem hp'
          have hx : x ∉ xs := (List.nodup_cons.mp hnd).1
          have hne : x ≠ xs.getD p 0 := fun h => hx (h ▸ hmem)
          rw [List.getD_cons_succ, List.indexOf_cons_ne _ hne,
            ih (List.nodup_cons.mp hnd).2 p hp']

/-- `vseq` inverts the index assignment: looking up the index of the
node at a valid path recovers its preorder position. -/
theorem vseq_idx {t : RNode} {π : NPath} (h : validPath t π = true) :
    vseqOf t (countTips t) (idxAt t (countTips t) π) = posOf t π := by
  have hp : posOf t π < (buildIdx t (countTips t)).length := by
    rw [buildIdx_length]
    exact posOf_lt_countNodes h
  exact indexOf_getD_self _ (buildIdx_nodup t) _ hp

/-- The root of a tree with at least one descendant receives index
`ntip` (it is the first internal node of the preorder). -/
theorem idxAt_nil_internal {t : RNode} (ntip : Nat) (h : 1 ≤ t.ndesc) :
    idxAt t ntip [] = ntip := by
  cases t with
  | mk d cs =>
      cases cs with
      | nil => simp [RNode.ndesc, RNode.children] at h
      | cons c cs =>
          simp [idxAt, buildIdx, posOf, preFlags, assignIdx, List.isEmpty]

/-! ### The `lastvisit` chain -/

theorem lastDescRel_nil (d : NodeData) : lastDescRel (.mk d []) = [] := by
  rw [lastDescRel]
  rfl

theorem lastDescRel_tip {t : RNode} (h : t.ndesc = 0) :
    lastDescRel t = [] := by
  cases t with
  | mk d cs =>
      simp only [RNode.ndesc, RNode.children, List.length_eq_zero] at h
      subst h
      exact lastDescRel_nil d

theorem getLast_get? {α : Type} (cs : List α) (h : cs ≠ []) :
    cs.get? (cs.length - 1) = some (cs.getLast h) := by
  rw [List.getLast_eq_getElem, List.get?_eq_getElem?,
    List.getElem?_eq_getElem]

theorem lastDescRel_eq (d : NodeData) (cs : List RNode) (h : cs ≠ []) :
    lastDescRel (.mk d cs) =
      (cs.length - 1) :: lastDescRel (cs.getLast h) := by
  rw [lastDescRel]
  split
  next heq =>
    rw [show (RNode.mk d cs).children = cs from rfl,
      List.getLast?_eq_getLast cs h] at heq
    cases heq
  next c heq =>
    rw [show (RNode.mk d cs).children = cs from rfl,
      List.getLast?_eq_getLast cs h] at heq
    cases heq
    rfl

theorem lastDescRel_ne_nil {t : RNode} (h : t.ndesc ≠ 0) :
    lastDescRel t ≠ [] := by
  cases t with
  | mk d cs =>
      cases cs with
      | nil => simp [RNode.ndesc, RNode.children] at h
      | cons c cs => rw [lastDescRel_eq d (c :: cs) (by simp)]; simp

/-- The `lastvisit` path is valid and leads to a terminal node. -/
theorem lastDescRel_valid : ∀ (n : Nat) (t : RNode), countNodes t ≤ n →
    validPath t (lastDescRel t) = true ∧
      (nodeAtD t (lastDescRel t)).children.isEmpty = true := by
  intro n
  induction n with
  | zero => intro t h; have := countNodes_pos t; omega
  | succ n ih =>
      intro t hn
      cases t with
      | mk d cs =>
          cases hcs : cs with
          | nil =>
              subst hcs
              rw [lastDescRel_nil]
              exact ⟨rfl, rfl⟩
          | cons c cs' =>
              subst hcs
              have hne : (c :: cs') ≠ [] := by simp
              set g := (c :: cs').getLast hne with hg
              have hmem : g ∈ c :: cs' := List.getLast_mem hne
              have hlt : countNodes g <
                  countNodes (RNode.mk d (c :: cs')) := cn_child_lt hmem
              have hrec := ih g (by omega)
              have hget : (c :: cs').get? ((c :: cs').length - 1) =
                  some g := getLast_get? _ hne
              rw [lastDescRel_eq d (c :: cs') hne]
              constructor
              · unfold validPath
                rw [nodeAt_cons hget]
                exact hrec.1
              · have hD : nodeAtD (RNode.mk d (c :: cs'))
                    (((c :: cs').length - 1) :: lastDescRel g) =
                    nodeAtD g (lastDescRel g) := by
                  rw [nodeAtD, nodeAt_cons hget]
                  rfl
                rw [hD]
                exact hrec.2

/-- The `lastvisit` node sits at the final preorder position. -/
theorem posOf_lastDescRel : ∀ (n : Nat) (t : RNode), countNodes t ≤ n →
    posOf t (lastDescRel t) = countNodes t - 1 := by
  intro n
  induction n with
  | zero => intro t h; have := countNodes_pos t; omega
  | succ n ih =>
      intro t hn
      cases t with
      | mk d cs =>
          cases hcs : cs with
          | nil =>
              subst hcs
              rw [lastDescRel_nil]
              rfl
          | cons c cs' =>
              subst hcs
              have hne : (c :: cs') ≠ [] := by simp
              set g := (c :: cs').getLast hne with hg
              have hmem : g ∈ c :: cs' := List.getLast_mem hne
              have hlt : countNodes g <
                  countNodes (RNode.mk d (c :: cs')) := cn_child_lt hmem
              have hrec := ih g (by omega)
              have hget : (c :: cs').get? ((c :: cs').length - 1) =
                  some g := getLast_get? _ hne
              rw [lastDescRel_eq d (c :: cs') hne]
              have hD : nodeAtD (RNode.mk d (c :: cs'))
                  [(c :: cs').length - 1] = g := by
                rw [show ([(c :: cs').length - 1] : NPath) =
                    ((c :: cs').length - 1) :: [] from rfl]
                rw [nodeAtD, nodeAt_cons hget]
                rfl
              simp only [posOf, hD, hrec, RNode.children]
              have hsum : ((c :: cs').map countNodes).sum =
                  (((c :: cs').take ((c :: cs').length - 1)).map
                    countNodes).sum + countNodes g := by
                conv_lhs => rw [← List.dropLast_concat_getLast hne]
                rw [List.dropLast_eq_take]
                simp [← hg]
              have hcn : countNodes (RNode.mk d (c :: cs')) =
                  1 + ((c :: cs').map countNodes).sum := countNodes_mk _ _
              have := countNodes_pos g
              omega

/-! ### The INTERNAL_NODES_ONLY boundary -/

theorem aux_none_iff (cs : List RNode) : ∀ i : Nat,
    lastIntChildIdxAux i cs = none ↔ ∀ c ∈ cs, c.ndesc = 0 := by
  induction cs with
  | nil => intro i; simp [lastIntChildIdxAux]
  | cons c cs ih =>
      intro i
      rw [lastIntChildIdxAux]
      cases h : lastIntChildIdxAux (i + 1) cs with
      | some r =>
          simp only
          constructor
          · intro habs; cases habs
          · intro hall
            have := (ih (i + 1)).mpr
              (fun x hx => hall x (List.mem_cons_of_mem _ hx))
            rw [this] at h
            cases h
      | none =>
          simp only
          by_cases hc : c.ndesc ≠ 0
          · rw [if_pos hc]
            constructor
            · intro habs; cases habs
            · intro hall
              exact absurd (hall c (List.mem_cons_self _ _)) hc
          · rw [if_neg hc]
            push_neg at hc
            constructor
            · intro _ x hx
              rcases List.mem_cons.mp hx with rfl | hx
              · exact hc
              · exact (ih (i + 1)).mp h x hx
            · intro _; rfl

theorem aux_last_internal : ∀ (cs : List RNode) (h : cs ≠ []),
    (cs.getLast h).ndesc ≠ 0 → ∀ i : Nat,
    lastIntChildIdxAux i cs = some (i + (cs.length - 1), cs.getLast h) := by
  intro cs
  induction cs with
  | nil => intro h; cases h rfl
  | cons c cs ih =>
      intro h hint i
      cases cs with
      | nil =>
          rw [lastIntChildIdxAux]
          simp only [lastIntChildIdxAux]
          rw [if_pos (by simpa [List.getLast] using hint)]
          simp [List.getLast]
      | cons c' cs' =>
          have hne : (c' :: cs') ≠ [] := by simp
          have hlast : (c :: c' :: cs').getLast h =
              (c' :: cs').getLast hne := List.getLast_cons hne
          rw [lastIntChildIdxAux]
          rw [ih hne (by rw [← hlast]; exact hint) (i + 1)]
          simp only [hlast]
          refine congrArg some (congrArg (·, (c' :: cs').getLast hne) ?_)
          simp
          omega

theorem aux_some_spec : ∀ (cs : List RNode) (i k : Nat) (c : RNode),
    lastIntChildIdxAux i cs = some (k, c) →
    i ≤ k ∧ k - i < cs.length ∧ cs.get? (k - i) = some c ∧
      c.ndesc ≠ 0 ∧
      ∀ j x, k - i < j → cs.get? j = some x → x.ndesc = 0 := by
  intro cs
  induction cs with
  | nil => intro i k c h; cases h
  | cons b bs ih =>
      intro i k c h
      rw [lastIntChildIdxAux] at h
      cases haux : lastIntChildIdxAux (i + 1) bs with
      | some r =>
          rw [haux] at h
          simp only at h
          injection h with h
          subst h
          obtain ⟨h1, h2, h3, h4, h5⟩ := ih (i + 1) k c haux
          have hk : i + 1 ≤ k := h1
          refine ⟨by omega, by simp; omega, ?_, h4, ?_⟩
          · rw [show k - i = (k - (i + 1)) + 1 from by omega,
              List.get?_cons_succ]
            exact h3
          · intro j x hj hx
            cases j with
            | zero => omega
            | succ j =>
                rw [List.get?_cons_succ] at hx
                exact h5 j x (by omega) hx
      | none =>
          rw [haux] at h
          simp only at h
          by_cases hb : b.ndesc ≠ 0
          · rw [if_pos hb] at h
            injection h with h
            cases h
            refine ⟨Nat.le_refl _, by simp, by simp, hb, ?_⟩
            intro j x hj hx
            cases j with
            | zero => omega
            | succ j =>
                rw [List.get?_cons_succ] at hx
                have hmem : x ∈ bs := by
                  rw [List.get?_eq_getElem?] at hx
                  exact List.getElem?_mem hx
                exact (aux_none_iff bs (i + 1)).mp haux x hmem
          · rw [if_neg hb] at h
            cases h

/-- Value form of one boundary scan: the last internal child (with its
position), or `lfdesc` (child 0) when every child is terminal. -/
def scanIdxTgt (A : RNode) : Nat × RNode :=
  match lastIntChildIdx A.children with
  | some (k, c) => (k, c)
  | none => (0, A.children.headD (.mk {} []))

/-- The path (relative to the node where the boundary loop currently
stands) accumulated by the rest of the loop: the final tip the loop
stops at is at this relative path. -/
def endRelVal : Nat → RNode → NPath
  | 0, _ => []
  | fuel + 1, p =>
      if p.ndesc ≠ 0 then
        ((lastDescRel p).dropLast ++
          [(scanIdxTgt (nodeAtD p (lastDescRel p).dropLast)).1]) ++
          endRelVal fuel (scanIdxTgt (nodeAtD p (lastDescRel p).dropLast)).2
      else []

/-- The path of the *last internal node of the preorder*: follow, at
each internal node, its last internal child while one exists. -/
def lastIntPath (t : RNode) : NPath :=
  match h : lastIntChildIdx t.children with
  | none => []
  | some kc => kc.1 :: lastIntPath kc.2
termination_by t.size
decreasing_by
  have hs := (aux_some_spec t.children 0 kc.1 kc.2
    (by rw [← h]; rfl)).2.2.1
  rw [Nat.sub_zero, List.get?_eq_getElem?] at hs
  exact size_child_lt (List.getElem?_mem hs)

theorem lastIntPath_none {t : RNode}
    (h : lastIntChildIdx t.children = none) : lastIntPath t = [] := by
  rw [lastIntPath]
  split
  next => rfl
  next kc heq => rw [heq] at h; cases h

theorem lastIntPath_some {t : RNode} {k : Nat} {c : RNode}
    (h : lastIntChildIdx t.children = some (k, c)) :
    lastIntPath t = k :: lastIntPath c := by
  rw [lastIntPath]
  split
  next heq => rw [heq] at h; cases h
  next kc heq =>
      rw [heq] at h
      injection h with h
      subst h
      rfl

theorem endRelVal_tip {p : RNode} (h : p.ndesc = 0) (fuel : Nat) :
    endRelVal (fuel + 1) p = [] := by
  rw [endRelVal, if_neg (fun hc => hc h)]

theorem endRelVal_internal {p : RNode} (h : p.ndesc ≠ 0) (fuel : Nat) :
    endRelVal (fuel + 1) p =
      ((lastDescRel p).dropLast ++
        [(scanIdxTgt (nodeAtD p (lastDescRel p).dropLast)).1]) ++
        endRelVal fuel
          (scanIdxTgt (nodeAtD p (lastDescRel p).dropLast)).2 := by
  rw [endRelVal, if_pos h]

theorem endRelVal_ne_nil {p : RNode} (h : p.ndesc ≠ 0) (fuel : Nat) :
    endRelVal (fuel + 1) p ≠ [] := by
  rw [endRelVal_internal h]
  simp

/-- The boundary loop stops at the tip just below the last internal
node of the preorder: dropping the final step of the accumulated
relative path yields `lastIntPath`. -/
theorem endRelVal_dropLast : ∀ (n : Nat) (t : RNode), countNodes t ≤ n →
    t.ndesc ≠ 0 → ∀ fuel, countNodes t ≤ fuel →
    (endRelVal (fuel + 1) t).dropLast = lastIntPath t := by
  intro n
  induction n with
  | zero => intro t h; have := countNodes_pos t; omega
  | succ n ih =>
      intro t hn ht fuel hfuel
      cases t with
      | mk d cs =>
          have hcs : cs ≠ [] := by
            intro h
            rw [h] at ht
            exact ht rfl
          have hne := hcs
          set g := cs.getLast hne with hg
          have hmem : g ∈ cs := List.getLast_mem hne
          have hlt : countNodes g < countNodes (RNode.mk d cs) :=
            cn_child_lt hmem
          have hget : cs.get? (cs.length - 1) = some g := getLast_get? _ hne
          have hcn2 : 2 ≤ countNodes (RNode.mk d cs) := by
            have h1 := countNodes_pos g
            have h2 : countNodes g ≤ (cs.map countNodes).sum := by
              have : countNodes g ∈ cs.map countNodes :=
                List.mem_map_of_mem _ hmem
              exact List.single_le_sum (fun x _ => Nat.zero_le x) _ this
            rw [countNodes_mk]
            omega
          by_cases hgt : g.ndesc = 0
          · -- the last child is terminal: lastvisit->anc is the node itself
            have hld : lastDescRel (RNode.mk d cs) = [cs.length - 1] := by
              rw [lastDescRel_eq d cs hne, ← hg, lastDescRel_tip hgt]
            rw [endRelVal_internal ht fuel, hld]
            simp only [List.dropLast_single, List.nil_append]
            have hAD : nodeAtD (RNode.mk d cs) [] = RNode.mk d cs := rfl
            rw [hAD]
            cases hidx : lastIntChildIdx cs with
            | none =>
                have hs : scanIdxTgt (RNode.mk d cs) =
                    (0, cs.headD (.mk {} [])) := by
                  rw [scanIdxTgt]
                  simp only [RNode.children, hidx]
                rw [hs]
                have hhead : (cs.headD (.mk {} [])).ndesc = 0 := by
                  cases cs with
                  | nil => exact absurd rfl hcs
                  | cons c0 cs' =>
                      exact (aux_none_iff _ 0).mp hidx c0
                        (List.mem_cons_self _ _)
                cases fuel with
                | zero => omega
                | succ f =>
                    rw [endRelVal_tip hhead]
                    rw [lastIntPath_none (show lastIntChildIdx
                      (RNode.mk d cs).children = none from hidx)]
                    rfl
            | some kc =>
                obtain ⟨k, c'⟩ := kc
                have hs : scanIdxTgt (RNode.mk d cs) = (k, c') := by
                  rw [scanIdxTgt]
                  simp only [RNode.children, hidx]
                rw [hs]
                have hspec := aux_some_spec cs 0 k c' hidx
                rw [Nat.sub_zero] at hspec
                have hc'mem : c' ∈ cs := by
                  have := hspec.2.2.1
                  rw [List.get?_eq_getElem?] at this
                  exact List.getElem?_mem this
                have hc'int : c'.ndesc ≠ 0 := hspec.2.2.2.1
                have hc'lt : countNodes c' < countNodes (RNode.mk d cs) :=
                  cn_child_lt hc'mem
                cases fuel with
                | zero => omega
                | succ f =>
                    have hnn : endRelVal (f + 1) c' ≠ [] :=
                      endRelVal_ne_nil hc'int f
                    rw [show ([k] ++ endRelVal (f + 1) c' : NPath) =
                        k :: endRelVal (f + 1) c' from rfl]
                    rw [List.dropLast_cons_of_ne_nil hnn]
                    rw [ih c' (by omega) hc'int f (by omega)]
                    have hfin : lastIntPath (RNode.mk d cs) =
                        k :: lastIntPath c' :=
                      lastIntPath_some (show lastIntChildIdx
                        (RNode.mk d cs).children = some (k, c') from hidx)
                    rw [hfin]
          · -- the last child is internal: the walk steps into it
            have hldg : lastDescRel g ≠ [] := lastDescRel_ne_nil hgt
            have hld : lastDescRel (RNode.mk d cs) =
                (cs.length - 1) :: lastDescRel g := by
              rw [lastDescRel_eq d cs hne, ← hg]
            have hstep : endRelVal (fuel + 1) (RNode.mk d cs) =
                (cs.length - 1) :: endRelVal (fuel + 1) g := by
              rw [endRelVal_internal ht fuel, hld,
                List.dropLast_cons_of_ne_nil hldg]
              have hAD : nodeAtD (RNode.mk d cs)
                  ((cs.length - 1) :: (lastDescRel g).dropLast) =
                  nodeAtD g (lastDescRel g).dropLast := by
                rw [nodeAtD, nodeAt_cons hget]
                rfl
              rw [hAD, endRelVal_internal hgt fuel]
              rfl
            rw [hstep]
            have hnn : endRelVal (fuel + 1) g ≠ [] :=
              endRelVal_ne_nil hgt fuel
            rw [List.dropLast_cons_of_ne_nil hnn]
            rw [ih g (by omega) hgt fuel (by omega)]
            have hidx : lastIntChildIdx cs = some (cs.length - 1, g) := by
              have := aux_last_internal cs hne (hg ▸ hgt) 0
              rw [Nat.zero_add] at this
              exact hg ▸ this
            have hfin : lastIntPath (RNode.mk d cs) =
                (cs.length - 1) :: lastIntPath g :=
              lastIntPath_some (show lastIntChildIdx
                (RNode.mk d cs).children = some (cs.length - 1, g) from hidx)
            rw [hfin]

/-- `p->lastvisit->anc` of an internal node always has children (the
last tip of the subtree is one of them). -/
theorem lastTipAnc_children_ne_nil {p : RNode} (h : p.ndesc ≠ 0) :
    (nodeAtD p (lastDescRel p).dropLast).children ≠ [] := by
  have hvalid := (lastDescRel_valid (countNodes p) p (Nat.le_refl _)).1
  have hnn : lastDescRel p ≠ [] := lastDescRel_ne_nil h
  have hsplit : (lastDescRel p).dropLast ++ [(lastDescRel p).getLast hnn] =
      lastDescRel p := List.dropLast_concat_getLast hnn
  rw [← hsplit] at hvalid
  obtain ⟨h1, h2⟩ := validPath_append_iff.mp hvalid
  intro hempty
  unfold validPath at h2
  cases hA : nodeAtD p (lastDescRel p).dropLast with
  | mk dA csA =>
      rw [hA] at hempty h2
      subst hempty
      rw [nodeAt_cons_none (by simp)] at h2
      cases h2

/-- A single child step is a valid path. -/
theorem valid_single {X : RNode} {i : Nat} {c : RNode}
    (h : X.children.get? i = some c) :
    validPath X [i] = true ∧ nodeAtD X [i] = c := by
  cases X with
  | mk dX csX =>
      have h' : csX.get? i = some c := h
      constructor
      · unfold validPath
        rw [show ([i] : NPath) = i :: [] from rfl, nodeAt_cons h']
        rfl
      · rw [show ([i] : NPath) = i :: [] from rfl, nodeAtD, nodeAt_cons h']
        rfl

/-- The scan at a path equals its value form, and the step it takes is
valid. -/
theorem scanKidsPath_eq {t : RNode} {πA : NPath}
    (hv : validPath t πA = true)
    (hne : (nodeAtD t πA).children ≠ []) :
    scanKidsPath t πA = πA ++ [(scanIdxTgt (nodeAtD t πA)).1] ∧
    validPath t (πA ++ [(scanIdxTgt (nodeAtD t πA)).1]) = true ∧
    nodeAtD t (πA ++ [(scanIdxTgt (nodeAtD t πA)).1]) =
      (scanIdxTgt (nodeAtD t πA)).2 := by
  set A := nodeAtD t πA with hA
  have hget : ∀ i c, A.children.get? i = some c →
      validPath t (πA ++ [i]) = true ∧ nodeAtD t (πA ++ [i]) = c := by
    intro i c hic
    obtain ⟨hvi, hni⟩ := valid_single hic
    refine ⟨validPath_append_iff.mpr ⟨hv, by rw [← hA]; exact hvi⟩, ?_⟩
    rw [nodeAtD_append hv, ← hA, hni]
  cases hidx : lastIntChildIdx A.children with
  | none =>
      have hs : scanIdxTgt A = (0, A.children.headD (.mk {} [])) := by
        rw [scanIdxTgt, hidx]
      have hhead : A.children.get? 0 =
          some (A.children.headD (.mk {} [])) := by
        cases hc : A.children with
        | nil => exact absurd hc hne
        | cons c0 cs0 => rfl
      obtain ⟨hv2, hn2⟩ := hget _ _ hhead
      refine ⟨?_, ?_, ?_⟩
      · rw [scanKidsPath, ← hA, hidx, hs]
      · rw [hs]; exact hv2
      · rw [hs]; exact hn2
  | some kc =>
      obtain ⟨k, c⟩ := kc
      have hs : scanIdxTgt A = (k, c) := by
        rw [scanIdxTgt, hidx]
      have hspec := aux_some_spec A.children 0 k c hidx
      rw [Nat.sub_zero] at hspec
      obtain ⟨hv2, hn2⟩ := hget _ _ hspec.2.2.1
      refine ⟨?_, ?_, ?_⟩
      · rw [scanKidsPath, ← hA, hidx, hs]
      · rw [hs]; exact hv2
      · rw [hs]; exact hn2

/-- The path-level boundary loop is the value-level loop, shifted to
the starting path. -/
theorem endLoopPath_rel {t : RNode} : ∀ (fuel : Nat) (πp : NPath),
    validPath t πp = true →
    endLoopPath t fuel πp = πp ++ endRelVal fuel (nodeAtD t πp) := by
  intro fuel
  induction fuel with
  | zero => intro πp _; simp [endLoopPath, endRelVal]
  | succ fuel ih =>
      intro πp hv
      by_cases hp : (nodeAtD t πp).ndesc = 0
      · rw [endLoopPath, if_neg (fun hc => hc hp), endRelVal_tip hp]
        simp
      · set p := nodeAtD t πp with hpdef
        have hLTAvalid : validPath t (πp ++ (lastDescRel p).dropLast) =
            true := by
          refine validPath_append_iff.mpr ⟨hv, ?_⟩
          rw [← hpdef]
          have hvfull := (lastDescRel_valid (countNodes p) p
            (Nat.le_refl _)).1
          have hnn : lastDescRel p ≠ [] := lastDescRel_ne_nil hp
          have hsplit : (lastDescRel p).dropLast ++
              [(lastDescRel p).getLast hnn] = lastDescRel p :=
            List.dropLast_concat_getLast hnn
          rw [← hsplit] at hvfull
          exact (validPath_append_iff.mp hvfull).1
        have hAnode : nodeAtD t (πp ++ (lastDescRel p).dropLast) =
            nodeAtD p (lastDescRel p).dropLast := by
          rw [nodeAtD_append hv, ← hpdef]
        have hAne : (nodeAtD p (lastDescRel p).dropLast).children ≠ [] :=
          lastTipAnc_children_ne_nil hp
        have hscan := scanKidsPath_eq hLTAvalid (by rw [hAnode]; exact hAne)
        rw [hAnode] at hscan
        have hLTA : lastTipAncPath t πp =
            πp ++ (lastDescRel p).dropLast := by
          rw [lastTipAncPath, ← hpdef]
        rw [endLoopPath, if_pos (by rw [← hpdef]; exact hp), hLTA,
          hscan.1, ih _ hscan.2.1, hscan.2.2, endRelVal_internal hp fuel]
        simp [List.append_assoc]

/-- The truncated ancestor path of the `lastvisit` chain is valid. -/
theorem LTA_valid {p : RNode} : validPath p (lastDescRel p).dropLast = true := by
  have hvfull := (lastDescRel_valid (countNodes p) p (Nat.le_refl _)).1
  cases hnn : lastDescRel p with
  | nil => rfl
  | cons a l =>
      have hne : lastDescRel p ≠ [] := by rw [hnn]; simp
      have hsplit : (lastDescRel p).dropLast ++
          [(lastDescRel p).getLast hne] = lastDescRel p :=
        List.dropLast_concat_getLast hne
      rw [← hsplit] at hvfull
      have := (validPath_append_iff.mp hvfull).1
      rw [← hnn]
      exact this

/-- The `INTERNAL_NODES_ONLY` boundary loop from the root of an
internal-rooted tree lands on the last internal node of the preorder. -/
theorem cursorIntEnd_eq {t : RNode} (h : t.ndesc ≠ 0) :
    cursorIntEnd t [] = lastIntPath t := by
  have hLTA : lastTipAncPath t [] = (lastDescRel t).dropLast := by
    rw [lastTipAncPath]
    rfl
  have hvalid : validPath t (lastDescRel t).dropLast = true := LTA_valid
  have hne : (nodeAtD t (lastDescRel t).dropLast).children ≠ [] :=
    lastTipAnc_children_ne_nil h
  have hscan := scanKidsPath_eq hvalid hne
  rw [cursorIntEnd, hLTA, hscan.1, endLoopPath_rel _ _ hscan.2.1,
    hscan.2.2, ← endRelVal_internal h (countNodes t)]
  exact endRelVal_dropLast (countNodes t) t (Nat.le_refl _) h
    (countNodes t) (Nat.le_refl _)

/-- The last internal node of the preorder: its path is valid, it is
internal, and exactly `countInt - 1` internal nodes precede it. -/
theorem lastIntPath_spec : ∀ (n : Nat) (t : RNode), countNodes t ≤ n →
    t.ndesc ≠ 0 →
    validPath t (lastIntPath t) = true ∧
    (nodeAtD t (lastIntPath t)).children.isEmpty = false ∧
    ((preFlags t).take (posOf t (lastIntPath t))).count false =
      countInt t - 1 := by
  intro n
  induction n with
  | zero => intro t h; have := countNodes_pos t; omega
  | succ n ih =>
      intro t hn ht
      cases t with
      | mk d cs =>
          have hcs : cs ≠ [] := by
            intro h
            rw [h] at ht
            exact ht rfl
          have hemp : cs.isEmpty = false := by
            cases cs with
            | nil => exact absurd rfl hcs
            | cons a l => rfl
          cases hidx : lastIntChildIdx cs with
          | none =>
              have hlp : lastIntPath (RNode.mk d cs) = [] :=
                lastIntPath_none
                  (show lastIntChildIdx (RNode.mk d cs).children =
                    none from hidx)
              refine ⟨by rw [hlp]; rfl, ?_, ?_⟩
              · rw [hlp]
                exact hemp
              · rw [hlp]
                have htips := (aux_none_iff cs 0).mp hidx
                have hzero : (preFlagsList cs).count false = 0 := by
                  rw [pfl_count]
                  refine List.sum_eq_zero ?_
                  intro x hx
                  rcases List.mem_map.mp hx with ⟨c, hc, rfl⟩
                  exact countInt_tip (htips c hc)
                have : countInt (RNode.mk d cs) = 1 := by
                  simp only [countInt, preFlags, hemp, List.count_cons]
                  simp [hzero]
                simp [posOf, this]
          | some kc =>
              obtain ⟨k, c'⟩ := kc
              have hspec := aux_some_spec cs 0 k c' hidx
              rw [Nat.sub_zero] at hspec
              have hget : cs.get? k = some c' := hspec.2.2.1
              have hc'int : c'.ndesc ≠ 0 := hspec.2.2.2.1
              have htrail := hspec.2.2.2.2
              have hc'mem : c' ∈ cs := by
                rw [List.get?_eq_getElem?] at hget
                exact List.getElem?_mem hget
              have hc'lt : countNodes c' < countNodes (RNode.mk d cs) :=
                cn_child_lt hc'mem
              obtain ⟨hv', hint', hcount'⟩ := ih c' (by omega) hc'int
              have hlp : lastIntPath (RNode.mk d cs) =
                  k :: lastIntPath c' :=
                lastIntPath_some
                  (show lastIntChildIdx (RNode.mk d cs).children =
                    some (k, c') from hidx)
              have hD : nodeAtD (RNode.mk d cs) (k :: lastIntPath c') =
                  nodeAtD c' (lastIntPath c') := by
                rw [nodeAtD, nodeAt_cons hget]
                rfl
              refine ⟨?_, ?_, ?_⟩
              · rw [hlp]
                unfold validPath
                rw [nodeAt_cons hget]
                exact hv'
              · rw [hlp, hD]
                exact hint'
              · rw [hlp]
                set p := posOf c' (lastIntPath c') with hpdef
                have hplt : p < countNodes c' := posOf_lt_countNodes hv'
                have hpos : posOf (RNode.mk d cs) (k :: lastIntPath c') =
                    1 + ((cs.take k).map countNodes).sum + p := by
                  have hD1 : nodeAtD (RNode.mk d cs) [k] = c' := by
                    rw [show ([k] : NPath) = k :: [] from rfl, nodeAtD,
                      nodeAt_cons hget]
                    rfl
                  simp only [posOf, hD1, RNode.children, ← hpdef]
                rw [hpos]
                have hsplit := pfl_split hget
                have hlen : (preFlagsList (cs.take k)).length =
                    ((cs.take k).map countNodes).sum := pfl_length _
                have hflags : preFlags (RNode.mk d cs) =
                    false :: preFlagsList cs := by
                  simp [preFlags, hemp]
                rw [hflags]
                rw [show 1 + ((cs.take k).map countNodes).sum + p =
                    (((cs.take k).map countNodes).sum + p) + 1 from by omega]
                rw [List.take_succ_cons, hsplit, List.append_assoc]
                rw [show ((cs.take k).map countNodes).sum + p =
                    (preFlagsList (cs.take k)).length + p from by rw [hlen]]
                rw [List.take_append]
                rw [List.take_append_of_le_length (by
                  simpa [countNodes] using Nat.le_of_lt hplt)]
                have hdrop : (preFlagsList (cs.drop (k + 1))).count
                    false = 0 := by
                  rw [pfl_count]
                  refine List.sum_eq_zero ?_
                  intro x hx
                  rcases List.mem_map.mp hx with ⟨c, hc, rfl⟩
                  rcases List.mem_iff_get?.mp hc with ⟨m, hm⟩
                  rw [List.get?_drop] at hm
                  exact countInt_tip (htrail (k + 1 + m) c (by omega) hm)
                have hcint : countInt (RNode.mk d cs) =
                    1 + (preFlagsList (cs.take k)).count false +
                      countInt c' +
                      (preFlagsList (cs.drop (k + 1))).count false := by
                  simp only [countInt, hflags, List.count_cons, hsplit,
                    List.count_append]
                  simp [countInt]
                  omega
                have hge := countInt_pos hc'int
                simp only [List.count_cons, List.count_append,
                  beq_self_eq_true, if_true]
                rw [hcount', hcint, hdrop]
                omega

theorem runCursor_exhausted {c : Cursor} (h : c.next_ = none) :
    ∀ fuel, runCursor fuel c = [] := by
  intro fuel
  cases fuel with
  | zero => rfl
  | succ fuel =>
      rw [runCursor, phy_cursor_step, h]

/-- A step with the boundary not yet reached returns the node and
advances. -/
theorem step_advance {v o : Nat} {cur : Int} {b e : Option Nat}
    {pos : Nat} (h : some pos ≠ e) :
    phy_cursor_step ⟨v, o, cur, b, e, some pos⟩ =
      (some pos, ⟨v, o, if o = PRE_ORDER then cur + 1 else cur - 1,
        b, e, some cur.toNat⟩) := by
  rw [phy_cursor_step]
  simp only [if_pos h]

/-- A step at the boundary returns it and clears the cursor. -/
theorem step_stop {v o : Nat} {cur : Int} {b : Option Nat} {pos : Nat} :
    phy_cursor_step ⟨v, o, cur, b, some pos, some pos⟩ =
      (some pos, ⟨v, o, cur, none, none, none⟩) := by
  rw [phy_cursor_step]
  simp

theorem runCursor_cons {fuel : Nat} {c : Cursor} {pos : Nat} {c2 : Cursor}
    (h : phy_cursor_step c = (some pos, c2)) :
    runCursor (fuel + 1) c = pos :: runCursor fuel c2 := by
  rw [runCursor, h]

/-- Exhaustive run of an ascending cursor: from array slot `s` with the
boundary at slot `s + d`, the loop returns exactly the slots
`s, s+1, …, s+d`, with any amount of extra fuel. -/
theorem runCursor_inc (d : Nat) : ∀ (s k v : Nat) (b : Option Nat),
    runCursor (d + 1 + k)
      { visit := v, order := PRE_ORDER, cursor := (s : Int) + 1,
        begin_ := b, end_ := some (s + d), next_ := some s } =
      List.range' s (d + 1) := by
  induction d with
  | zero =>
      intro s k v b
      rw [show 0 + 1 + k = k + 1 from by omega,
        show s + 0 = s from by omega,
        runCursor_cons step_stop, runCursor_exhausted rfl]
      rfl
  | succ d ih =>
      intro s k v b
      rw [show d + 1 + 1 + k = (d + 1 + k) + 1 from by omega,
        runCursor_cons (step_advance (by simp))]
      rw [show (if PRE_ORDER = PRE_ORDER then (s : Int) + 1 + 1
          else (s : Int) + 1 - 1) = ((s + 1 : Nat) : Int) + 1 from by
        rw [if_pos rfl]; push_cast; ring]
      rw [show ((s : Int) + 1).toNat = s + 1 from by
        rw [show (s : Int) + 1 = ((s + 1 : Nat) : Int) from by
          push_cast; ring]
        exact Int.toNat_natCast _]
      rw [show s + (d + 1) = (s + 1) + d from by omega]
      rw [ih (s + 1) k v b]
      exact (List.range'_succ _ _ _).symm

/-- Exhaustive run of a descending cursor: from array slot `e + d` down
to the boundary at slot `e`, the loop returns `e+d, …, e+1, e`, with
any amount of extra fuel. -/
theorem runCursor_dec (d : Nat) : ∀ (e k v : Nat) (b : Option Nat),
    runCursor (d + 1 + k)
      { visit := v, order := POST_ORDER, cursor := ((e + d : Nat) : Int) - 1,
        begin_ := b, end_ := some e, next_ := some (e + d) } =
      (List.range' e (d + 1)).reverse := by
  induction d with
  | zero =>
      intro e k v b
      rw [show 0 + 1 + k = k + 1 from by omega,
        show e + 0 = e from by omega,
        runCursor_cons step_stop, runCursor_exhausted rfl]
      rfl
  | succ d ih =>
      intro e k v b
      rw [show d + 1 + 1 + k = (d + 1 + k) + 1 from by omega,
        runCursor_cons (step_advance (by simp))]
      rw [show (if POST_ORDER = PRE_ORDER
          then ((e + (d + 1) : Nat) : Int) - 1 + 1
          else ((e + (d + 1) : Nat) : Int) - 1 - 1) =
          ((e + d : Nat) : Int) - 1 from by
        rw [if_neg (by rw [POST_ORDER, PRE_ORDER]; omega)]
        push_cast; ring]
      rw [show (((e + (d + 1) : Nat) : Int) - 1).toNat = e + d from by
        rw [show ((e + (d + 1) : Nat) : Int) - 1 =
            ((e + d : Nat) : Int) from by push_cast; ring]
        exact Int.toNat_natCast _]
      rw [ih e k v b]
      have hsplit : List.range' e (d + 1 + 1) =
          List.range' e (d + 1) ++ [e + (d + 1)] :=
        List.range'_1_concat e (d + 1)
      rw [hsplit, List.reverse_append]
      rfl

theorem prep_all_pre {t : RNode} (h : t.ndesc ≠ 0) :
    phy_cursor_prepare_v2 (phy_build t (countNodes t) (countTips t)) []
      ALL_NODES PRE_ORDER =
      ⟨ALL_NODES, PRE_ORDER, 1, some 0, some (countNodes t - 1),
        some 0⟩ := by
  have hroot : nodeAtD t [] = t := rfl
  have hlv : lastvisitPath t [] = lastDescRel t := by
    rw [lastvisitPath, hroot]
    rfl
  have hvl : validPath t (lastDescRel t) = true :=
    (lastDescRel_valid (countNodes t) t (Nat.le_refl _)).1
  have he : vseqOf t (countTips t) (idxAt t (countTips t)
      (lastvisitPath t [])) = countNodes t - 1 := by
    rw [hlv, vseq_idx hvl,
      posOf_lastDescRel (countNodes t) t (Nat.le_refl _)]
  have hvr : validPath t [] = true := rfl
  have hc : vseqOf t (countTips t) (idxAt t (countTips t) []) = 0 := by
    rw [vseq_idx hvr]
    rfl
  have step1 : phy_cursor_prepare_v2
      (phy_build t (countNodes t) (countTips t)) [] ALL_NODES PRE_ORDER =
      ⟨ALL_NODES, PRE_ORDER,
        if t.ndesc ≠ 0 then
          (vseqOf t (countTips t) (idxAt t (countTips t) []) : Int) + 1
        else 0,
        some 0,
        some (if t.ndesc ≠ 0 then
          vseqOf t (countTips t)
            (idxAt t (countTips t) (lastvisitPath t []))
        else 0),
        some 0⟩ := rfl
  rw [step1, if_pos h, if_pos h, hc, he]
  rfl

theorem prep_int_pre {t : RNode} (h : t.ndesc ≠ 0) :
    phy_cursor_prepare_v2 (phy_build t (countNodes t) (countTips t)) []
      INTERNAL_NODES_ONLY PRE_ORDER =
      ⟨INTERNAL_NODES_ONLY, PRE_ORDER, 1, some 0,
        some (countInt t - 1), some 0⟩ := by
  have hroot : nodeAtD t [] = t := rfl
  have hidx0 : idxAt t (countTips t) [] = countTips t :=
    idxAt_nil_internal _ (by omega)
  have hspec := lastIntPath_spec (countNodes t) t (Nat.le_refl _) h
  have hend : idxAt t (countTips t) (cursorIntEnd t []) =
      countTips t + (countInt t - 1) := by
    rw [cursorIntEnd_eq h, idxAt_eq (countTips t) hspec.1, hspec.2.1,
      hspec.2.2]
    simp
  have step1 : phy_cursor_prepare_v2
      (phy_build t (countNodes t) (countTips t)) []
      INTERNAL_NODES_ONLY PRE_ORDER =
      ⟨INTERNAL_NODES_ONLY, PRE_ORDER,
        if t.ndesc ≠ 0 then
          (idxAt t (countTips t) [] : Int) - (countTips t : Int) + 1
        else 0,
        some (idxAt t (countTips t) [] - countTips t),
        some (if t.ndesc ≠ 0 then
          idxAt t (countTips t) (cursorIntEnd t []) - countTips t
        else idxAt t (countTips t) [] - countTips t),
        some (idxAt t (countTips t) [] - countTips t)⟩ := rfl
  rw [step1, if_pos h, if_pos h, hidx0, hend, Nat.sub_self,
    Nat.add_sub_cancel_left, sub_self, zero_add]

theorem prep_all_post {t : RNode} (h : t.ndesc ≠ 0) :
    phy_cursor_prepare_v2 (phy_build t (countNodes t) (countTips t)) []
      ALL_NODES POST_ORDER =
      ⟨ALL_NODES, POST_ORDER, ((countNodes t - 1 : Nat) : Int) - 1,
        some (countNodes t - 1), some 0, some (countNodes t - 1)⟩ := by
  have hroot : nodeAtD t [] = t := rfl
  have hlv : lastvisitPath t [] = lastDescRel t := by
    rw [lastvisitPath, hroot]
    rfl
  have hvl : validPath t (lastDescRel t) = true :=
    (lastDescRel_valid (countNodes t) t (Nat.le_refl _)).1
  have he : vseqOf t (countTips t) (idxAt t (countTips t)
      (lastvisitPath t [])) = countNodes t - 1 := by
    rw [hlv, vseq_idx hvl,
      posOf_lastDescRel (countNodes t) t (Nat.le_refl _)]
  have step1 : phy_cursor_prepare_v2
      (phy_build t (countNodes t) (countTips t)) [] ALL_NODES POST_ORDER =
      ⟨ALL_NODES, POST_ORDER,
        if t.ndesc ≠ 0 then
          (((if t.ndesc ≠ 0 then
            vseqOf t (countTips t)
              (idxAt t (countTips t) (lastvisitPath t []))
          else 0 : Nat)) : Int) - 1
        else 0,
        some (if t.ndesc ≠ 0 then
          vseqOf t (countTips t)
            (idxAt t (countTips t) (lastvisitPath t []))
        else 0),
        some 0,
        some (if t.ndesc ≠ 0 then
          vseqOf t (countTips t)
            (idxAt t (countTips t) (lastvisitPath t []))
        else 0)⟩ := rfl
  rw [step1, if_pos h, if_pos h, he]

/-- Position of a value in the reversed range. -/
theorem idxOf_rev_range : ∀ (n i : Nat), i < n →
    (List.range n).reverse.indexOf i = n - 1 - i := by
  intro n
  induction n with
  | zero => intro i hi; omega
  | succ n ih =>
      intro i hi
      rw [List.range_succ, List.reverse_append]
      by_cases hin : i = n
      · subst hin
        simp
      · have hlt : i < n := by omega
        rw [show ([n].reverse ++ (List.range n).reverse) =
            n :: (List.range n).reverse from rfl]
        rw [List.indexOf_cons_ne _ (fun hc => hin hc.symm), ih i hlt]
        omega

/-- A proper descendant has a strictly larger preorder position. -/
theorem posOf_lt_extend {t : RNode} {π : NPath}
    (hv : validPath t π = true) (i : Nat) (ρ : NPath) :
    posOf t π < posOf t (π ++ i :: ρ) := by
  rw [posOf_append hv]
  simp only [posOf]
  omega

/-- C7 (amended form).  For every connected node graph whose root has at
least one descendant, built with its matching counts: a preorder cursor
over all nodes started at the root returns, with any amount of extra
stepping, exactly the `nnode` array positions `0, …, nnode-1` in
preorder; with the internal-only filter exactly the `nnode - ntip`
internal positions; a postorder cursor over all nodes returns the same
set reversed, and in its output every proper descendant appears strictly
before its ancestor.  (The internal-only count fails on the one-node
graph, whose root is a tip — see the counterexample.) -/
theorem C7_cursor_traversal (t : RNode) (hd : 1 ≤ t.ndesc) :
    (∀ k, runCursor (countNodes t + k)
      (phy_cursor_prepare_v2 (phy_build t (countNodes t) (countTips t))
        [] ALL_NODES PRE_ORDER) = List.range (countNodes t)) ∧
    (∀ k, runCursor ((countNodes t - countTips t) + k)
      (phy_cursor_prepare_v2 (phy_build t (countNodes t) (countTips t))
        [] INTERNAL_NODES_ONLY PRE_ORDER) =
        List.range (countNodes t - countTips t)) ∧
    (∀ k, runCursor (countNodes t + k)
      (phy_cursor_prepare_v2 (phy_build t (countNodes t) (countTips t))
        [] ALL_NODES POST_ORDER) =
        (List.range (countNodes t)).reverse) ∧
    (∀ (π : NPath) (i : Nat) (ρ : NPath),
      validPath t (π ++ i :: ρ) = true →
      (runCursor (countNodes t)
        (phy_cursor_prepare_v2 (phy_build t (countNodes t) (countTips t))
          [] ALL_NODES POST_ORDER)).indexOf (posOf t (π ++ i :: ρ)) <
      (runCursor (countNodes t)
        (phy_cursor_prepare_v2 (phy_build t (countNodes t) (countTips t))
          [] ALL_NODES POST_ORDER)).indexOf (posOf t π)) := by
  have h : t.ndesc ≠ 0 := by omega
  have hpos := countNodes_pos t
  have hcnt : countInt t = countNodes t - countTips t := by
    have := count_true_add_count_false (preFlags t)
    simp only [countTips, countInt, countNodes] at *
    omega
  have hci := countInt_pos h
  have hall : ∀ k, runCursor (countNodes t + k)
      (phy_cursor_prepare_v2 (phy_build t (countNodes t) (countTips t))
        [] ALL_NODES PRE_ORDER) = List.range (countNodes t) := by
    intro k
    rw [prep_all_pre h]
    have h1 := runCursor_inc (countNodes t - 1) 0 k ALL_NODES (some 0)
    rw [show (0 : Nat) + (countNodes t - 1) = countNodes t - 1 from by
        omega,
      show countNodes t - 1 + 1 + k = countNodes t + k from by omega,
      show countNodes t - 1 + 1 = countNodes t from by omega] at h1
    rw [List.range_eq_range']
    exact h1
  have hint : ∀ k, runCursor ((countNodes t - countTips t) + k)
      (phy_cursor_prepare_v2 (phy_build t (countNodes t) (countTips t))
        [] INTERNAL_NODES_ONLY PRE_ORDER) =
        List.range (countNodes t - countTips t) := by
    intro k
    rw [prep_int_pre h]
    have h1 := runCursor_inc (countInt t - 1) 0 k INTERNAL_NODES_ONLY
      (some 0)
    rw [show (0 : Nat) + (countInt t - 1) = countInt t - 1 from by omega,
      show countInt t - 1 + 1 + k = countInt t + k from by omega,
      show countInt t - 1 + 1 = countInt t from by omega] at h1
    rw [← hcnt, List.range_eq_range']
    exact h1
  have hpost : ∀ k, runCursor (countNodes t + k)
      (phy_cursor_prepare_v2 (phy_build t (countNodes t) (countTips t))
        [] ALL_NODES POST_ORDER) =
        (List.range (countNodes t)).reverse := by
    intro k
    rw [prep_all_post h]
    have h1 := runCursor_dec (countNodes t - 1) 0 k ALL_NODES
      (some (countNodes t - 1))
    rw [show (0 : Nat) + (countNodes t - 1) = countNodes t - 1 from by
        omega,
      show countNodes t - 1 + 1 + k = countNodes t + k from by omega,
      show countNodes t - 1 + 1 = countNodes t from by omega] at h1
    rw [List.range_eq_range']
    exact h1
  refine ⟨hall, hint, hpost, ?_⟩
  intro π i ρ hvfull
  have hL := hpost 0
  rw [show countNodes t + 0 = countNodes t from by omega] at hL
  have hvp : validPath t π = true := validPath_append hvfull
  have hlt : posOf t π < posOf t (π ++ i :: ρ) := posOf_lt_extend hvp i ρ
  have hub : posOf t (π ++ i :: ρ) < countNodes t :=
    posOf_lt_countNodes hvfull
  rw [hL, idxOf_rev_range _ _ hub, idxOf_rev_range _ _ (by omega)]
  omega

/-- C7, counterexample to the unconditional internal-only count: on the
one-node graph (`nnode = ntip = 1`, root a tip) the INTERNAL_NODES_ONLY
preorder cursor still returns one node (the tip root, as begin = end =
node), not `nnode - ntip = 0`. -/
theorem C7_single_node_internal_counterexample :
    countNodes (RNode.mk {} []) = 1 ∧
    countTips (RNode.mk {} []) = 1 ∧
    (runCursor 2 (phy_cursor_prepare_v2
      (phy_build (RNode.mk {} []) 1 1) [] INTERNAL_NODES_ONLY
        PRE_ORDER)).length = 1 ∧
    countNodes (RNode.mk {} []) - countTips (RNode.mk {} []) = 0 := by
  decide

/-- Witness for C7: the all-nodes preorder conjunct applied to the
scenario tree (7 nodes). -/
theorem C7_cursor_witness :
    1 ≤ phyRooted.tree.ndesc ∧
    runCursor (countNodes phyRooted.tree + 0)
      (phy_cursor_prepare_v2 (phy_build phyRooted.tree
        (countNodes phyRooted.tree) (countTips phyRooted.tree))
        [] ALL_NODES PRE_ORDER) =
      List.range (countNodes phyRooted.tree) :=
  ⟨by decide, (C7_cursor_traversal phyRooted.tree (by decide)).1 0⟩

/-! ## C8: `phy_extract_subtree`

The extraction takes the list of requested tips as node addresses
(paths).  Its first loop marks every requested tip and all of its
ancestors in `bitmask`; a node is marked iff it is an ancestor-or-self
of a requested tip, i.e. iff its path is a prefix of a requested path.
The copy loop then clones exactly the marked nodes (the marked set is
closed under ancestors, so pruning unmarked subtrees loses nothing),
keeping child order (`phy_node_add_child` appends), copying `brlen` and
`lab` but not `note`; the first marked node of the preorder — the
original root, marked since the requested set is non-empty — is created
by bare `node_new()`, so its label and branch length are dropped.  The
final loop splices every node with exactly one descendant, adding its
branch length to its sole child's (`q->brlen += p->brlen`), except that
whenever the spliced node is the root the surviving child's branch
length is reset to zero (`root->brlen = 0`). -/

/-- `bitmask[p] == 1`: the node is an ancestor-or-self of a requested
tip. -/
def marked (req : List NPath) (π : NPath) : Bool :=
  req.any (fun τ => pathLE π τ)

mutual
/-- The copy loop restricted to the subtree at `π` (a marked node other
than the first): label and branch length copied, note dropped, unmarked
children pruned. -/
def induced (req : List NPath) : RNode → NPath → RNode
  | .mk d cs, π =>
      .mk { lab := d.lab, note := none, brlen := d.brlen }
        (inducedList req cs π 0)
/-- Copies of the marked children of the node at `π`, in order,
starting at child position `i`. -/
def inducedList (req : List NPath) : List RNode → NPath → Nat → List RNode
  | [], _, _ => []
  | c :: cs, π, i =>
      if marked req (π ++ [i]) then
        induced req c (π ++ [i]) :: inducedList req cs π (i + 1)
      else inducedList req cs π (i + 1)
end

/-- The copy of the root (`node_new()` only: label, note and branch
length all dropped). -/
def inducedRoot (req : List NPath) (t : RNode) : RNode :=
  .mk {} (inducedList req t.children [] 0)

/-- The `while (p->ndesc == 1)` splice at one node: as long as the node
has a single child, the child absorbs the node's branch length and
replaces it. -/
def splice : RNode → RNode
  | t =>
    match h : t.children with
    | [c] => splice (mapBr (· + t.brlen) c)
    | _ => t
termination_by t => t.size
decreasing_by
  rw [size_mapBr]
  exact size_child_lt (by rw [h]; exact List.mem_cons_self _ _)

/-- The splice loop at the root: each time the root is spliced away the
surviving child becomes the root and its branch length is reset to 0
(`root->brlen = 0`), so the absorbed lengths are discarded. -/
def spliceRoot : RNode → RNode
  | t =>
    match h : t.children with
    | [c] => spliceRoot c
    | _ => mapBr (fun _ => 0) t
termination_by t => t.size
decreasing_by
  exact size_child_lt (by rw [h]; exact List.mem_cons_self _ _)

theorem splice_size_le : ∀ (n : Nat) (t : RNode), t.size ≤ n →
    (splice t).size ≤ t.size := by
  intro n
  induction n with
  | zero => intro t h; have := size_pos t; omega
  | succ n ih =>
      intro t hn
      rw [splice]
      split
      next c heq =>
        have hmem : c ∈ t.children := by
          rw [heq]
          exact List.mem_cons_self _ _
        have hlt := size_child_lt hmem
        have h1 := ih (mapBr (· + t.brlen) c) (by rw [size_mapBr]; omega)
        rw [size_mapBr] at h1
        omega
      next => exact Nat.le_refl _

theorem spliceRoot_size_le : ∀ (n : Nat) (t : RNode), t.size ≤ n →
    (spliceRoot t).size ≤ t.size := by
  intro n
  induction n with
  | zero => intro t h; have := size_pos t; omega
  | succ n ih =>
      intro t hn
      rw [spliceRoot]
      split
      next c heq =>
        have hmem : c ∈ t.children := by
          rw [heq]
          exact List.mem_cons_self _ _
        have hlt := size_child_lt hmem
        have h1 := ih c (by omega)
        omega
      next => rw [size_mapBr]

/-- The rest of the splice traversal: splice the node, then recurse
into the children of the result. -/
def collapse : RNode → RNode
  | t =>
      .mk (splice t).data
        ((splice t).children.attach.map (fun c => collapse c.1))
termination_by t => t.size
decreasing_by
  show c.1.size < t.size
  have h1 := size_child_lt c.2
  have h3 := splice_size_le t.size t (Nat.le_refl _)
  omega

/-- The splice traversal from the root (root chain discards lengths). -/
def collapseTop (t : RNode) : RNode :=
  .mk (spliceRoot t).data
    ((spliceRoot t).children.attach.map (fun c => collapse c.1))

/-- The tree produced by `phy_extract_subtree`: copy the marked part,
then splice out every unifurcation. -/
def extractTree (req : List NPath) (t : RNode) : RNode :=
  collapseTop (inducedRoot req t)

/-- `phy_extract_subtree` (allocation failures aside).  The `nnode`
counter ends at the number of surviving copies. -/
def phy_extract_subtree (ntip : Nat) (req : List NPath) (p : Phy) : Phy :=
  phy_build (extractTree req p.tree)
    (countNodes (extractTree req p.tree)) ntip

mutual
/-- Number of terminal nodes of the subtree carrying a given label. -/
def countTipLab (ℓ : String) : RNode → Nat
  | .mk d [] => if d.lab = some ℓ then 1 else 0
  | .mk _ (c :: cs) => countTipLabL ℓ (c :: cs)
/-- Sum of `countTipLab` over a sibling list. -/
def countTipLabL (ℓ : String) : List RNode → Nat
  | [] => 0
  | c :: cs => countTipLab ℓ c + countTipLabL ℓ cs
end

/-- The subtree contains a terminal node labeled `ℓ`. -/
def hasTipLab (ℓ : String) (t : RNode) : Bool :=
  decide (countTipLab ℓ t ≠ 0)

/-- Total branch length from a node down to the terminal node labeled
`ℓ` in its subtree (follows the first child containing the label). -/
def downTo (ℓ : String) : RNode → ℚ
  | t =>
    match h : t.children.find? (fun c => hasTipLab ℓ c) with
    | some c => c.brlen + downTo ℓ c
    | none => 0
termination_by t => t.size
decreasing_by
  exact size_child_lt (List.mem_of_find?_eq_some h)

/-- Total branch length from the edge above a node down to the terminal
node labeled `ℓ`. -/
def upLen (ℓ : String) (t : RNode) : ℚ := t.brlen + downTo ℓ t

/-- Total branch length of the direct path between the terminal nodes
labeled `ℓ1` and `ℓ2`: descend to the deepest node containing both,
then add the two downward lengths. -/
def tipDist (ℓ1 ℓ2 : String) : RNode → ℚ
  | t =>
    match h : t.children.find?
        (fun c => hasTipLab ℓ1 c && hasTipLab ℓ2 c) with
    | some c => tipDist ℓ1 ℓ2 c
    | none => downTo ℓ1 t + downTo ℓ2 t
termination_by t => t.size
decreasing_by
  exact size_child_lt (List.mem_of_find?_eq_some h)

/-! ### Equations of the splice loop -/

theorem splice_single (d : NodeData) (c : RNode) :
    splice (.mk d [c]) = splice (mapBr (· + d.brlen) c) := by
  rw [splice]
  split
  next c' heq =>
    have hcc : c' = c := by
      have h2 := heq
      simp only [RNode.children, List.cons.injEq, and_true] at h2
      exact h2.symm
    subst hcc
    rfl
  next hne =>
    exact absurd (show (RNode.mk d [c]).children = [c] from rfl) (hne c)

theorem splice_not_single {t : RNode} (h : t.ndesc ≠ 1) :
    splice t = t := by
  rw [splice]
  split
  next c' heq =>
    exact absurd (by rw [RNode.ndesc, heq]; rfl) h
  next => rfl

theorem spliceRoot_single (d : NodeData) (c : RNode) :
    spliceRoot (.mk d [c]) = spliceRoot c := by
  rw [spliceRoot]
  split
  next c' heq =>
    have hcc : c' = c := by
      have h2 := heq
      simp only [RNode.children, List.cons.injEq, and_true] at h2
      exact h2.symm
    subst hcc
    rfl
  next hne =>
    exact absurd (show (RNode.mk d [c]).children = [c] from rfl) (hne c)

theorem spliceRoot_not_single {t : RNode} (h : t.ndesc ≠ 1) :
    spliceRoot t = mapBr (fun _ => 0) t := by
  rw [spliceRoot]
  split
  next c' heq =>
    exact absurd (by rw [RNode.ndesc, heq]; rfl) h
  next => rfl

theorem collapse_unfold (t : RNode) :
    collapse t = .mk (splice t).data ((splice t).children.map collapse) := by
  rw [collapse, List.attach_map_val]

theorem mapBr_ndesc (f : ℚ → ℚ) (t : RNode) :
    (mapBr f t).ndesc = t.ndesc := by
  cases t with
  | mk d cs => rfl

theorem mapBr_children (f : ℚ → ℚ) (t : RNode) :
    (mapBr f t).children = t.children := by
  cases t with
  | mk d cs => rfl

/-! ### C8, part 1: the result carries no unifurcation -/

theorem splice_ndesc_ne_one : ∀ (n : Nat) (t : RNode), t.size ≤ n →
    (splice t).ndesc ≠ 1 := by
  intro n
  induction n with
  | zero => intro t h; have := size_pos t; omega
  | succ n ih =>
      intro t hn
      rw [splice]
      split
      next c heq =>
        have hmem : c ∈ t.children := by
          rw [heq]; exact List.mem_cons_self _ _
        have hlt := size_child_lt hmem
        exact ih (mapBr (· + t.brlen) c) (by rw [size_mapBr]; omega)
      next hne =>
        intro habs
        rcases List.length_eq_one.mp habs with ⟨a, ha⟩
        exact hne a ha

theorem spliceRoot_ndesc_ne_one : ∀ (n : Nat) (t : RNode), t.size ≤ n →
    (spliceRoot t).ndesc ≠ 1 := by
  intro n
  induction n with
  | zero => intro t h; have := size_pos t; omega
  | succ n ih =>
      intro t hn
      rw [spliceRoot]
      split
      next c heq =>
        have hmem : c ∈ t.children := by
          rw [heq]; exact List.mem_cons_self _ _
        have hlt := size_child_lt hmem
        exact ih c (by omega)
      next hne =>
        rw [mapBr_ndesc]
        intro habs
        rcases List.length_eq_one.mp habs with ⟨a, ha⟩
        exact hne a ha

theorem noUnifL_of_all {l : List RNode}
    (h : ∀ c ∈ l, noUnif c = true) : noUnifL l = true := by
  induction l with
  | nil => rfl
  | cons c cs ih =>
      rw [noUnifL]
      rw [Bool.and_eq_true]
      exact ⟨h c (List.mem_cons_self _ _),
        ih (fun x hx => h x (List.mem_cons_of_mem _ hx))⟩

theorem noUnif_collapse : ∀ (n : Nat) (t : RNode), t.size ≤ n →
    noUnif (collapse t) = true := by
  intro n
  induction n with
  | zero => intro t h; have := size_pos t; omega
  | succ n ih =>
      intro t hn
      rw [collapse_unfold]
      have hsle := splice_size_le t.size t (Nat.le_refl _)
      cases hsp : splice t with
      | mk d cs =>
          rw [noUnif, Bool.and_eq_true]
          constructor
          · have hne := splice_ndesc_ne_one t.size t (Nat.le_refl _)
            rw [hsp] at hne
            simp only [RNode.ndesc, RNode.children, List.length_map] at *
            simpa using hne
          · refine noUnifL_of_all ?_
            intro x hx
            rcases List.mem_map.mp hx with ⟨c, hc, rfl⟩
            have : c.size < (splice t).size := by
              refine size_child_lt ?_
              rw [hsp]
              exact hc
            exact ih c (by omega)

theorem noUnif_collapseTop (t : RNode) : noUnif (collapseTop t) = true := by
  rw [collapseTop, List.attach_map_val]
  have hsle := spliceRoot_size_le t.size t (Nat.le_refl _)
  cases hsp : spliceRoot t with
  | mk d cs =>
      rw [noUnif, Bool.and_eq_true]
      constructor
      · have hne := spliceRoot_ndesc_ne_one t.size t (Nat.le_refl _)
        rw [hsp] at hne
        simp only [RNode.ndesc, RNode.children, List.length_map] at *
        simpa using hne
      · refine noUnifL_of_all ?_
        intro x hx
        rcases List.mem_map.mp hx with ⟨c, hc, rfl⟩
        have : c.size < (spliceRoot t).size := by
          refine size_child_lt ?_
          rw [hsp]
          exact hc
        exact noUnif_collapse t.size c (by omega)

/-! ### C8, part 2: tip labels through the splice loop -/

theorem countTipLab_single (ℓ : String) (d : NodeData) (c : RNode) :
    countTipLab ℓ (.mk d [c]) = countTipLab ℓ c := by
  rw [countTipLab, countTipLabL, countTipLabL]
  omega

theorem countTipLab_mapBr (ℓ : String) (f : ℚ → ℚ) (t : RNode) :
    countTipLab ℓ (mapBr f t) = countTipLab ℓ t := by
  cases t with
  | mk d cs =>
      cases cs with
      | nil => rfl
      | cons c cs => rfl

theorem countTipLab_splice (ℓ : String) : ∀ (n : Nat) (t : RNode),
    t.size ≤ n → countTipLab ℓ (splice t) = countTipLab ℓ t := by
  intro n
  induction n with
  | zero => intro t h; have := size_pos t; omega
  | succ n ih =>
      intro t hn
      cases t with
      | mk d cs =>
          match cs with
          | [c] =>
              rw [splice_single]
              have hlt : c.size < (RNode.mk d [c]).size :=
                size_child_lt (List.mem_cons_self _ _)
              rw [ih (mapBr (· + d.brlen) c) (by rw [size_mapBr]; omega),
                countTipLab_mapBr, countTipLab_single]
          | [] =>
              rw [splice_not_single (by rw [RNode.ndesc]; simp)]
          | c1 :: c2 :: cs' =>
              rw [splice_not_single (by rw [RNode.ndesc]; simp)]

theorem countTipLab_spliceRoot (ℓ : String) : ∀ (n : Nat) (t : RNode),
    t.size ≤ n → countTipLab ℓ (spliceRoot t) = countTipLab ℓ t := by
  intro n
  induction n with
  | zero => intro t h; have := size_pos t; omega
  | succ n ih =>
      intro t hn
      cases t with
      | mk d cs =>
          match cs with
          | [c] =>
              rw [spliceRoot_single]
              have hlt : c.size < (RNode.mk d [c]).size :=
                size_child_lt (List.mem_cons_self _ _)
              rw [ih c (by omega), countTipLab_single]
          | [] =>
              rw [spliceRoot_not_single (by rw [RNode.ndesc]; simp),
                countTipLab_mapBr]
          | c1 :: c2 :: cs' =>
              rw [spliceRoot_not_single (by rw [RNode.ndesc]; simp),
                countTipLab_mapBr]

theorem countTipLabL_map_eq (ℓ : String) (f : RNode → RNode) :
    ∀ (l : List RNode), (∀ x ∈ l, countTipLab ℓ (f x) = countTipLab ℓ x) →
    countTipLabL ℓ (l.map f) = countTipLabL ℓ l := by
  intro l
  induction l with
  | nil => intro _; rfl
  | cons c cs ih =>
      intro h
      rw [List.map_cons, countTipLabL, countTipLabL,
        h c (List.mem_cons_self _ _),
        ih (fun x hx => h x (List.mem_cons_of_mem _ hx))]

theorem countTipLab_collapse (ℓ : String) : ∀ (n : Nat) (t : RNode),
    t.size ≤ n → countTipLab ℓ (collapse t) = countTipLab ℓ t := by
  intro n
  induction n with
  | zero => intro t h; have := size_pos t; omega
  | succ n ih =>
      intro t hn
      rw [collapse_unfold]
      have hsle := splice_size_le t.size t (Nat.le_refl _)
      have hsp2 := countTipLab_splice ℓ t.size t (Nat.le_refl _)
      cases hsp : splice t with
      | mk d cs =>
          rw [hsp] at hsp2
          cases cs with
          | nil => rw [← hsp2]; rfl
          | cons c cs' =>
              rw [← hsp2]
              simp only [RNode.data, RNode.children, List.map_cons]
              rw [countTipLab, countTipLab, ← List.map_cons]
              refine countTipLabL_map_eq ℓ collapse _ ?_
              intro x hx
              have hxs : x.size < (splice t).size := by
                refine size_child_lt ?_
                rw [hsp]
                exact hx
              exact ih x (by omega)

theorem countTipLab_collapseTop (ℓ : String) (t : RNode) :
    countTipLab ℓ (collapseTop t) = countTipLab ℓ t := by
  rw [collapseTop, List.attach_map_val]
  have hsle := spliceRoot_size_le t.size t (Nat.le_refl _)
  have hsp2 := countTipLab_spliceRoot ℓ t.size t (Nat.le_refl _)
  cases hsp : spliceRoot t with
  | mk d cs =>
      rw [hsp] at hsp2
      cases cs with
      | nil => rw [← hsp2]; rfl
      | cons c cs' =>
          rw [← hsp2]
          simp only [RNode.data, RNode.children, List.map_cons]
          rw [countTipLab, countTipLab, ← List.map_cons]
          refine countTipLabL_map_eq ℓ collapse _ ?_
          intro x hx
          have hxs : x.size < (spliceRoot t).size := by
            refine size_child_lt ?_
            rw [hsp]
            exact hx
          exact countTipLab_collapse ℓ t.size x (by omega)

theorem hasTipLab_collapse (ℓ : String) (t : RNode) :
    hasTipLab ℓ (collapse t) = hasTipLab ℓ t := by
  rw [hasTipLab, hasTipLab, countTipLab_collapse ℓ t.size t (Nat.le_refl _)]

/-! ### C8, part 3: path lengths through the splice loop -/

theorem downTo_eq_some {ℓ : String} {t c : RNode}
    (h : t.children.find? (fun x => hasTipLab ℓ x) = some c) :
    downTo ℓ t = c.brlen + downTo ℓ c := by
  rw [downTo]
  split
  next c' heq =>
    rw [heq] at h
    injection h with h
    rw [h]
  next heq =>
    rw [heq] at h
    cases h

theorem downTo_eq_none {ℓ : String} {t : RNode}
    (h : t.children.find? (fun x => hasTipLab ℓ x) = none) :
    downTo ℓ t = 0 := by
  rw [downTo]
  split
  next c' heq => rw [heq] at h; cases h
  next => rfl

theorem tipDist_eq_some {ℓ1 ℓ2 : String} {t c : RNode}
    (h : t.children.find? (fun x => hasTipLab ℓ1 x && hasTipLab ℓ2 x) =
      some c) :
    tipDist ℓ1 ℓ2 t = tipDist ℓ1 ℓ2 c := by
  rw [tipDist]
  split
  next c' heq =>
    rw [heq] at h
    injection h with h
    rw [h]
  next heq =>
    rw [heq] at h
    cases h

theorem tipDist_eq_none {ℓ1 ℓ2 : String} {t : RNode}
    (h : t.children.find? (fun x => hasTipLab ℓ1 x && hasTipLab ℓ2 x) =
      none) :
    tipDist ℓ1 ℓ2 t = downTo ℓ1 t + downTo ℓ2 t := by
  rw [tipDist]
  split
  next c' heq => rw [heq] at h; cases h
  next => rfl

theorem downTo_mapBr (ℓ : String) (f : ℚ → ℚ) (t : RNode) :
    downTo ℓ (mapBr f t) = downTo ℓ t := by
  cases h : t.children.find? (fun x => hasTipLab ℓ x) with
  | some c =>
      rw [downTo_eq_some (by rw [mapBr_children]; exact h),
        downTo_eq_some h]
  | none =>
      rw [downTo_eq_none (by rw [mapBr_children]; exact h),
        downTo_eq_none h]

theorem tipDist_mapBr (ℓ1 ℓ2 : String) (f : ℚ → ℚ) (t : RNode) :
    tipDist ℓ1 ℓ2 (mapBr f t) = tipDist ℓ1 ℓ2 t := by
  cases h : t.children.find? (fun x => hasTipLab ℓ1 x && hasTipLab ℓ2 x)
      with
  | some c =>
      rw [tipDist_eq_some (by rw [mapBr_children]; exact h),
        tipDist_eq_some h]
  | none =>
      rw [tipDist_eq_none (by rw [mapBr_children]; exact h),
        tipDist_eq_none h, downTo_mapBr, downTo_mapBr]

theorem hasTipLab_single (ℓ : String) (d : NodeData) (c : RNode) :
    hasTipLab ℓ (.mk d [c]) = hasTipLab ℓ c := by
  rw [hasTipLab, hasTipLab, countTipLab_single]

theorem hasTipLab_mapBr (ℓ : String) (f : ℚ → ℚ) (t : RNode) :
    hasTipLab ℓ (mapBr f t) = hasTipLab ℓ t := by
  rw [hasTipLab, hasTipLab, countTipLab_mapBr]

theorem find?_single_pos {p : RNode → Bool} {c : RNode}
    (h : p c = true) : [c].find? p = some c := by
  simp [List.find?, h]

theorem downTo_single {ℓ : String} {d : NodeData} {c : RNode}
    (h : hasTipLab ℓ c = true) :
    downTo ℓ (.mk d [c]) = c.brlen + downTo ℓ c :=
  downTo_eq_some (find?_single_pos h)

/-- Splicing preserves the length from the incoming edge down to a
contained tip label. -/
theorem upLen_splice (ℓ : String) : ∀ (n : Nat) (t : RNode),
    t.size ≤ n → hasTipLab ℓ t = true →
    upLen ℓ (splice t) = upLen ℓ t := by
  intro n
  induction n with
  | zero => intro t h; have := size_pos t; omega
  | succ n ih =>
      intro t hn ht
      cases t with
      | mk d cs =>
          match cs with
          | [c] =>
              have hc : hasTipLab ℓ c = true := by
                rw [← hasTipLab_single ℓ d c]
                exact ht
              have hlt : c.size < (RNode.mk d [c]).size :=
                size_child_lt (List.mem_cons_self _ _)
              rw [splice_single,
                ih (mapBr (· + d.brlen) c)
                  (by rw [size_mapBr]; omega)
                  (by rw [hasTipLab_mapBr]; exact hc)]
              rw [upLen, upLen, downTo_mapBr,
                downTo_single hc]
              have hbr : (mapBr (· + d.brlen) c).brlen =
                  c.brlen + d.brlen := by
                cases c with
                | mk dc csc => rfl
              rw [hbr]
              have hbr2 : (RNode.mk d [c]).brlen = d.brlen := rfl
              rw [hbr2]
              ring
          | [] => rw [splice_not_single (by rw [RNode.ndesc]; simp)]
          | c1 :: c2 :: cs' =>
              rw [splice_not_single (by rw [RNode.ndesc]; simp)]

/-- Splicing preserves the distance between two contained tip labels. -/
theorem tipDist_splice (ℓ1 ℓ2 : String) : ∀ (n : Nat) (t : RNode),
    t.size ≤ n → hasTipLab ℓ1 t = true → hasTipLab ℓ2 t = true →
    tipDist ℓ1 ℓ2 (splice t) = tipDist ℓ1 ℓ2 t := by
  intro n
  induction n with
  | zero => intro t h; have := size_pos t; omega
  | succ n ih =>
      intro t hn h1 h2
      cases t with
      | mk d cs =>
          match cs with
          | [c] =>
              have hc1 : hasTipLab ℓ1 c = true := by
                rw [← hasTipLab_single ℓ1 d c]; exact h1
              have hc2 : hasTipLab ℓ2 c = true := by
                rw [← hasTipLab_single ℓ2 d c]; exact h2
              have hlt : c.size < (RNode.mk d [c]).size :=
                size_child_lt (List.mem_cons_self _ _)
              rw [splice_single,
                ih (mapBr (· + d.brlen) c)
                  (by rw [size_mapBr]; omega)
                  (by rw [hasTipLab_mapBr]; exact hc1)
                  (by rw [hasTipLab_mapBr]; exact hc2),
                tipDist_mapBr]
              have hfind : (RNode.mk d [c]).children.find?
                  (fun x => hasTipLab ℓ1 x && hasTipLab ℓ2 x) = some c :=
                find?_single_pos (show
                  (hasTipLab ℓ1 c && hasTipLab ℓ2 c) = true by
                  rw [hc1, hc2]; rfl)
              exact (tipDist_eq_some hfind).symm
          | [] => rw [splice_not_single (by rw [RNode.ndesc]; simp)]
          | c1 :: c2 :: cs' =>
              rw [splice_not_single (by rw [RNode.ndesc]; simp)]

theorem tipDist_spliceRoot (ℓ1 ℓ2 : String) : ∀ (n : Nat) (t : RNode),
    t.size ≤ n → hasTipLab ℓ1 t = true → hasTipLab ℓ2 t = true →
    tipDist ℓ1 ℓ2 (spliceRoot t) = tipDist ℓ1 ℓ2 t := by
  intro n
  induction n with
  | zero => intro t h; have := size_pos t; omega
  | succ n ih =>
      intro t hn h1 h2
      cases t with
      | mk d cs =>
          match cs with
          | [c] =>
              have hc1 : hasTipLab ℓ1 c = true := by
                rw [← hasTipLab_single ℓ1 d c]; exact h1
              have hc2 : hasTipLab ℓ2 c = true := by
                rw [← hasTipLab_single ℓ2 d c]; exact h2
              have hlt : c.size < (RNode.mk d [c]).size :=
                size_child_lt (List.mem_cons_self _ _)
              rw [spliceRoot_single, ih c (by omega) hc1 hc2]
              have hfind : (RNode.mk d [c]).children.find?
                  (fun x => hasTipLab ℓ1 x && hasTipLab ℓ2 x) = some c :=
                find?_single_pos (show
                  (hasTipLab ℓ1 c && hasTipLab ℓ2 c) = true by
                  rw [hc1, hc2]; rfl)
              exact (tipDist_eq_some hfind).symm
          | [] =>
              rw [spliceRoot_not_single (by rw [RNode.ndesc]; simp),
                tipDist_mapBr]
          | c1 :: c2 :: cs' =>
              rw [spliceRoot_not_single (by rw [RNode.ndesc]; simp),
                tipDist_mapBr]

theorem hasTipLab_splice (ℓ : String) (t : RNode) :
    hasTipLab ℓ (splice t) = hasTipLab ℓ t := by
  rw [hasTipLab, hasTipLab, countTipLab_splice ℓ t.size t (Nat.le_refl _)]

theorem hasTipLab_spliceRoot (ℓ : String) (t : RNode) :
    hasTipLab ℓ (spliceRoot t) = hasTipLab ℓ t := by
  rw [hasTipLab, hasTipLab,
    countTipLab_spliceRoot ℓ t.size t (Nat.le_refl _)]

theorem find?_congr {p q : RNode → Bool} : ∀ (l : List RNode),
    (∀ x ∈ l, p x = q x) → l.find? p = l.find? q := by
  intro l
  induction l with
  | nil => intro _; rfl
  | cons c cs ih =>
      intro h
      rw [List.find?_cons, List.find?_cons, h c (List.mem_cons_self _ _),
        ih (fun x hx => h x (List.mem_cons_of_mem _ hx))]

/-- Collapsing every child preserves the downward length to a label,
given that collapsing preserves the edge-to-tip length of each child. -/
theorem downTo_map_collapse (ℓ : String) (dd : NodeData)
    (cs : List RNode)
    (hup : ∀ c ∈ cs, hasTipLab ℓ c = true →
      upLen ℓ (collapse c) = upLen ℓ c) :
    downTo ℓ (.mk dd (cs.map collapse)) = downTo ℓ (.mk dd cs) := by
  have hfm : (cs.map collapse).find? (fun x => hasTipLab ℓ x) =
      (cs.find? (fun x => hasTipLab ℓ x)).map collapse := by
    rw [List.find?_map]
    refine congrArg _ (find?_congr cs ?_)
    intro x _
    exact hasTipLab_collapse ℓ x
  cases h : cs.find? (fun x => hasTipLab ℓ x) with
  | some c =>
      have hfs : (RNode.mk dd (cs.map collapse)).children.find?
          (fun x => hasTipLab ℓ x) = some (collapse c) := by
        show (cs.map collapse).find? _ = _
        rw [hfm, h]
        rfl
      have hfo : (RNode.mk dd cs).children.find?
          (fun x => hasTipLab ℓ x) = some c := h
      rw [downTo_eq_some hfs, downTo_eq_some hfo]
      have hc : hasTipLab ℓ c = true := List.find?_some h
      have hmem : c ∈ cs := List.mem_of_find?_eq_some h
      have hthis := hup c hmem hc
      rw [upLen, upLen] at hthis
      exact hthis
  | none =>
      have hfs : (RNode.mk dd (cs.map collapse)).children.find?
          (fun x => hasTipLab ℓ x) = none := by
        show (cs.map collapse).find? _ = _
        rw [hfm, h]
        rfl
      have hfo : (RNode.mk dd cs).children.find?
          (fun x => hasTipLab ℓ x) = none := h
      rw [downTo_eq_none hfs, downTo_eq_none hfo]

/-- The whole splice traversal preserves the edge-to-tip length. -/
theorem upLen_collapse (ℓ : String) : ∀ (n : Nat) (t : RNode),
    t.size ≤ n → hasTipLab ℓ t = true →
    upLen ℓ (collapse t) = upLen ℓ t := by
  intro n
  induction n with
  | zero => intro t h; have := size_pos t; omega
  | succ n ih =>
      intro t hn ht
      rw [collapse_unfold]
      have hsle := splice_size_le t.size t (Nat.le_refl _)
      have hsu := upLen_splice ℓ t.size t (Nat.le_refl _) ht
      cases hsp : splice t with
      | mk d cs =>
          simp only [RNode.data, RNode.children]
          have hup : ∀ c ∈ cs, hasTipLab ℓ c = true →
              upLen ℓ (collapse c) = upLen ℓ c := by
            intro c hc hhc
            have hlt : c.size < (splice t).size := by
              refine size_child_lt ?_
              rw [hsp]
              exact hc
            exact ih c (by omega) hhc
          have hgoal : upLen ℓ (RNode.mk d (cs.map collapse)) =
              upLen ℓ (RNode.mk d cs) := by
            rw [upLen, upLen, downTo_map_collapse ℓ d cs hup]
            rfl
          rw [hgoal, ← hsp]
          exact hsu

/-- The whole splice traversal preserves tip-to-tip distances. -/
theorem tipDist_collapse (ℓ1 ℓ2 : String) : ∀ (n : Nat) (t : RNode),
    t.size ≤ n → hasTipLab ℓ1 t = true → hasTipLab ℓ2 t = true →
    tipDist ℓ1 ℓ2 (collapse t) = tipDist ℓ1 ℓ2 t := by
  intro n
  induction n with
  | zero => intro t h; have := size_pos t; omega
  | succ n ih =>
      intro t hn h1 h2
      rw [collapse_unfold]
      have hsle := splice_size_le t.size t (Nat.le_refl _)
      have hsd := tipDist_splice ℓ1 ℓ2 t.size t (Nat.le_refl _) h1 h2
      cases hsp : splice t with
      | mk d cs =>
          simp only [RNode.data, RNode.children]
          have hfm : (cs.map collapse).find?
              (fun x => hasTipLab ℓ1 x && hasTipLab ℓ2 x) =
              (cs.find? (fun x => hasTipLab ℓ1 x && hasTipLab ℓ2 x)).map
                collapse := by
            rw [List.find?_map]
            refine congrArg _ (find?_congr cs ?_)
            intro x _
            show (hasTipLab ℓ1 (collapse x) && hasTipLab ℓ2 (collapse x))
              = (hasTipLab ℓ1 x && hasTipLab ℓ2 x)
            rw [hasTipLab_collapse, hasTipLab_collapse]
          have hsz : ∀ c ∈ cs, c.size ≤ n := by
            intro c hc
            have hlt : c.size < (splice t).size := by
              refine size_child_lt ?_
              rw [hsp]
              exact hc
            omega
          cases h : cs.find?
              (fun x => hasTipLab ℓ1 x && hasTipLab ℓ2 x) with
          | some c =>
              have hfs : (RNode.mk d (cs.map collapse)).children.find?
                  (fun x => hasTipLab ℓ1 x && hasTipLab ℓ2 x) =
                  some (collapse c) := by
                show (cs.map collapse).find? _ = _
                rw [hfm, h]
                rfl
              have hmem : c ∈ cs := List.mem_of_find?_eq_some h
              have hpc := List.find?_some h
              rw [Bool.and_eq_true] at hpc
              rw [tipDist_eq_some hfs,
                ih c (hsz c hmem) hpc.1 hpc.2, ← hsd, hsp]
              exact (tipDist_eq_some
                (show (RNode.mk d cs).children.find? _ = some c
                  from h)).symm
          | none =>
              have hfs : (RNode.mk d (cs.map collapse)).children.find?
                  (fun x => hasTipLab ℓ1 x && hasTipLab ℓ2 x) = none := by
                show (cs.map collapse).find? _ = _
                rw [hfm, h]
                rfl
              have hup1 : ∀ c ∈ cs, hasTipLab ℓ1 c = true →
                  upLen ℓ1 (collapse c) = upLen ℓ1 c := by
                intro c hc hhc
                exact upLen_collapse ℓ1 c.size c (Nat.le_refl _) hhc
              have hup2 : ∀ c ∈ cs, hasTipLab ℓ2 c = true →
                  upLen ℓ2 (collapse c) = upLen ℓ2 c := by
                intro c hc hhc
                exact upLen_collapse ℓ2 c.size c (Nat.le_refl _) hhc
              rw [tipDist_eq_none hfs]
              have hdd1 := downTo_map_collapse ℓ1 d cs hup1
              have hdd2 := downTo_map_collapse ℓ2 d cs hup2
              rw [hdd1, hdd2, ← hsd, hsp]
              exact (tipDist_eq_none
                (show (RNode.mk d cs).children.find? _ = none
                  from h)).symm

/-- The full splice phase (root chain included) preserves tip-to-tip
distances. -/
theorem tipDist_collapseTop (ℓ1 ℓ2 : String) (t : RNode)
    (h1 : hasTipLab ℓ1 t = true) (h2 : hasTipLab ℓ2 t = true) :
    tipDist ℓ1 ℓ2 (collapseTop t) = tipDist ℓ1 ℓ2 t := by
  rw [collapseTop, List.attach_map_val]
  have hsd := tipDist_spliceRoot ℓ1 ℓ2 t.size t (Nat.le_refl _) h1 h2
  cases hsp : spliceRoot t with
  | mk d cs =>
      simp only [RNode.data, RNode.children]
      have hfm : (cs.map collapse).find?
          (fun x => hasTipLab ℓ1 x && hasTipLab ℓ2 x) =
          (cs.find? (fun x => hasTipLab ℓ1 x && hasTipLab ℓ2 x)).map
            collapse := by
        rw [List.find?_map]
        refine congrArg _ (find?_congr cs ?_)
        intro x _
        show (hasTipLab ℓ1 (collapse x) && hasTipLab ℓ2 (collapse x))
          = (hasTipLab ℓ1 x && hasTipLab ℓ2 x)
        rw [hasTipLab_collapse, hasTipLab_collapse]
      cases h : cs.find? (fun x => hasTipLab ℓ1 x && hasTipLab ℓ2 x) with
      | some c =>
          have hfs : (RNode.mk d (cs.map collapse)).children.find?
              (fun x => hasTipLab ℓ1 x && hasTipLab ℓ2 x) =
              some (collapse c) := by
            show (cs.map collapse).find? _ = _
            rw [hfm, h]
            rfl
          have hpc := List.find?_some h
          rw [Bool.and_eq_true] at hpc
          rw [tipDist_eq_some hfs,
            tipDist_collapse ℓ1 ℓ2 c.size c (Nat.le_refl _) hpc.1 hpc.2,
            ← hsd, hsp]
          exact (tipDist_eq_some
            (show (RNode.mk d cs).children.find? _ = some c from h)).symm
      | none =>
          have hfs : (RNode.mk d (cs.map collapse)).children.find?
              (fun x => hasTipLab ℓ1 x && hasTipLab ℓ2 x) = none := by
            show (cs.map collapse).find? _ = _
            rw [hfm, h]
            rfl
          have hup1 : ∀ c ∈ cs, hasTipLab ℓ1 c = true →
              upLen ℓ1 (collapse c) = upLen ℓ1 c := by
            intro c hc hhc
            exact upLen_collapse ℓ1 c.size c (Nat.le_refl _) hhc
          have hup2 : ∀ c ∈ cs, hasTipLab ℓ2 c = true →
              upLen ℓ2 (collapse c) = upLen ℓ2 c := by
            intro c hc hhc
            exact upLen_collapse ℓ2 c.size c (Nat.le_refl _) hhc
          rw [tipDist_eq_none hfs, downTo_map_collapse ℓ1 d cs hup1,
            downTo_map_collapse ℓ2 d cs hup2, ← hsd, hsp]
          exact (tipDist_eq_none
            (show (RNode.mk d cs).children.find? _ = none from h)).symm

/-! ### C8, part 4: the copy loop -/

theorem get?_mem_rn {l : List RNode} {n : Nat} {a : RNode}
    (h : l.get? n = some a) : a ∈ l := by
  rw [List.get?_eq_getElem?] at h
  exact List.getElem?_mem h

theorem get?_lt_rn {l : List RNode} {n : Nat} {a : RNode}
    (h : l.get? n = some a) : n < l.length := by
  by_contra hc
  rw [List.get?_eq_none.mpr (by omega)] at h
  cases h

theorem induced_brlen (req : List NPath) (s : RNode) (π : NPath) :
    (induced req s π).brlen = s.brlen := by
  cases s with
  | mk d cs => rfl

theorem induced_children (req : List NPath) (d : NodeData)
    (cs : List RNode) (π : NPath) :
    (induced req (.mk d cs) π).children = inducedList req cs π 0 := rfl

theorem countTipLabL_append (ℓ : String) (a b : List RNode) :
    countTipLabL ℓ (a ++ b) = countTipLabL ℓ a + countTipLabL ℓ b := by
  induction a with
  | nil => rw [List.nil_append, countTipLabL]; omega
  | cons c cs ih =>
      rw [List.cons_append, countTipLabL, countTipLabL, ih]
      omega

theorem ctlL_ge_mem {ℓ : String} {x : RNode} : ∀ {l : List RNode},
    x ∈ l → countTipLab ℓ x ≤ countTipLabL ℓ l := by
  intro l
  induction l with
  | nil => intro h; cases h
  | cons c cs ih =>
      intro h
      rw [countTipLabL]
      rcases List.mem_cons.mp h with rfl | h
      · omega
      · have := ih h
        omega

theorem ctlL_split {ℓ : String} {cs : List RNode} {j : Nat} {c : RNode}
    (h : cs.get? j = some c) :
    countTipLabL ℓ cs = countTipLabL ℓ (cs.take j) + countTipLab ℓ c +
      countTipLabL ℓ (cs.drop (j + 1)) := by
  have hlt : j < cs.length := get?_lt_rn h
  have hdrop : cs.drop j = c :: cs.drop (j + 1) := by
    rw [List.drop_eq_getElem_cons hlt]
    congr 1
    rw [List.get?_eq_getElem?, List.getElem?_eq_getElem hlt] at h
    exact Option.some.inj h
  conv_lhs => rw [← List.take_append_drop j cs]
  rw [countTipLabL_append, hdrop, countTipLabL]
  omega

/-- A sibling of the unique label-carrying child carries no copy of the
label. -/
theorem ctl_sibling_zero {ℓ : String} {cs : List RNode} {j : Nat}
    {c : RNode} (hget : cs.get? j = some c)
    (htot : countTipLabL ℓ cs = 1) (hc : 1 ≤ countTipLab ℓ c) :
    ∀ k x, k ≠ j → cs.get? k = some x → countTipLab ℓ x = 0 := by
  intro k x hkj hx
  have hsplit := ctlL_split (ℓ := ℓ) hget
  by_cases hk : k < j
  · have hmem : x ∈ cs.take j := by
      refine get?_mem_rn (n := k) ?_
      rw [List.get?_take hk]
      exact hx
    have := ctlL_ge_mem (ℓ := ℓ) hmem
    omega
  · have hkgt : j + 1 ≤ k := by omega
    have hmem : x ∈ cs.drop (j + 1) := by
      refine get?_mem_rn (n := k - (j + 1)) ?_
      rw [List.get?_drop]
      rw [show j + 1 + (k - (j + 1)) = k from by omega]
      exact hx
    have := ctlL_ge_mem (ℓ := ℓ) hmem
    omega

/-- `find?` stops at position `j` when everything before it fails the
predicate. -/
theorem find?_get {p : RNode → Bool} : ∀ (cs : List RNode) (j : Nat)
    (c : RNode), cs.get? j = some c →
    (∀ k x, k < j → cs.get? k = some x → p x = false) →
    p c = true → cs.find? p = some c := by
  intro cs
  induction cs with
  | nil => intro j c h; cases h
  | cons b bs ih =>
      intro j c hget hbefore hc
      cases j with
      | zero =>
          simp only [List.get?] at hget
          cases hget
          rw [List.find?_cons, hc]
      | succ j =>
          simp only [List.get?] at hget
          have hb : p b = false := hbefore 0 b (by omega) rfl
          rw [List.find?_cons, hb]
          exact ih j c hget
            (fun k x hk hx => hbefore (k + 1) x (by omega) hx) hc

theorem marked_of_prefix_mem {req : List NPath} {τ π : NPath}
    (hmem : τ ∈ req) (hle : pathLE π τ = true) :
    marked req π = true := by
  rw [marked, List.any_eq_true]
  exact ⟨τ, hmem, hle⟩

/-- A valid path of a terminal node is empty. -/
theorem valid_in_tip {d : NodeData} {π : NPath}
    (h : validPath (.mk d []) π = true) : π = [] := by
  cases π with
  | nil => rfl
  | cons i ρ =>
      unfold validPath at h
      rw [nodeAt_cons_none (by cases i <;> rfl)] at h
      cases h

theorem validTipPath_iff {t : RNode} {τ : NPath} :
    validTipPath t τ = true ↔
      validPath t τ = true ∧ (nodeAtD t τ).children.isEmpty = true := by
  rw [validTipPath, validPath, nodeAtD]
  cases h : nodeAt t τ with
  | none => simp
  | some s => simp [RNode.isTip]

/-- One child step below a valid path. -/
theorem valid_step {t : RNode} {π : NPath} (hv : validPath t π = true)
    {i : Nat} {c : RNode} (h : (nodeAtD t π).children.get? i = some c) :
    validPath t (π ++ [i]) = true ∧ nodeAtD t (π ++ [i]) = c := by
  obtain ⟨hvi, hni⟩ := valid_single h
  refine ⟨validPath_append_iff.mpr ⟨hv, hvi⟩, ?_⟩
  rw [nodeAtD_append hv, hni]

/-- A marked node that is internal in the graph has a marked child (the
next step of a requested path through it). -/
theorem marked_internal_step {t : RNode} {req : List NPath} {π : NPath}
    (hval : ∀ τ ∈ req, validTipPath t τ = true)
    (hm : marked req π = true) (hv : validPath t π = true)
    (hne : (nodeAtD t π).children ≠ []) :
    ∃ k, (nodeAtD t π).children.get? k ≠ none ∧
      marked req (π ++ [k]) = true := by
  rw [marked, List.any_eq_true] at hm
  obtain ⟨τ, hτ, hle⟩ := hm
  have hvt := (validTipPath_iff.mp (hval τ hτ))
  by_cases heq : π.length = τ.length
  · exfalso
    have := pathLE_of_length_eq hle heq
    subst this
    rw [List.isEmpty_iff_eq_nil] at hvt
    exact hne hvt.2
  · have hlen := pathLE_length hle
    have hlt : π.length < τ.length := by omega
    obtain ⟨k, hk⟩ : ∃ a, τ.get? π.length = some a := by
      rw [List.get?_eq_getElem?]
      exact ⟨τ[π.length], List.getElem?_eq_getElem hlt⟩
    refine ⟨k, ?_, ?_⟩
    · have hle2 : pathLE (π ++ [k]) τ = true := by
        have h1 : π ++ [k] = τ.take (π.length + 1) := by
          rw [List.take_succ]
          rw [← List.get?_eq_getElem?, hk]
          rw [pathLE_eq_take hle]
          rfl
        rw [h1]
        exact pathLE_take τ _
      have hv2 : validPath t (π ++ [k]) = true :=
        validPath_mono hle2 hvt.1
      have := (validPath_append_iff.mp hv2).2
      intro habs
      unfold validPath at this
      cases hnode : nodeAtD t π with
      | mk dd ccs =>
          rw [hnode] at habs this
          rw [show ([k] : NPath) = k :: [] from rfl] at this
          rw [nodeAt_cons_none (show ccs.get? k = none from habs)] at this
          cases this
    · refine marked_of_prefix_mem hτ ?_
      have h1 : π ++ [k] = τ.take (π.length + 1) := by
        rw [List.take_succ]
        rw [← List.get?_eq_getElem?, hk]
        rw [pathLE_eq_take hle]
        rfl
      rw [h1]
      exact pathLE_take τ _

theorem mem_inducedList {req : List NPath} {π : NPath} :
    ∀ (cs : List RNode) (i0 j : Nat) (c : RNode),
    cs.get? j = some c → marked req (π ++ [i0 + j]) = true →
    induced req c (π ++ [i0 + j]) ∈ inducedList req cs π i0 := by
  intro cs
  induction cs with
  | nil => intro i0 j c h; cases h
  | cons b bs ih =>
      intro i0 j c hget hm
      cases j with
      | zero =>
          simp only [List.get?] at hget
          cases hget
          rw [inducedList, if_pos (by rw [Nat.add_zero] at hm; exact hm)]
          rw [Nat.add_zero]
          exact List.mem_cons_self _ _
      | succ j =>
          simp only [List.get?] at hget
          have hm' : marked req (π ++ [(i0 + 1) + j]) = true := by
            rw [show (i0 + 1) + j = i0 + (j + 1) from by omega]
            exact hm
          have hrec := ih (i0 + 1) j c hget hm'
          rw [show (i0 + 1) + j = i0 + (j + 1) from by omega] at hrec
          rw [inducedList]
          by_cases hb : marked req (π ++ [i0]) = true
          · rw [if_pos hb]
            exact List.mem_cons_of_mem _ hrec
          · rw [if_neg hb]
            exact hrec

theorem mem_inducedList_inv {req : List NPath} {π : NPath} :
    ∀ (cs : List RNode) (i0 : Nat) (y : RNode),
    y ∈ inducedList req cs π i0 →
    ∃ k c, cs.get? k = some c ∧ marked req (π ++ [i0 + k]) = true ∧
      y = induced req c (π ++ [i0 + k]) := by
  intro cs
  induction cs with
  | nil => intro i0 y h; cases h
  | cons b bs ih =>
      intro i0 y hy
      rw [inducedList] at hy
      by_cases hb : marked req (π ++ [i0]) = true
      · rw [if_pos hb] at hy
        rcases List.mem_cons.mp hy with rfl | hy
        · exact ⟨0, b, rfl, by rw [Nat.add_zero]; exact hb,
            by rw [Nat.add_zero]⟩
        · obtain ⟨k, c, h1, h2, h3⟩ := ih (i0 + 1) y hy
          exact ⟨k + 1, c, h1,
            by rw [show i0 + (k + 1) = (i0 + 1) + k from by omega]
               exact h2,
            by rw [show i0 + (k + 1) = (i0 + 1) + k from by omega]
               exact h3⟩
      · rw [if_neg hb] at hy
        obtain ⟨k, c, h1, h2, h3⟩ := ih (i0 + 1) y hy
        exact ⟨k + 1, c, h1,
          by rw [show i0 + (k + 1) = (i0 + 1) + k from by omega]
             exact h2,
          by rw [show i0 + (k + 1) = (i0 + 1) + k from by omega]
             exact h3⟩

/-- `find?` through the copy of a child list: if everything kept before
position `j` fails the predicate and the copy of child `j` satisfies
it, the copy of child `j` is found. -/
theorem find?_inducedList {req : List NPath} {π : NPath}
    {p : RNode → Bool} :
    ∀ (cs : List RNode) (i0 j : Nat) (c : RNode),
    cs.get? j = some c → marked req (π ++ [i0 + j]) = true →
    (∀ k x, k < j → cs.get? k = some x →
      marked req (π ++ [i0 + k]) = true →
      p (induced req x (π ++ [i0 + k])) = false) →
    p (induced req c (π ++ [i0 + j])) = true →
    (inducedList req cs π i0).find? p =
      some (induced req c (π ++ [i0 + j])) := by
  intro cs
  induction cs with
  | nil => intro i0 j c h; cases h
  | cons b bs ih =>
      intro i0 j c hget hm hbefore hc
      cases j with
      | zero =>
          simp only [List.get?] at hget
          cases hget
          rw [Nat.add_zero] at hm hc ⊢
          rw [inducedList, if_pos hm, List.find?_cons, hc]
      | succ j =>
          simp only [List.get?] at hget
          have hshift : ∀ k x, k < j → bs.get? k = some x →
              marked req (π ++ [(i0 + 1) + k]) = true →
              p (induced req x (π ++ [(i0 + 1) + k])) = false := by
            intro k x hk hx hmk
            have := hbefore (k + 1) x (by omega) hx
            rw [show i0 + (k + 1) = (i0 + 1) + k from by omega] at this
            exact this hmk
          have hm' : marked req (π ++ [(i0 + 1) + j]) = true := by
            rw [show (i0 + 1) + j = i0 + (j + 1) from by omega]
            exact hm
          have hc' : p (induced req c (π ++ [(i0 + 1) + j])) = true := by
            rw [show (i0 + 1) + j = i0 + (j + 1) from by omega]
            exact hc
          have hrec := ih (i0 + 1) j c hget hm' hshift hc'
          rw [show (i0 + 1) + j = i0 + (j + 1) from by omega] at hrec
          rw [inducedList]
          by_cases hb : marked req (π ++ [i0]) = true
          · have hb0 : p (induced req b (π ++ [i0])) = false := by
              have hx := hbefore 0 b (by omega) rfl
              rw [Nat.add_zero] at hx
              exact hx hb
            rw [if_pos hb, List.find?_cons, hb0]
            exact hrec
          · rw [if_neg hb]
            exact hrec

/-- Each kept copy carries at most as many `ℓ`-labeled tips as its
original (given the premise for every marked child). -/
theorem ctl_inducedList_le (ℓ : String) (req : List NPath) :
    ∀ (cs : List RNode) (π : NPath) (i0 : Nat),
    (∀ j c, cs.get? j = some c → marked req (π ++ [i0 + j]) = true →
      countTipLab ℓ (induced req c (π ++ [i0 + j])) ≤ countTipLab ℓ c) →
    countTipLabL ℓ (inducedList req cs π i0) ≤ countTipLabL ℓ cs := by
  intro cs
  induction cs with
  | nil => intro π i0 _; exact Nat.le_refl _
  | cons b bs ih =>
      intro π i0 hyp
      have htail := ih π (i0 + 1) (fun j c hj hm => by
        have := hyp (j + 1) c hj
          (by rw [show i0 + (j + 1) = (i0 + 1) + j from by omega]
              exact hm)
        rw [show i0 + (j + 1) = (i0 + 1) + j from by omega] at this
        exact this)
      rw [inducedList, countTipLabL]
      by_cases hb : marked req (π ++ [i0]) = true
      · rw [if_pos hb, countTipLabL]
        have hhead := hyp 0 b rfl (by rw [Nat.add_zero]; exact hb)
        rw [Nat.add_zero] at hhead
        omega
      · rw [if_neg hb]
        omega

theorem get?_of_valid_append {t : RNode} {π : NPath} {j : Nat}
    (h2 : validPath t (π ++ [j]) = true) (h1 : validPath t π = true) :
    (nodeAtD t π).children.get? j = some (nodeAtD t (π ++ [j])) := by
  have hv2 := (validPath_append_iff.mp h2).2
  cases hnode : nodeAtD t π with
  | mk d cs =>
      rw [hnode] at hv2
      cases hg : cs.get? j with
      | none =>
          unfold validPath at hv2
          rw [show ([j] : NPath) = j :: [] from rfl,
            nodeAt_cons_none hg] at hv2
          cases hv2
      | some x =>
          have hstep := valid_step h1 (show (nodeAtD t π).children.get? j
            = some x from by rw [hnode]; exact hg)
          rw [RNode.children, hg, hstep.2]

/-- A requested tip label survives below every prefix of its path (in
the original tree). -/
theorem ctl_pos_below (ℓ : String) {t : RNode} {τ : NPath}
    (hτv : validTipPath t τ = true)
    (hlab : (nodeAtD t τ).lab = some ℓ) :
    ∀ (σ π : NPath), τ = π ++ σ → validPath t π = true →
    1 ≤ countTipLab ℓ (nodeAtD t π) := by
  intro σ
  induction σ with
  | nil =>
      intro π hτ hv
      rw [List.append_nil] at hτ
      rw [← hτ]
      obtain ⟨hv2, htip⟩ := validTipPath_iff.mp hτv
      cases hnode : nodeAtD t τ with
      | mk d cs =>
          rw [hnode] at htip hlab
          rw [List.isEmpty_iff_eq_nil] at htip
          rw [RNode.children] at htip
          subst htip
          rw [countTipLab]
          rw [RNode.lab, RNode.data] at hlab
          rw [if_pos hlab]
  | cons j σ ih =>
      intro π hτ hv
      have hle : pathLE (π ++ [j]) τ = true := by
        rw [hτ, show π ++ j :: σ = (π ++ [j]) ++ σ from
          List.append_cons _ _ _]
        exact pathLE_append _ _
      have hv2 : validPath t (π ++ [j]) = true :=
        validPath_mono hle (validTipPath_iff.mp hτv).1
      have hget := get?_of_valid_append hv2 hv
      have hτ2 : τ = (π ++ [j]) ++ σ := by
        rw [hτ, List.append_cons]
      have hrec := ih (π ++ [j]) hτ2 hv2
      cases hnode : nodeAtD t π with
      | mk d cs =>
          rw [hnode, RNode.children] at hget
          have hmem := get?_mem_rn hget
          cases cs with
          | nil => cases hget
          | cons c cs' =>
              rw [countTipLab]
              have := ctlL_ge_mem (ℓ := ℓ) hmem
              omega

/-- A requested tip label survives below every prefix of its path in
the copy. -/
theorem ctl_induced_pos (ℓ : String) {t : RNode} {req : List NPath}
    {τ : NPath} (hτm : τ ∈ req) (hτv : validTipPath t τ = true)
    (hlab : (nodeAtD t τ).lab = some ℓ) :
    ∀ (σ π : NPath), τ = π ++ σ → validPath t π = true →
    1 ≤ countTipLab ℓ (induced req (nodeAtD t π) π) := by
  intro σ
  induction σ with
  | nil =>
      intro π hτ hv
      rw [List.append_nil] at hτ
      rw [← hτ]
      obtain ⟨hv2, htip⟩ := validTipPath_iff.mp hτv
      cases hnode : nodeAtD t τ with
      | mk d cs =>
          rw [hnode] at htip hlab
          rw [List.isEmpty_iff_eq_nil] at htip
          rw [RNode.children] at htip
          subst htip
          rw [induced, inducedList, countTipLab]
          rw [RNode.lab, RNode.data] at hlab
          rw [if_pos hlab]
  | cons j σ ih =>
      intro π hτ hv
      have hle : pathLE (π ++ [j]) τ = true := by
        rw [hτ, show π ++ j :: σ = (π ++ [j]) ++ σ from
          List.append_cons _ _ _]
        exact pathLE_append _ _
      have hv2 : validPath t (π ++ [j]) = true :=
        validPath_mono hle (validTipPath_iff.mp hτv).1
      have hget := get?_of_valid_append hv2 hv
      have hτ2 : τ = (π ++ [j]) ++ σ := by
        rw [hτ, List.append_cons]
      have hrec := ih (π ++ [j]) hτ2 hv2
      have hmk : marked req (π ++ [j]) = true :=
        marked_of_prefix_mem hτm hle
      cases hnode : nodeAtD t π with
      | mk d cs =>
          rw [hnode, RNode.children] at hget
          have hmem0 := mem_inducedList cs 0 j (nodeAtD t (π ++ [j]))
            hget (by rw [Nat.zero_add]; exact hmk)
          rw [Nat.zero_add] at hmem0
          rw [induced]
          cases hlist : inducedList req cs π 0 with
          | nil => rw [hlist] at hmem0; cases hmem0
          | cons y ys =>
              rw [countTipLab]
              rw [hlist] at hmem0
              have := ctlL_ge_mem (ℓ := ℓ) hmem0
              omega

/-- The copy of a marked subtree has at most the tips of the original
(validity keeps every copied internal node internal). -/
theorem countTipLab_induced_le (ℓ : String) {t : RNode}
    {req : List NPath} (hval : ∀ τ ∈ req, validTipPath t τ = true) :
    ∀ (n : Nat) (s : RNode) (π : NPath), s.size ≤ n →
    validPath t π = true → nodeAtD t π = s → marked req π = true →
    countTipLab ℓ (induced req s π) ≤ countTipLab ℓ s := by
  intro n
  induction n with
  | zero => intro s π h; have := size_pos s; omega
  | succ n ih =>
      intro s π hn hv hs hm
      cases s with
      | mk d cs =>
          cases cs with
          | nil => exact Nat.le_refl _
          | cons c cs' =>
              obtain ⟨k, hkne, hkm⟩ := marked_internal_step hval hm hv
                (by rw [hs]; simp [RNode.children])
              rw [hs, RNode.children] at hkne
              obtain ⟨ck, hck⟩ : ∃ x, (c :: cs').get? k = some x := by
                cases hx : (c :: cs').get? k with
                | none => exact absurd hx hkne
                | some x => exact ⟨x, rfl⟩
              have hmem0 := mem_inducedList (c :: cs') 0 k ck
                hck (by rw [Nat.zero_add]; exact hkm)
              have hle := ctl_inducedList_le ℓ req (c :: cs') π 0 ?_
              · rw [induced]
                cases hlist : inducedList req (c :: cs') π 0 with
                | nil => rw [hlist] at hmem0; cases hmem0
                | cons y ys =>
                    rw [countTipLab, countTipLab, ← hlist]
                    exact hle
              · intro j cj hj hmj
                rw [Nat.zero_add] at hmj ⊢
                have hstep := valid_step hv (show
                  (nodeAtD t π).children.get? j = some cj from by
                    rw [hs]; exact hj)
                have hsz : cj.size ≤ n := by
                  have := size_child_lt (t := RNode.mk d (c :: cs'))
                    (get?_mem_rn hj)
                  omega
                exact ih cj (π ++ [j]) hsz hstep.1 hstep.2 hmj

theorem hasTipLab_of_pos {ℓ : String} {x : RNode}
    (h : 1 ≤ countTipLab ℓ x) : hasTipLab ℓ x = true := by
  rw [hasTipLab]
  simp only [ne_eq, decide_eq_true_eq]
  omega

theorem hasTipLab_of_zero {ℓ : String} {x : RNode}
    (h : countTipLab ℓ x = 0) : hasTipLab ℓ x = false := by
  rw [hasTipLab, h]
  rfl

/-- The copy loop preserves the downward length to the unique
occurrence of a requested tip label. -/
theorem downTo_induced (ℓ : String) {t : RNode} {req : List NPath}
    {τ : NPath} (hval : ∀ τ' ∈ req, validTipPath t τ' = true)
    (hτm : τ ∈ req) (hτv : validTipPath t τ = true)
    (hlab : (nodeAtD t τ).lab = some ℓ) :
    ∀ (σ π : NPath), τ = π ++ σ → validPath t π = true →
    countTipLab ℓ (nodeAtD t π) = 1 →
    downTo ℓ (induced req (nodeAtD t π) π) = downTo ℓ (nodeAtD t π) := by
  intro σ
  induction σ with
  | nil =>
      intro π hτ hv hcnt
      rw [List.append_nil] at hτ
      rw [← hτ]
      obtain ⟨hv2, htip⟩ := validTipPath_iff.mp hτv
      cases hnode : nodeAtD t τ with
      | mk d cs =>
          rw [hnode] at htip
          rw [List.isEmpty_iff_eq_nil] at htip
          rw [RNode.children] at htip
          subst htip
          have he1 : (induced req (RNode.mk d []) τ).children.find?
              (fun x => hasTipLab ℓ x) = none := rfl
          have he2 : (RNode.mk d []).children.find?
              (fun x => hasTipLab ℓ x) = none := rfl
          rw [downTo_eq_none he1, downTo_eq_none he2]
  | cons j σ ih =>
      intro π hτ hv hcnt
      have hle : pathLE (π ++ [j]) τ = true := by
        rw [hτ, show π ++ j :: σ = (π ++ [j]) ++ σ from
          List.append_cons _ _ _]
        exact pathLE_append _ _
      have hv2 : validPath t (π ++ [j]) = true :=
        validPath_mono hle (validTipPath_iff.mp hτv).1
      have hget := get?_of_valid_append hv2 hv
      have hτ2 : τ = (π ++ [j]) ++ σ := by
        rw [hτ, List.append_cons]
      have hmk : marked req (π ++ [j]) = true :=
        marked_of_prefix_mem hτm hle
      have hcjpos : 1 ≤ countTipLab ℓ (nodeAtD t (π ++ [j])) :=
        ctl_pos_below ℓ hτv hlab σ (π ++ [j]) hτ2 hv2
      cases hnode : nodeAtD t π with
      | mk d cs =>
          rw [hnode, RNode.children] at hget
          cases cs with
          | nil => cases hget
          | cons c0 cs' =>
              set cj := nodeAtD t (π ++ [j]) with hcj
              have htot : countTipLabL ℓ (c0 :: cs') = 1 := by
                rw [hnode, countTipLab] at hcnt
                exact hcnt
              have hsib := ctl_sibling_zero hget htot hcjpos
              have hcj1 : countTipLab ℓ cj = 1 := by
                have := ctlL_split (ℓ := ℓ) hget
                omega
              -- original side
              have hOrig : (c0 :: cs').find? (fun x => hasTipLab ℓ x) =
                  some cj := by
                refine find?_get _ j cj hget ?_ (hasTipLab_of_pos ?_)
                · intro k x hk hx
                  exact hasTipLab_of_zero (hsib k x (by omega) hx)
                · omega
              -- induced side
              have hIndPred : hasTipLab ℓ
                  (induced req cj (π ++ [j])) = true := by
                refine hasTipLab_of_pos ?_
                have := ctl_induced_pos ℓ hτm hτv hlab σ (π ++ [j])
                  hτ2 hv2
                rw [← hcj] at this
                exact this
              have hInd : (inducedList req (c0 :: cs') π 0).find?
                  (fun x => hasTipLab ℓ x) =
                  some (induced req cj (π ++ [0 + j])) := by
                refine find?_inducedList _ 0 j cj hget
                  (by rw [Nat.zero_add]; exact hmk) ?_ ?_
                · intro k x hk hx hmkk
                  rw [Nat.zero_add] at hmkk ⊢
                  have hstep := valid_step hv (show
                    (nodeAtD t π).children.get? k = some x from by
                      rw [hnode]; exact hx)
                  have hle2 := countTipLab_induced_le ℓ hval x.size x
                    (π ++ [k]) (Nat.le_refl _) hstep.1 hstep.2 hmkk
                  have hzero : countTipLab ℓ x = 0 :=
                    hsib k x (by omega) hx
                  exact hasTipLab_of_zero (by omega)
                · rw [Nat.zero_add]
                  exact hIndPred
              rw [Nat.zero_add] at hInd
              have hIndC : (induced req (RNode.mk d (c0 :: cs'))
                  π).children.find? (fun x => hasTipLab ℓ x) =
                  some (induced req cj (π ++ [j])) := by
                rw [induced_children]
                exact hInd
              have hOrigC : (RNode.mk d (c0 :: cs')).children.find?
                  (fun x => hasTipLab ℓ x) = some cj := hOrig
              rw [downTo_eq_some hIndC, downTo_eq_some hOrigC]
              rw [induced_brlen]
              have hrec := ih (π ++ [j]) hτ2 hv2 (by rw [← hcj]; exact hcj1)
              rw [← hcj] at hrec
              rw [hrec]

theorem ctl_tip_eq_one {ℓ : String} {d : NodeData}
    (h : countTipLab ℓ (.mk d []) = 1) : d.lab = some ℓ := by
  rw [countTipLab] at h
  by_cases hc : d.lab = some ℓ
  · exact hc
  · rw [if_neg hc] at h
    cases h

/-- The copy loop preserves the distance between the unique occurrences
of two requested tip labels. -/
theorem tipDist_induced (ℓ1 ℓ2 : String) {t : RNode} {req : List NPath}
    {τ1 τ2 : NPath}
    (hval : ∀ τ' ∈ req, validTipPath t τ' = true)
    (h1m : τ1 ∈ req) (h1v : validTipPath t τ1 = true)
    (hlab1 : (nodeAtD t τ1).lab = some ℓ1)
    (h2m : τ2 ∈ req) (h2v : validTipPath t τ2 = true)
    (hlab2 : (nodeAtD t τ2).lab = some ℓ2)
    (hne : ℓ1 ≠ ℓ2) :
    ∀ (σ1 σ2 π : NPath), τ1 = π ++ σ1 → τ2 = π ++ σ2 →
    validPath t π = true →
    countTipLab ℓ1 (nodeAtD t π) = 1 →
    countTipLab ℓ2 (nodeAtD t π) = 1 →
    tipDist ℓ1 ℓ2 (induced req (nodeAtD t π) π) =
      tipDist ℓ1 ℓ2 (nodeAtD t π) := by
  intro σ1
  induction σ1 with
  | nil =>
      intro σ2 π hτ1 hτ2 hv hcnt1 hcnt2
      exfalso
      rw [List.append_nil] at hτ1
      obtain ⟨hv2, htip⟩ := validTipPath_iff.mp h1v
      rw [← hτ1] at hcnt1 hcnt2
      cases hnode : nodeAtD t τ1 with
      | mk d cs =>
          rw [hnode] at htip hcnt1 hcnt2 hlab1
          rw [List.isEmpty_iff_eq_nil] at htip
          rw [RNode.children] at htip
          subst htip
          have hl2 := ctl_tip_eq_one hcnt2
          rw [RNode.lab, RNode.data] at hlab1
          rw [hlab1] at hl2
          exact hne (Option.some.inj hl2)
  | cons j1 σ1 ih =>
      intro σ2 π hτ1 hτ2 hv hcnt1 hcnt2
      cases σ2 with
      | nil =>
          exfalso
          rw [List.append_nil] at hτ2
          obtain ⟨hv2, htip⟩ := validTipPath_iff.mp h2v
          rw [← hτ2] at hcnt1 hcnt2
          cases hnode : nodeAtD t τ2 with
          | mk d cs =>
              rw [hnode] at htip hcnt1 hcnt2 hlab2
              rw [List.isEmpty_iff_eq_nil] at htip
              rw [RNode.children] at htip
              subst htip
              have hl1 := ctl_tip_eq_one hcnt1
              rw [RNode.lab, RNode.data] at hlab2
              rw [hlab2] at hl1
              exact hne ((Option.some.inj hl1).symm)
      | cons j2 σ2 =>
          have hle1 : pathLE (π ++ [j1]) τ1 = true := by
            rw [hτ1, show π ++ j1 :: σ1 = (π ++ [j1]) ++ σ1 from
              List.append_cons _ _ _]
            exact pathLE_append _ _
          have hle2 : pathLE (π ++ [j2]) τ2 = true := by
            rw [hτ2, show π ++ j2 :: σ2 = (π ++ [j2]) ++ σ2 from
              List.append_cons _ _ _]
            exact pathLE_append _ _
          have hva : validPath t (π ++ [j1]) = true :=
            validPath_mono hle1 (validTipPath_iff.mp h1v).1
          have hvb : validPath t (π ++ [j2]) = true :=
            validPath_mono hle2 (validTipPath_iff.mp h2v).1
          have hget1 := get?_of_valid_append hva hv
          have hget2 := get?_of_valid_append hvb hv
          have hτ1e : τ1 = (π ++ [j1]) ++ σ1 := by
            rw [hτ1, List.append_cons]
          have hτ2e : τ2 = (π ++ [j2]) ++ σ2 := by
            rw [hτ2, List.append_cons]
          have hmk1 : marked req (π ++ [j1]) = true :=
            marked_of_prefix_mem h1m hle1
          have hmk2 : marked req (π ++ [j2]) = true :=
            marked_of_prefix_mem h2m hle2
          have hc1pos : 1 ≤ countTipLab ℓ1 (nodeAtD t (π ++ [j1])) :=
            ctl_pos_below ℓ1 h1v hlab1 σ1 (π ++ [j1]) hτ1e hva
          have hc2pos : 1 ≤ countTipLab ℓ2 (nodeAtD t (π ++ [j2])) :=
            ctl_pos_below ℓ2 h2v hlab2 σ2 (π ++ [j2]) hτ2e hvb
          cases hnode : nodeAtD t π with
          | mk d cs =>
              rw [hnode, RNode.children] at hget1 hget2
              cases cs with
              | nil => cases hget1
              | cons c0 cs' =>
                  set ca := nodeAtD t (π ++ [j1]) with hca
                  set cb := nodeAtD t (π ++ [j2]) with hcb
                  have htot1 : countTipLabL ℓ1 (c0 :: cs') = 1 := by
                    rw [hnode, countTipLab] at hcnt1
                    exact hcnt1
                  have htot2 : countTipLabL ℓ2 (c0 :: cs') = 1 := by
                    rw [hnode, countTipLab] at hcnt2
                    exact hcnt2
                  have hsib1 := ctl_sibling_zero hget1 htot1 hc1pos
                  have hsib2 := ctl_sibling_zero hget2 htot2 hc2pos
                  have hca1 : countTipLab ℓ1 ca = 1 := by
                    have := ctlL_split (ℓ := ℓ1) hget1
                    omega
                  have hcb2 : countTipLab ℓ2 cb = 1 := by
                    have := ctlL_split (ℓ := ℓ2) hget2
                    omega
                  by_cases hjj : j1 = j2
                  · -- both labels descend into the same child
                    subst hjj
                    have hcc : cb = ca := by rw [hca, hcb]
                    rw [hcc] at hcb2
                    have hOrig : (c0 :: cs').find?
                        (fun x => hasTipLab ℓ1 x && hasTipLab ℓ2 x) =
                        some ca := by
                      refine find?_get _ j1 ca hget1 ?_ ?_
                      · intro k x hk hx
                        rw [hasTipLab_of_zero (hsib1 k x (by omega) hx)]
                        rfl
                      · rw [hasTipLab_of_pos (by omega),
                          hasTipLab_of_pos (by omega)]
                        rfl
                    have hIa : 1 ≤ countTipLab ℓ1
                        (induced req ca (π ++ [j1])) := by
                      have := ctl_induced_pos ℓ1 h1m h1v hlab1 σ1
                        (π ++ [j1]) hτ1e hva
                      rw [← hca] at this
                      exact this
                    have hIb : 1 ≤ countTipLab ℓ2
                        (induced req ca (π ++ [j1])) := by
                      have := ctl_induced_pos ℓ2 h2m h2v hlab2 σ2
                        (π ++ [j1]) hτ2e hva
                      rw [← hca] at this
                      exact this
                    have hInd : (inducedList req (c0 :: cs') π 0).find?
                        (fun x => hasTipLab ℓ1 x && hasTipLab ℓ2 x) =
                        some (induced req ca (π ++ [0 + j1])) := by
                      refine find?_inducedList _ 0 j1 ca hget1
                        (by rw [Nat.zero_add]; exact hmk1) ?_ ?_
                      · intro k x hk hx hmkk
                        rw [Nat.zero_add] at hmkk ⊢
                        have hstep := valid_step hv (show
                          (nodeAtD t π).children.get? k = some x from by
                            rw [hnode]; exact hx)
                        have hle0 := countTipLab_induced_le ℓ1 hval
                          x.size x (π ++ [k]) (Nat.le_refl _)
                          hstep.1 hstep.2 hmkk
                        have hzero : countTipLab ℓ1 x = 0 :=
                          hsib1 k x (by omega) hx
                        rw [hasTipLab_of_zero (by omega)]
                        rfl
                      · rw [Nat.zero_add, hasTipLab_of_pos hIa,
                          hasTipLab_of_pos hIb]
                        rfl
                    rw [Nat.zero_add] at hInd
                    have hIndC : (induced req (RNode.mk d (c0 :: cs'))
                        π).children.find?
                        (fun x => hasTipLab ℓ1 x && hasTipLab ℓ2 x) =
                        some (induced req ca (π ++ [j1])) := by
                      rw [induced_children]
                      exact hInd
                    have hOrigC : (RNode.mk d (c0 :: cs')).children.find?
                        (fun x => hasTipLab ℓ1 x && hasTipLab ℓ2 x) =
                        some ca := hOrig
                    rw [tipDist_eq_some hIndC, tipDist_eq_some hOrigC]
                    have hrec := ih σ2 (π ++ [j1]) hτ1e hτ2e hva
                      (by rw [← hca]; exact hca1)
                      (by rw [← hca]; exact hcb2)
                    rw [← hca] at hrec
                    exact hrec
                  · -- the two labels separate here
                    have hab2 : countTipLab ℓ2 ca = 0 :=
                      hsib2 j1 ca hjj hget1
                    have hOrig : (c0 :: cs').find?
                        (fun x => hasTipLab ℓ1 x && hasTipLab ℓ2 x) =
                        none := by
                      rw [List.find?_eq_none]
                      intro x hxmem habs
                      obtain ⟨k, hk⟩ := List.mem_iff_get?.mp hxmem
                      rw [Bool.and_eq_true] at habs
                      by_cases hkj : k = j1
                      · subst hkj
                        rw [hget1] at hk
                        injection hk with hk
                        subst hk
                        rw [hasTipLab_of_zero hab2] at habs
                        cases habs.2
                      · have := hsib1 k x hkj hk
                        rw [hasTipLab_of_zero this] at habs
                        cases habs.1
                    have hInd : (inducedList req (c0 :: cs') π 0).find?
                        (fun x => hasTipLab ℓ1 x && hasTipLab ℓ2 x) =
                        none := by
                      rw [List.find?_eq_none]
                      intro y hymem habs
                      obtain ⟨k, x, hk, hmkk, rfl⟩ :=
                        mem_inducedList_inv (c0 :: cs') 0 y hymem
                      rw [Nat.zero_add] at hmkk
                      rw [Bool.and_eq_true] at habs
                      have hstep := valid_step hv (show
                        (nodeAtD t π).children.get? k = some x from by
                          rw [hnode]; exact hk)
                      rw [Nat.zero_add] at habs
                      by_cases hkj : k = j1
                      · rw [hkj, hget1] at hk
                        have hxca : ca = x := Option.some.inj hk
                        have hz : countTipLab ℓ2
                            (induced req x (π ++ [k])) = 0 := by
                          have hle0 := countTipLab_induced_le ℓ2 hval
                            x.size x (π ++ [k]) (Nat.le_refl _)
                            hstep.1 hstep.2 hmkk
                          have hx0 : countTipLab ℓ2 x = 0 := by
                            rw [← hxca]
                            exact hab2
                          omega
                        have h2f := habs.2
                        rw [hasTipLab_of_zero hz] at h2f
                        cases h2f
                      · have hzero : countTipLab ℓ1 x = 0 :=
                          hsib1 k x hkj hk
                        have hz : countTipLab ℓ1
                            (induced req x (π ++ [k])) = 0 := by
                          have hle0 := countTipLab_induced_le ℓ1 hval
                            x.size x (π ++ [k]) (Nat.le_refl _)
                            hstep.1 hstep.2 hmkk
                          omega
                        have h1f := habs.1
                        rw [hasTipLab_of_zero hz] at h1f
                        cases h1f
                    have hIndC : (induced req (RNode.mk d (c0 :: cs'))
                        π).children.find?
                        (fun x => hasTipLab ℓ1 x && hasTipLab ℓ2 x) =
                        none := by
                      rw [induced_children]
                      exact hInd
                    have hOrigC : (RNode.mk d (c0 :: cs')).children.find?
                        (fun x => hasTipLab ℓ1 x && hasTipLab ℓ2 x) =
                        none := hOrig
                    rw [tipDist_eq_none hIndC, tipDist_eq_none hOrigC]
                    have hd1 := downTo_induced ℓ1 hval h1m h1v hlab1
                      (j1 :: σ1) π hτ1 hv hcnt1
                    have hd2 := downTo_induced ℓ2 hval h2m h2v hlab2
                      (j2 :: σ2) π hτ2 hv hcnt2
                    rw [hnode] at hd1 hd2
                    rw [hd1, hd2]

theorem downTo_congr (ℓ : String) (d d' : NodeData) (cs : List RNode) :
    downTo ℓ (.mk d cs) = downTo ℓ (.mk d' cs) := by
  cases h : cs.find? (fun x => hasTipLab ℓ x) with
  | some c =>
      rw [downTo_eq_some (show (RNode.mk d cs).children.find? _ =
          some c from h),
        downTo_eq_some (show (RNode.mk d' cs).children.find? _ =
          some c from h)]
  | none =>
      rw [downTo_eq_none (show (RNode.mk d cs).children.find? _ =
          none from h),
        downTo_eq_none (show (RNode.mk d' cs).children.find? _ =
          none from h)]

theorem tipDist_congr (ℓ1 ℓ2 : String) (d d' : NodeData)
    (cs : List RNode) :
    tipDist ℓ1 ℓ2 (.mk d cs) = tipDist ℓ1 ℓ2 (.mk d' cs) := by
  cases h : cs.find? (fun x => hasTipLab ℓ1 x && hasTipLab ℓ2 x) with
  | some c =>
      rw [tipDist_eq_some (show (RNode.mk d cs).children.find? _ =
          some c from h),
        tipDist_eq_some (show (RNode.mk d' cs).children.find? _ =
          some c from h)]
  | none =>
      rw [tipDist_eq_none (show (RNode.mk d cs).children.find? _ =
          none from h),
        tipDist_eq_none (show (RNode.mk d' cs).children.find? _ =
          none from h),
        downTo_congr ℓ1 d d' cs, downTo_congr ℓ2 d d' cs]

theorem countTipLab_congr (ℓ : String) (d d' : NodeData) (y : RNode)
    (ys : List RNode) :
    countTipLab ℓ (.mk d (y :: ys)) = countTipLab ℓ (.mk d' (y :: ys)) := by
  rw [countTipLab, countTipLab]

/-- C8 (formal reading).  For every connected node graph and every
requested set of its terminal nodes — given as node addresses of
terminal nodes — containing two tips that carry the only occurrences of
the labels `ℓ1 ≠ ℓ2`: the tree returned by `phy_extract_subtree`
contains no node with exactly one descendant, retains exactly one tip
labeled `ℓ1` and one labeled `ℓ2`, and the total branch length along
the direct path between those two tips is the same in the extracted
tree as in the original. -/
theorem C8_extract_subtree (t : RNode) (req : List NPath)
    (τ1 τ2 : NPath) (ℓ1 ℓ2 : String)
    (hreq : ∀ τ ∈ req, validTipPath t τ = true)
    (h1 : τ1 ∈ req) (h2 : τ2 ∈ req)
    (hl1 : (nodeAtD t τ1).lab = some ℓ1)
    (hl2 : (nodeAtD t τ2).lab = some ℓ2)
    (hu1 : countTipLab ℓ1 t = 1) (hu2 : countTipLab ℓ2 t = 1)
    (hne : ℓ1 ≠ ℓ2) :
    noUnif (extractTree req t) = true ∧
    countTipLab ℓ1 (extractTree req t) = 1 ∧
    countTipLab ℓ2 (extractTree req t) = 1 ∧
    tipDist ℓ1 ℓ2 (extractTree req t) = tipDist ℓ1 ℓ2 t := by
  have hv1 : validTipPath t τ1 = true := hreq τ1 h1
  have hv2 : validTipPath t τ2 = true := hreq τ2 h2
  cases hτ1c : τ1 with
  | nil =>
      exfalso
      rw [hτ1c] at hv1 hl1
      obtain ⟨_, htip⟩ := validTipPath_iff.mp hv1
      rw [show nodeAtD t [] = t from rfl] at htip hl1
      cases ht : t with
      | mk d cs =>
          rw [ht] at htip hl1 hv2 hl2
          rw [List.isEmpty_iff_eq_nil, RNode.children] at htip
          subst htip
          have hτ2nil : τ2 = [] :=
            valid_in_tip (validTipPath_iff.mp hv2).1
          rw [hτ2nil,
            show nodeAtD (RNode.mk d []) [] = RNode.mk d [] from rfl]
            at hl2
          rw [hl1] at hl2
          exact hne (Option.some.inj hl2)
  | cons j1 σ1 =>
      have hmroot : marked req [] = true :=
        marked_of_prefix_mem h1 (pathLE_nil τ1)
      have hvroot : validPath t [] = true := rfl
      have hnode0 : nodeAtD t [] = t := rfl
      have hleJ : pathLE [j1] τ1 = true := by
        rw [hτ1c]
        rw [pathLE]
        simp [pathLE]
      have hvJ : validPath t [j1] = true :=
        validPath_mono hleJ (validTipPath_iff.mp hv1).1
      have hvJa : validPath t ([] ++ [j1]) = true := hvJ
      have hgetJ := get?_of_valid_append hvJa hvroot
      rw [hnode0, List.nil_append] at hgetJ
      have hmkJ : marked req [j1] = true :=
        marked_of_prefix_mem h1 hleJ
      have hcle1 := countTipLab_induced_le ℓ1 hreq t.size t []
        (Nat.le_refl _) hvroot hnode0 hmroot
      have hcle2 := countTipLab_induced_le ℓ2 hreq t.size t []
        (Nat.le_refl _) hvroot hnode0 hmroot
      have hcge1 := ctl_induced_pos ℓ1 h1 hv1 hl1 τ1 []
        (by rw [List.nil_append]) hvroot
      have hcge2 := ctl_induced_pos ℓ2 h2 hv2 hl2 τ2 []
        (by rw [List.nil_append]) hvroot
      rw [hnode0] at hcge1 hcge2
      have hcI1 : countTipLab ℓ1 (induced req t []) = 1 := by omega
      have hcI2 : countTipLab ℓ2 (induced req t []) = 1 := by omega
      have hfinal := tipDist_induced ℓ1 ℓ2 hreq h1 hv1 hl1
        h2 hv2 hl2 hne τ1 τ2 []
        (by rw [List.nil_append]) (by rw [List.nil_append])
        hvroot hu1 hu2
      rw [hnode0] at hfinal
      cases ht : t with
      | mk d cs =>
          rw [← ht]
          have hcs : t.children = cs := by rw [ht]; rfl
          rw [hcs] at hgetJ
          have hmem0 := mem_inducedList cs 0 j1 (nodeAtD t [j1]) hgetJ
            (show marked req (([] : NPath) ++ [0 + j1]) = true from by
              rw [Nat.zero_add, List.nil_append]
              exact hmkJ)
          have hind_unfold : induced req t [] =
              RNode.mk { lab := d.lab, note := none, brlen := d.brlen }
                (inducedList req cs [] 0) := by
            rw [ht, induced]
          cases hlist : inducedList req cs [] 0 with
          | nil => rw [hlist] at hmem0; cases hmem0
          | cons y ys =>
              rw [hlist] at hind_unfold
              have hroots : inducedRoot req t =
                  RNode.mk {} (y :: ys) := by
                rw [inducedRoot, hcs, hlist]
              have hcR1 : countTipLab ℓ1 (inducedRoot req t) = 1 := by
                rw [hroots, countTipLab]
                rw [hind_unfold, countTipLab] at hcI1
                exact hcI1
              have hcR2 : countTipLab ℓ2 (inducedRoot req t) = 1 := by
                rw [hroots, countTipLab]
                rw [hind_unfold, countTipLab] at hcI2
                exact hcI2
              have hdistR : tipDist ℓ1 ℓ2 (inducedRoot req t) =
                  tipDist ℓ1 ℓ2 (induced req t []) := by
                rw [hroots, hind_unfold]
                exact tipDist_congr ℓ1 ℓ2 _ _ _
              refine ⟨noUnif_collapseTop _, ?_, ?_, ?_⟩
              · rw [extractTree, countTipLab_collapseTop]
                exact hcR1
              · rw [extractTree, countTipLab_collapseTop]
                exact hcR2
              · rw [extractTree,
                  tipDist_collapseTop ℓ1 ℓ2 (inducedRoot req t)
                    (hasTipLab_of_pos (by omega))
                    (hasTipLab_of_pos (by omega)),
                  hdistR]
                exact hfinal

/-- Witness for C8: extracting the tips `B`, `C`, `D` from the scenario
tree (tip `A` dropped, its parent spliced into `B`'s branch). -/
theorem C8_extract_witness :
    (∀ τ ∈ ([[0, 1], [1, 0], [1, 1]] : List NPath),
      validTipPath phyRooted.tree τ = true) ∧
    noUnif (extractTree [[0, 1], [1, 0], [1, 1]] phyRooted.tree) = true ∧
    countTipLab "B"
      (extractTree [[0, 1], [1, 0], [1, 1]] phyRooted.tree) = 1 ∧
    tipDist "B" "C"
      (extractTree [[0, 1], [1, 0], [1, 1]] phyRooted.tree) =
      tipDist "B" "C" phyRooted.tree := by
  have h := C8_extract_subtree phyRooted.tree
    [[0, 1], [1, 0], [1, 1]] [0, 1] [1, 0] "B" "C"
    (by decide) (by decide) (by decide) (by decide) (by decide)
    (by decide) (by decide) (by decide)
  exact ⟨by decide, h.1, h.2.1, h.2.2.2⟩
